import Mathlib

/-!
# Verification of the unifi-timelapse merger (`main.go`)

Shallow embedding of the single-file Go program that discovers Unifi Protect
video segments, orders them chronologically, writes an ffmpeg concat manifest
and invokes ffmpeg.

Modelling conventions:
* Go strings are UTF-8 byte slices; every pattern the program matches against
  (`.mp4`, the date regex, quote escaping, the sanitizer table) is pure ASCII,
  so strings are modelled as `List Char` (non-ASCII bytes can never collide
  with ASCII pattern bytes).
* `time.Time` values only ever flow into `Before`/`After` comparisons, which
  Go implements on the internal count of seconds since Jan 1 of year 1
  (the zero `time.Time`). Instants are therefore modelled as `Int` seconds
  since that epoch (sub-second resolution is irrelevant to the program:
  parsed stamps always have zero nanoseconds).
* The filesystem and the ffmpeg child process are external collaborators and
  enter the model as explicit inputs (walk event lists, `os.Stat` results,
  process exit status).
-/

/-- ASCII digit test, Go regexp's `\d` class (RE2 `\d` is `[0-9]` only). -/
def isDigitGo (c : Char) : Bool := decide ('0' ≤ c ∧ c ≤ '9')

/-- Numeric value of an ASCII digit. -/
def digVal (c : Char) : Nat := c.toNat - '0'.toNat

/-- Value of a decimal digit string (most significant first). -/
def natOfDigits (l : List Char) : Nat := l.foldl (fun n c => n * 10 + digVal c) 0

/-- The characters matched by Go regexp's Perl `\s` class: `[\t\n\f\r ]`. -/
def isRE2Space (c : Char) : Bool :=
  decide (c = ' ' ∨ c = '\t' ∨ c = '\n' ∨ c = '\x0c' ∨ c = '\r')

/-- `listStartsWith s p` : does `s` begin with `p` (Go `strings.HasPrefix`,
byte-for-byte)? -/
def listStartsWith : List Char → List Char → Bool
  | _, [] => true
  | [], _ :: _ => false
  | c :: cs, p :: ps => decide (c = p) && listStartsWith cs ps

/-- `listEndsWith s p` : does `s` end with `p` (Go `strings.HasSuffix`)? -/
def listEndsWith (s p : List Char) : Bool := listStartsWith s.reverse p.reverse

/-- Worker for `goReplaceAll`: pattern is `p :: ps` (non-empty), replaces
leftmost non-overlapping occurrences, scanning left to right exactly like
Go `strings.Replace` with `n < 0`. Structured as fuel recursion (so that it
reduces definitionally); each step consumes at least one character, so fuel
`s.length` is always sufficient. -/
def replaceAllAux (p : Char) (ps rep : List Char) : Nat → List Char → List Char
  | _, [] => []
  | 0, s => s
  | fuel + 1, c :: cs =>
    if listStartsWith (c :: cs) (p :: ps) then
      rep ++ replaceAllAux p ps rep fuel (cs.drop ps.length)
    else
      c :: replaceAllAux p ps rep fuel cs

/-- Go `strings.ReplaceAll old new` on `s`. The program only ever calls it
with non-empty `old` (`"\\"`, `"'"` and the sanitizer's single characters),
so the empty-pattern behaviour of Go (insertion between characters) is not
modelled. -/
def goReplaceAll (pat rep s : List Char) : List Char :=
  match pat with
  | [] => s
  | p :: ps => replaceAllAux p ps rep s.length s

/-- Go `strings.ToLower` on one character. The program compares lowered text
only against the ASCII literal `".mp4"`; Unicode simple case mapping never
maps a non-ASCII character to an ASCII one, so mapping non-ASCII characters
to themselves is faithful for every comparison the program performs. -/
def goToLowerChar (c : Char) : Char :=
  if 'A' ≤ c ∧ c ≤ 'Z' then Char.ofNat (c.toNat + 32) else c

/-- Go `strings.ToLower`. -/
def goToLower (s : List Char) : List Char := s.map goToLowerChar

/-- Go `unicode.IsSpace` (the cut set of `strings.TrimSpace`): Latin-1 white
space plus the Unicode `White_Space` code points. -/
def goIsSpace (c : Char) : Bool :=
  decide (c = ' ' ∨ c = '\t' ∨ c = '\n' ∨ c = '\x0b' ∨ c = '\x0c' ∨ c = '\r' ∨
    c.toNat = 0x85 ∨ c.toNat = 0xA0 ∨ c.toNat = 0x1680 ∨
    (0x2000 ≤ c.toNat ∧ c.toNat ≤ 0x200A) ∨ c.toNat = 0x2028 ∨ c.toNat = 0x2029 ∨
    c.toNat = 0x202F ∨ c.toNat = 0x205F ∨ c.toNat = 0x3000)

/-- Go `strings.TrimSpace`: drop `unicode.IsSpace` characters from both ends. -/
def goTrimSpace (s : List Char) : List Char :=
  ((s.dropWhile goIsSpace).reverse.dropWhile goIsSpace).reverse

/-- The replacement table of `sanitizeFilename` (main.go line 227):
`/ \ : * ? " < > |` and space. -/
def invalidFilenameChars : List Char :=
  ['/', '\\', ':', '*', '?', '"', '<', '>', '|', ' ']

/-- main.go lines 225-233: replace each invalid character with `_` (one
`strings.ReplaceAll` per character, in table order), then `strings.TrimSpace`. -/
def sanitizeFilename (name : List Char) : List Char :=
  goTrimSpace (invalidFilenameChars.foldl (fun result c => goReplaceAll [c] ['_'] result) name)

/-! ## Instants (Go `time.Time` restricted to what the program uses) -/

/-- Go `time.isLeap`. -/
def goIsLeap (y : Nat) : Bool := decide (y % 4 = 0 ∧ (y % 100 ≠ 0 ∨ y % 400 = 0))

/-- Go `time.daysIn(m, year)` for `m` in 1..12. -/
def daysIn (month year : Nat) : Nat :=
  if month = 2 then (if goIsLeap year then 29 else 28)
  else if month = 1 ∨ month = 3 ∨ month = 5 ∨ month = 7 ∨ month = 8 ∨
      month = 10 ∨ month = 12 then 31
  else 30

/-- Cumulative days before month `m` (1-based) in a non-leap year, as in Go
`time`'s `daysBefore` table. Index 0 is unused. -/
def daysBeforeMonth (m : Nat) : Nat :=
  [0, 0, 31, 59, 90, 120, 151, 181, 212, 243, 273, 304, 334].getD m 0

/-- Days from Jan 1 of year 1 (the zero `time.Time`) to Jan 1 of year `y`,
proleptic Gregorian as in Go's absolute-time arithmetic. Year 0 (reachable:
the regex accepts the 4-digit year `0000`) is one leap year before year 1. -/
def daysBeforeYear (y : Nat) : Int :=
  if y = 0 then -366
  else Int.ofNat (365 * (y - 1) + (y - 1) / 4 - (y - 1) / 100 + (y - 1) / 400)

/-- The instant (seconds since the zero `time.Time`, i.e. Jan 1 year 1
00:00:00) denoted by a calendar date, as computed by Go `time.Date` with the
UTC-like naive location `time.Parse` uses for layouts without a zone. -/
def instantOfDate (y mo d hh mi ss : Nat) : Int :=
  (daysBeforeYear y + Int.ofNat (daysBeforeMonth mo) +
      (if 2 < mo ∧ goIsLeap y then 1 else 0) + Int.ofNat d - 1) * 86400 +
    Int.ofNat (hh * 3600 + mi * 60 + ss)

/-- The zero `time.Time` (`time.Time{}`), returned by `extractDateFromPath`
when both the filename parse and `os.Stat` fail. -/
def zeroInstant : Int := 0

/-- Go `t.Before(u)`: strict comparison of instants. -/
def goTimeBefore (t u : Int) : Bool := decide (t < u)

/-- Go `t.After(u)`. -/
def goTimeAfter (t u : Int) : Bool := decide (u < t)

/-! ## The date regex (main.go line 25)

`(\d{1,2})-(\d{1,2})-(\d{4}),\s+(\d{2})[.:](\d{2})[.:](\d{2})`

compiled with `regexp.MustCompile` (Perl, leftmost-first semantics) and used
through `FindStringSubmatch` (first match only). The matcher below is
specialised to this one pattern. Backtracking notes justifying the
deterministic implementation:
* `\d{1,2}` prefers two digits over one; both occurrences are followed by the
  literal `-`, and a digit is never `-`, so the preference order
  (2,2),(2,1),(1,2),(1,1) is realised by nested `<|>`.
* `\s+` is greedy and is followed by `\d{2}`; `\s` and `\d` are disjoint, so
  consuming the maximal whitespace run is equivalent to full backtracking.
-/

/-- The six capture groups, as matched substrings. -/
structure DTGroups where
  mo : List Char
  d : List Char
  y : List Char
  hh : List Char
  mi : List Char
  ss : List Char
deriving DecidableEq, Repr

/-- Match exactly one `\d`. -/
def digits1 : List Char → Option (List Char × List Char)
  | c :: cs => if isDigitGo c then some ([c], cs) else none
  | [] => none

/-- Match exactly two `\d`. -/
def digits2 : List Char → Option (List Char × List Char)
  | a :: b :: cs => if isDigitGo a && isDigitGo b then some ([a, b], cs) else none
  | _ => none

/-- Match exactly four `\d`. -/
def digits4 : List Char → Option (List Char × List Char)
  | a :: b :: c :: d :: cs =>
    if isDigitGo a && isDigitGo b && isDigitGo c && isDigitGo d then
      some ([a, b, c, d], cs)
    else none
  | _ => none

/-- Match one literal character. -/
def expectChar (x : Char) : List Char → Option (List Char)
  | c :: cs => if c = x then some cs else none
  | [] => none

/-- Match the class `[.:]`. -/
def sepDotOrColon : List Char → Option (List Char)
  | c :: cs => if c = '.' ∨ c = ':' then some cs else none
  | [] => none

/-- Match `\s+` (greedy; see the header comment for why maximal-run is
equivalent to backtracking here). -/
def spacesPlus : List Char → Option (List Char)
  | c :: cs => if isRE2Space c then some (cs.dropWhile isRE2Space) else none
  | [] => none

/-- Continuation after month and day groups are fixed. -/
def matchAfterDay (moG dG : List Char) (s : List Char) : Option DTGroups := do
  let s ← expectChar '-' s
  let (yG, s) ← digits4 s
  let s ← expectChar ',' s
  let s ← spacesPlus s
  let (hG, s) ← digits2 s
  let s ← sepDotOrColon s
  let (miG, s) ← digits2 s
  let s ← sepDotOrColon s
  let (sG, _) ← digits2 s
  pure ⟨moG, dG, yG, hG, miG, sG⟩

/-- Continuation after the month group is fixed: `-`, then day (two digits
preferred over one), then the rest. -/
def matchAfterMonth (moG : List Char) (s : List Char) : Option DTGroups := do
  let s ← expectChar '-' s
  (do
    let (dG, s2) ← digits2 s
    matchAfterDay moG dG s2) <|>
  (do
    let (dG, s2) ← digits1 s
    matchAfterDay moG dG s2)

/-- Attempt a match anchored at the start of `s`. -/
def matchAt (s : List Char) : Option DTGroups :=
  (do
    let (moG, s1) ← digits2 s
    matchAfterMonth moG s1) <|>
  (do
    let (moG, s1) ← digits1 s
    matchAfterMonth moG s1)

/-- `re.FindStringSubmatch`: the leftmost match (scan start positions left to
right), or `none`. -/
def goFindFirstMatch : List Char → Option DTGroups
  | [] => none
  | c :: cs =>
    match matchAt (c :: cs) with
    | some g => some g
    | none => goFindFirstMatch cs

/-! ## `time.Parse` for the layout `"1-2-2006, 15:04:05"` (main.go line 27)

Only the stdlib behaviour reachable from this layout is modelled: `getnum`
with 1-2 digits for month/day/hour, fixed 2 digits for minute/second, 4
digits for the year, exact literal separators, the per-field range checks
(hour < 24, minute < 60, second < 60) and the final calendar checks
(month 1..12, day 1..daysIn(month, year)). A layout without a zone yields a
naive time (UTC location), so the result is just the instant. -/

/-- Go `time.getnum` with `fixed = false`: one digit, or two if the next
character is also a digit. -/
def getnum1or2 : List Char → Option (Nat × List Char)
  | [] => none
  | c :: cs =>
    if isDigitGo c then
      match cs with
      | d :: ds => if isDigitGo d then some (digVal c * 10 + digVal d, ds) else some (digVal c, d :: ds)
      | [] => some (digVal c, [])
    else none

/-- Go `time.getnum` with `fixed = true` (exactly two digits). -/
def getnum2 : List Char → Option (Nat × List Char)
  | a :: b :: cs =>
    if isDigitGo a && isDigitGo b then some (digVal a * 10 + digVal b, cs) else none
  | _ => none

/-- The `stdLongYear` parser: exactly four digits. -/
def getnum4 : List Char → Option (Nat × List Char)
  | a :: b :: c :: d :: cs =>
    if isDigitGo a && isDigitGo b && isDigitGo c && isDigitGo d then
      some (digVal a * 1000 + digVal b * 100 + digVal c * 10 + digVal d, cs)
    else none
  | _ => none

/-- `time.Parse` continuation once month and day have been read: year,
literal `", "`, hour, minute, second, the end-of-input check, the field
range checks (hour < 24, minute < 60, second < 60, set while scanning) and
the final calendar checks (month 1..12, day 1..daysIn). -/
def goTimeParseTail (mo d : Nat) (s : List Char) : Option Int := do
  let (y, s) ← getnum4 s
  let s ← expectChar ',' s
  let s ← expectChar ' ' s
  let (hh, s) ← getnum1or2 s
  if 24 ≤ hh then none
  else do
    let s ← expectChar ':' s
    let (mi, s) ← getnum2 s
    if 60 ≤ mi then none
    else do
      let s ← expectChar ':' s
      let (ss, s) ← getnum2 s
      if 60 ≤ ss then none
      else if s ≠ [] then none        -- "extra text" error
      else if mo < 1 ∨ 12 < mo then none
      else if d < 1 ∨ daysIn mo y < d then none
      else some (instantOfDate y mo d hh mi ss)

/-- `time.Parse("1-2-2006, 15:04:05", s)`, returning the parsed instant or
`none` on any parse/range error. -/
def goTimeParse (s : List Char) : Option Int := do
  let (mo, s) ← getnum1or2 s
  let s ← expectChar '-' s
  let (d, s) ← getnum1or2 s
  let s ← expectChar '-' s
  goTimeParseTail mo d s

/-- `fmt.Sprintf("%s-%s-%s, %s:%s:%s", ...)` of main.go line 210: rebuild the
date-time string from the capture groups, normalising separators to `:`. -/
def rebuildDateTimeStr (g : DTGroups) : List Char :=
  g.mo ++ ['-'] ++ g.d ++ ['-'] ++ g.y ++ [',', ' '] ++ g.hh ++ [':'] ++ g.mi ++ [':'] ++ g.ss

/-- Go `filepath.Base` (without Windows volume-name handling, which the
program's relative `videos/...` walk paths never exercise): strip trailing
separators, then keep everything after the last separator. `sep` is the OS
path separator (`/` or `\`). -/
def goFilepathBase (sep : Char) (path : List Char) : List Char :=
  if path = [] then ['.']
  else
    let p := (path.reverse.dropWhile (fun c => c = sep)).reverse
    if p = [] then [sep]
    else (p.reverse.takeWhile (fun c => c ≠ sep)).reverse

/-- main.go lines 203-215: the regex-and-parse stage of
`extractDateFromPath`, applied to a base name. `some t` iff the first regex
match parses successfully. -/
def goExtractParsed (filename : List Char) : Option Int :=
  match goFindFirstMatch filename with
  | some g => goTimeParse (rebuildDateTimeStr g)
  | none => none

/-- main.go lines 203-221: full `extractDateFromPath`. `stat` is the result
of `os.Stat(filePath)`: `some t` gives `ModTime` as an instant, `none` is a
stat error. -/
def extractDateFromPath (sep : Char) (filePath : List Char) (stat : Option Int) : Int :=
  match goExtractParsed (goFilepathBase sep filePath) with
  | some t => t
  | none =>
    match stat with
    | some t => t
    | none => zeroInstant

/-! ## Manifest serialization (main.go lines 143-163) -/

/-- Backslash-to-forward-slash normalization (line 154). -/
def normalizeSlashes (p : List Char) : List Char := goReplaceAll ['\\'] ['/'] p

/-- The Go string literal `"'\\''"`: the four characters `'`, `\`, `'`, `'`. -/
def quoteEscapeRep : List Char := ['\'', '\\', '\'', '\'']

/-- Quote escaping (line 156): each `'` becomes `'\''`. -/
def escapeQuotes (p : List Char) : List Char := goReplaceAll ['\''] quoteEscapeRep p

/-- The path text written between the quotes of a manifest line:
normalization then escaping. -/
def manifestPathText (p : List Char) : List Char := escapeQuotes (normalizeSlashes p)

/-- One manifest line, `file '<escaped>'` plus newline (line 157). -/
def manifestLine (p : List Char) : List Char :=
  "file '".toList ++ manifestPathText p ++ ['\'', '\n']

/-- The whole `inputs.txt` content, lines in sequence order. -/
def manifestContent (files : List (List Char)) : List Char :=
  files.foldr (fun f acc => manifestLine f ++ acc) []

/-- The inverse substitution of the quote escape (each `'\''` back to `'`),
the decoding direction of the spec's manifest round-trip property. -/
def unescapeQuotes (p : List Char) : List Char := goReplaceAll quoteEscapeRep ['\''] p

/-! ## ffmpeg invocation (main.go lines 165-197) -/

/-- Decimal digit characters of `n` (most significant first). -/
def natToDigits (n : Nat) : List Char :=
  (Nat.toDigits 10 n)

/-- Round half to even at integer precision, as Go `strconv`'s fixed-point
decimal formatting does. The model rounds the exact rational; the Go code
rounds the binary double `1.0 / speed` — identical on every value whose
6-decimal expansion is not within one double-ulp of a tie, in particular on
all the concrete values appearing below. -/
def roundHalfEven (q : ℚ) : Int :=
  let f := Int.floor q
  let r := q - (f : ℚ)
  if r < 1/2 then f
  else if 1/2 < r then f + 1
  else if f % 2 = 0 then f else f + 1

/-- `fmt.Sprintf("%.6f", q)` for `q ≥ 0`. -/
def fmt6 (q : ℚ) : List Char :=
  let n := (roundHalfEven (q * 1000000)).toNat
  let ip := n / 1000000
  let fp := n % 1000000
  let fpDigits := natToDigits fp
  natToDigits ip ++ ['.'] ++ (List.replicate (6 - fpDigits.length) '0' ++ fpDigits)

/-- Line 171: `speedFactor := 1.0 / speed`. -/
def speedFactor (speed : ℚ) : ℚ := 1 / speed

/-- Line 176: the `-filter_complex` argument. -/
def setptsFilterArg (speed : ℚ) : List Char :=
  "[0:v]setpts=".toList ++ fmt6 (speedFactor speed) ++ "*PTS[v]".toList

/-- Lines 168-190: the full ffmpeg argument vector. -/
def runFFmpegArgs (inputsF outputF : List Char) (useGPU : Bool) (speed : ℚ) :
    List (List Char) :=
  (["-f", "concat", "-safe", "0", "-i"].map String.toList ++ [inputsF] ++
    ["-filter_complex"].map String.toList ++ [setptsFilterArg speed] ++
    ["-map", "[v]"].map String.toList) ++
  (if useGPU then ["-c:v", "h264_nvenc", "-preset", "p4", "-cq", "23"].map String.toList
   else ["-c:v", "libx264", "-preset", "medium", "-crf", "23"].map String.toList) ++
  (["-pix_fmt", "yuv420p", "-y"].map String.toList ++ [outputF])

/-! ## Discovery (main.go lines 110-141) -/

/-- One event of the `filepath.Walk` traversal: either a visited entry (path
in walk order, with its regular-file bit) or a walk error passed to the
callback, which `findVideoFiles` propagates, aborting the walk. -/
inductive WalkEvent where
  | entry (path : List Char) (isRegular : Bool)
  | fail (e : Nat)
deriving DecidableEq, Repr

/-- `".mp4"` (the `videoExt` constant, line 20). -/
def videoExtChars : List Char := ".mp4".toList

/-- main.go lines 112-141: filter the walk events. Regular files whose
lowered path ends in `.mp4` and whose base name starts with the camera name
are collected as absolute paths (`abs` models `filepath.Abs`); the first walk
error aborts and is returned. -/
def findVideoFiles (sep : Char) (abs : List Char → List Char)
    (cameraName : List Char) : List WalkEvent → List (List Char) × Option Nat
  | [] => ([], none)
  | .fail e :: _ => ([], some e)
  | .entry p reg :: rest =>
    let r := findVideoFiles sep abs cameraName rest
    if !reg then r
    else if !listEndsWith (goToLower p) videoExtChars then r
    else if listStartsWith (goFilepathBase sep p) cameraName then (abs p :: r.1, r.2)
    else r

/-! ## `sort.Slice` (Go ≥ 1.19: pdqsort, stdlib `sort/zsortfunc.go`)

main.go line 84 sorts the discovered files with `sort.Slice`, whose
documentation states the sort is NOT guaranteed to be stable. The complete
algorithm is embedded below over a `List α` state: `data.Less(i, j)` is
`less (l.get! i) (l.get! j)` and `data.Swap(i, j)` exchanges elements, which
agrees with Go's index-based closure because the comparator reads the slice
being permuted. Loops whose indices converge are given fuel bounded by the
segment length (always sufficient: each iteration strictly shrinks the
active range); all other loops terminate structurally. -/

/-- `data.Swap(i, j)` on the list state. -/
def swapL [Inhabited α] (l : List α) (i j : Nat) : List α :=
  let u := l.get! i
  let v := l.get! j
  (l.set i v).set j u

/-- The inner loop of `insertionSort_func`:
`for j := i; j > a && data.Less(j, j-1); j-- { data.Swap(j, j-1) }`
(structural recursion on `j`, which decreases by exactly one per step). -/
def insInnerGo [Inhabited α] (less : α → α → Bool) (a : Nat) : List α → Nat → List α
  | l, 0 => l
  | l, j + 1 =>
    if j + 1 > a ∧ less (l.get! (j + 1)) (l.get! j) then
      insInnerGo less a (swapL l (j + 1) j) j
    else l

/-- The outer loop of `insertionSort_func`, `for i := a + 1; i < b; i++`,
as fuel recursion (fuel ≥ b - i is sufficient; `insertionSortGo` passes `b`). -/
def insOuterGo [Inhabited α] (less : α → α → Bool) (a b : Nat) : Nat → List α → Nat → List α
  | 0, l, _ => l
  | fuel + 1, l, i =>
    if i < b then insOuterGo less a b fuel (insInnerGo less a l i) (i + 1) else l

/-- `insertionSort_func(data, a, b)`. -/
def insertionSortGo [Inhabited α] (less : α → α → Bool) (l : List α) (a b : Nat) : List α :=
  insOuterGo less a b b l (a + 1)

/-- `siftDown_func(data, lo, hi, first)` (lo is the moving root; the root at
least doubles each step, so fuel `hi` is always sufficient; callers pass it). -/
def siftDownGo [Inhabited α] (less : α → α → Bool) (hi first : Nat) : Nat → List α → Nat → List α
  | 0, l, _ => l
  | fuel + 1, l, root =>
    let child := 2 * root + 1
    if child ≥ hi then l
    else
      let child := if child + 1 < hi ∧ less (l.get! (first + child)) (l.get! (first + child + 1)) then child + 1 else child
      if ¬ less (l.get! (first + root)) (l.get! (first + child)) then l
      else siftDownGo less hi first fuel (swapL l (first + root) (first + child)) child

/-- Heap construction: `for i := (hi-1)/2; i >= 0; i--` (runs for `i` from
the start value down to 0 inclusive). -/
def heapBuildGo [Inhabited α] (less : α → α → Bool) (hi first : Nat) : List α → Nat → List α
  | l, i =>
    let l := siftDownGo less hi first hi l i
    match i with
    | 0 => l
    | i' + 1 => heapBuildGo less hi first l i'

/-- Heap extraction: `for i := hi - 1; i >= 0; i-- { Swap(first, first+i); siftDown(lo, i, first) }`. -/
def heapExtractGo [Inhabited α] (less : α → α → Bool) (first : Nat) : List α → Nat → List α
  | l, i =>
    let l := siftDownGo less i first i (swapL l first (first + i)) 0
    match i with
    | 0 => l
    | i' + 1 => heapExtractGo less first l i'

/-- `heapSort_func(data, a, b)`. -/
def heapSortGo [Inhabited α] (less : α → α → Bool) (l : List α) (a b : Nat) : List α :=
  let first := a
  let hi := b - a
  let l := heapBuildGo less hi first l ((hi - 1) / 2)
  if hi = 0 then l else heapExtractGo less first l (hi - 1)

/-- `reverseRange_func(data, a, b)`: `i, j := a, b-1; for i < j { Swap; i++; j-- }`
(fuel ≥ j - i is sufficient; the caller passes `b`). -/
def reverseRangeGo [Inhabited α] : Nat → List α → Nat → Nat → List α
  | 0, l, _, _ => l
  | fuel + 1, l, i, j =>
    if i < j then reverseRangeGo fuel (swapL l i j) (i + 1) (j - 1) else l

/-- Truncation to `uint64`. -/
def u64 (n : Nat) : Nat := n % (2 ^ 64)

/-- `xorshift.Next()`: `*r ^= *r << 13; *r ^= *r >> 7; *r ^= *r << 17`. -/
def xorshiftNext (r : Nat) : Nat :=
  let r := u64 (Nat.xor r (u64 (r <<< 13)))
  let r := u64 (Nat.xor r (r >>> 7))
  u64 (Nat.xor r (u64 (r <<< 17)))

/-- Fuel worker for `bitsLen` (fuel ≥ n is sufficient). -/
def bitsLenAux : Nat → Nat → Nat
  | 0, _ => 0
  | fuel + 1, n => if n = 0 then 0 else bitsLenAux fuel (n / 2) + 1

/-- `bits.Len(uint(n))`: number of bits to represent `n`. -/
def bitsLen (n : Nat) : Nat := bitsLenAux n n

/-- `nextPowerOfTwo(length) = 1 << bits.Len(uint(length))`. -/
def nextPowerOfTwo (length : Nat) : Nat := 2 ^ bitsLen length

/-- `breakPatterns_func(data, a, b)`: three pseudo-random swaps around the
midpoint, xorshift seeded with the length. -/
def breakPatternsGo [Inhabited α] (l : List α) (a b : Nat) : List α :=
  let length := b - a
  if length ≥ 8 then
    let modulus := nextPowerOfTwo length
    let idx := a + (length / 4) * 2 - 1
    let r1 := xorshiftNext length
    let o1 := Nat.land r1 (modulus - 1)
    let o1 := if o1 ≥ length then o1 - length else o1
    let l := swapL l (idx - 1) (a + o1)
    let r2 := xorshiftNext r1
    let o2 := Nat.land r2 (modulus - 1)
    let o2 := if o2 ≥ length then o2 - length else o2
    let l := swapL l idx (a + o2)
    let r3 := xorshiftNext r2
    let o3 := Nat.land r3 (modulus - 1)
    let o3 := if o3 ≥ length then o3 - length else o3
    swapL l (idx + 1) (a + o3)
  else l

/-- `order2_func(data, a, b, &swaps)`: order two indices by the data, counting
a virtual swap. -/
def order2Go [Inhabited α] (less : α → α → Bool) (l : List α) (a b swaps : Nat) :
    Nat × Nat × Nat :=
  if less (l.get! b) (l.get! a) then (b, a, swaps + 1) else (a, b, swaps)

/-- `median_func(data, a, b, c, &swaps)`. -/
def medianGo [Inhabited α] (less : α → α → Bool) (l : List α) (a b c swaps : Nat) :
    Nat × Nat :=
  let (a, b, swaps) := order2Go less l a b swaps
  let (b, _, swaps) := order2Go less l b c swaps
  let (_, b, swaps) := order2Go less l a b swaps
  (b, swaps)

/-- `medianAdjacent_func(data, i, &swaps)`: median of i-1, i, i+1. -/
def medianAdjacentGo [Inhabited α] (less : α → α → Bool) (l : List α) (i swaps : Nat) :
    Nat × Nat :=
  medianGo less l (i - 1) i (i + 1) swaps

/-- `sortedHint` of the Go sort package. -/
inductive SortHint where
  | unknown
  | increasing
  | decreasing
deriving DecidableEq, Repr

/-- `choosePivot_func(data, a, b)`: median (of medians for length ≥ 50) of
three positions, with a sortedness hint from the virtual-swap count
(`maxSwaps = 12`). -/
def choosePivotGo [Inhabited α] (less : α → α → Bool) (l : List α) (a b : Nat) :
    Nat × SortHint :=
  let length := b - a
  let i := a + (length / 4) * 1
  let j := a + (length / 4) * 2
  let k := a + (length / 4) * 3
  let (j, swaps) :=
    if length ≥ 8 then
      if length ≥ 50 then
        let (i, s) := medianAdjacentGo less l i 0
        let (j, s) := medianAdjacentGo less l j s
        let (k, s) := medianAdjacentGo less l k s
        medianGo less l i j k s
      else
        medianGo less l i j k 0
    else (j, 0)
  (j, if swaps = 0 then .increasing else if swaps = 12 then .decreasing else .unknown)

/-- Scan `for i < b && !data.Less(i, i-1) { i++ }` of
`partialInsertionSort_func` (advance over a non-descending run; fuel ≥ b - i
is sufficient, callers pass `b`). -/
def pisScanGo [Inhabited α] (less : α → α → Bool) (l : List α) (b : Nat) : Nat → Nat → Nat
  | 0, i => i
  | fuel + 1, i =>
    if i < b ∧ ¬ less (l.get! i) (l.get! (i - 1)) then pisScanGo less l b fuel (i + 1) else i

/-- Left shift loop of `partialInsertionSort_func`:
`for j := i-1; j >= 1; j-- { if !Less(j, j-1) break; Swap }`. -/
def pisShiftLeftGo [Inhabited α] (less : α → α → Bool) : List α → Nat → List α
  | l, 0 => l
  | l, j + 1 =>
    if ¬ less (l.get! (j + 1)) (l.get! j) then l
    else pisShiftLeftGo less (swapL l (j + 1) j) j

/-- Right shift loop of `partialInsertionSort_func`:
`for j := i+1; j < b; j++ { if !Less(j, j-1) break; Swap }`. -/
def pisShiftRightGo [Inhabited α] (less : α → α → Bool) (b : Nat) : Nat → List α → Nat → List α
  | 0, l, _ => l
  | fuel + 1, l, j =>
    if j < b then
      if ¬ less (l.get! j) (l.get! (j - 1)) then l
      else pisShiftRightGo less b fuel (swapL l j (j - 1)) (j + 1)
    else l

/-- The body loop of `partialInsertionSort_func` (`maxSteps = 5` iterations,
`shortestShifting = 50`); carries the current position `i`. -/
def pisLoopGo [Inhabited α] (less : α → α → Bool) (a b : Nat) :
    List α → Nat → Nat → List α × Bool
  | l, i, steps =>
    let i := pisScanGo less l b b i
    if i = b then (l, true)
    else if b - a < 50 then (l, false)
    else
      let l := swapL l i (i - 1)
      let l := if i - a ≥ 2 then pisShiftLeftGo less l (i - 1) else l
      let l := if b - i ≥ 2 then pisShiftRightGo less b b l (i + 1) else l
      match steps with
      | 0 => (l, false)
      | steps' + 1 => pisLoopGo less a b l i steps'

/-- `partialInsertionSort_func(data, a, b)`. -/
def partInsSortGo [Inhabited α] (less : α → α → Bool) (l : List α) (a b : Nat) :
    List α × Bool :=
  pisLoopGo less a b l (a + 1) 4

/-- Scan `for i <= j && data.Less(i, a) { i++ }` of `partition_func`
(fuel ≥ j + 1 - i is sufficient; callers pass the segment bound `b`). -/
def scanILess [Inhabited α] (less : α → α → Bool) (l : List α) (a j : Nat) : Nat → Nat → Nat
  | 0, i => i
  | fuel + 1, i =>
    if i ≤ j ∧ less (l.get! i) (l.get! a) then scanILess less l a j fuel (i + 1) else i

/-- Scan `for i <= j && !data.Less(j, a) { j-- }` of `partition_func`. `j`
counts down; Go's `int` would pass through -1 when `i = 0`, which no
reachable call does (`i ≥ a + 1 ≥ 1` always), so the loop is modelled with
fuel `j + 1`: when `i ≥ 1` the guard `i ≤ j` fails no later than `j = 0`,
within the fuel, and the model agrees with Go exactly. -/
def scanJNotLess [Inhabited α] (less : α → α → Bool) (l : List α) (a i : Nat) :
    Nat → Nat → Nat
  | j, 0 => j
  | j, fuel + 1 =>
    if i ≤ j ∧ ¬ less (l.get! j) (l.get! a) then scanJNotLess less l a i (j - 1) fuel else j

/-- The swap loop of `partition_func`. The fuel only bounds the iteration
count; `i` strictly increases and never exceeds `b`, so any fuel ≥ b is
enough. -/
def partLoopGo [Inhabited α] (less : α → α → Bool) (a : Nat) :
    List α → Nat → Nat → Nat → List α × Nat
  | l, _, j, 0 => (l, j)
  | l, i, j, fuel + 1 =>
    let i := scanILess less l a j (j + 1) i
    let j := scanJNotLess less l a i j (j + 1)
    if i > j then (l, j)
    else partLoopGo less a (swapL l i j) (i + 1) (j - 1) fuel

/-- `partition_func(data, a, b, pivot)`: returns the new state, the pivot's
final position and the already-partitioned flag. -/
def partitionGo [Inhabited α] (less : α → α → Bool) (l : List α) (a b pivot : Nat) :
    List α × Nat × Bool :=
  let l := swapL l a pivot
  let i := a + 1
  let j := b - 1
  let i := scanILess less l a j (j + 1) i
  let j := scanJNotLess less l a i j (j + 1)
  if i > j then (swapL l j a, j, true)
  else
    let l := swapL l i j
    let (l, j) := partLoopGo less a l (i + 1) (j - 1) b
    (swapL l j a, j, false)

/-- Scan `for i <= j && !data.Less(a, i) { i++ }` of `partitionEqual_func`
(fuel as in `scanILess`). -/
def scanINotLessP [Inhabited α] (less : α → α → Bool) (l : List α) (a j : Nat) : Nat → Nat → Nat
  | 0, i => i
  | fuel + 1, i =>
    if i ≤ j ∧ ¬ less (l.get! a) (l.get! i) then scanINotLessP less l a j fuel (i + 1) else i

/-- Scan `for i <= j && data.Less(a, j) { j-- }` of `partitionEqual_func`
(fuel as in `scanJNotLess`). -/
def scanJLessP [Inhabited α] (less : α → α → Bool) (l : List α) (a i : Nat) :
    Nat → Nat → Nat
  | j, 0 => j
  | j, fuel + 1 =>
    if i ≤ j ∧ less (l.get! a) (l.get! j) then scanJLessP less l a i (j - 1) fuel else j

/-- The swap loop of `partitionEqual_func` (fuel as in `partLoopGo`). -/
def partEqLoopGo [Inhabited α] (less : α → α → Bool) (a : Nat) :
    List α → Nat → Nat → Nat → List α × Nat
  | l, i, _, 0 => (l, i)
  | l, i, j, fuel + 1 =>
    let i := scanINotLessP less l a j (j + 1) i
    let j := scanJLessP less l a i j (j + 1)
    if i > j then (l, i)
    else partEqLoopGo less a (swapL l i j) (i + 1) (j - 1) fuel

/-- `partitionEqual_func(data, a, b, pivot)`: skips elements equal to the
pivot, returning the new state and the first index past them. -/
def partitionEqualGo [Inhabited α] (less : α → α → Bool) (l : List α) (a b pivot : Nat) :
    List α × Nat :=
  let l := swapL l a pivot
  partEqLoopGo less a l (a + 1) (b - 1) b

/-- `pdqsort_func(data, a, b, limit)`. The outer `for` loop (tail recursion
with updated `a`/`b`/`limit`/flags) and the recursive calls (fresh flags)
both consume one unit of fuel; every such step strictly shrinks `b - a`, so
fuel `length + 1` at the top level is sufficient. -/
def pdqsortGo [Inhabited α] (less : α → α → Bool) :
    Nat → List α → Nat → Nat → Nat → Bool → Bool → List α
  | 0, l, _, _, _, _, _ => l
  | fuel + 1, l, a, b, limit, wasBalanced, wasPartitioned =>
    let length := b - a
    if length ≤ 12 then insertionSortGo less l a b
    else if limit = 0 then heapSortGo less l a b
    else
      let (l, limit) := if ¬ wasBalanced then (breakPatternsGo l a b, limit - 1) else (l, limit)
      let (pivot, hint) := choosePivotGo less l a b
      let (l, pivot, hint) :=
        if hint = SortHint.decreasing then
          (reverseRangeGo b l a (b - 1), (b - 1) - (pivot - a), SortHint.increasing)
        else (l, pivot, hint)
      let (l, sortedDone) :=
        if wasBalanced ∧ wasPartitioned ∧ hint = SortHint.increasing then
          partInsSortGo less l a b
        else (l, false)
      if sortedDone then l
      else if a > 0 ∧ ¬ less (l.get! (a - 1)) (l.get! pivot) then
        let (l, mid) := partitionEqualGo less l a b pivot
        pdqsortGo less fuel l mid b limit wasBalanced wasPartitioned
      else
        let (l, mid, alreadyPartitioned) := partitionGo less l a b pivot
        let leftLen := mid - a
        let rightLen := b - mid
        let balanceThreshold := length / 8
        let newBalanced := decide (min leftLen rightLen ≥ balanceThreshold)
        if leftLen < rightLen then
          let l := pdqsortGo less fuel l a mid limit true true
          pdqsortGo less fuel l (mid + 1) b limit newBalanced alreadyPartitioned
        else
          let l := pdqsortGo less fuel l (mid + 1) b limit true true
          pdqsortGo less fuel l a mid limit newBalanced alreadyPartitioned

/-- `sort.Slice(x, less)`: `pdqsort_func(lessSwap, 0, n, bits.Len(uint(n)))`. -/
def goSortSlice [Inhabited α] (less : α → α → Bool) (l : List α) : List α :=
  pdqsortGo less (l.length + 1) l 0 l.length (bitsLen l.length) true true

/-- main.go lines 84-88: sort the discovered files by extracted date with
`sort.Slice`; the comparator re-extracts on every comparison, but extraction
is a pure function of the path and the (unchanging) stat results. -/
def sortVideoFiles (sep : Char) (stat : List Char → Option Int)
    (files : List (List Char)) : List (List Char) :=
  goSortSlice
    (fun fi fj =>
      goTimeBefore (extractDateFromPath sep fi (stat fi)) (extractDateFromPath sep fj (stat fj)))
    files

/-! ## Orchestration (main.go lines 40-108)

`main` is modelled from the speed check on (flag parsing is input
collection). The run consumes an environment of external outcomes and
produces the exit status plus the ordered trace of externally visible
effects. Go semantics captured here: `exitWithError` calls `os.Exit(1)`,
which terminates the process immediately WITHOUT running deferred functions
(Go language/os package documentation); the deferred removal of `inputs.txt`
(lines 94-98) therefore runs only when `main` returns normally. -/

/-- `minSpeedFactor` (line 29). The float64 flag value is modelled as an
exact rational; every comparison the program makes against the constants
0.1 and 1000.0 has the same outcome for the double and for the rational. -/
def minSpeedFactor : ℚ := 1 / 10

/-- `maxSpeedFactor` (line 31). -/
def maxSpeedFactor : ℚ := 1000

/-- `inputsFile` (line 22). -/
def inputsFileName : List Char := "inputs.txt".toList

/-- Externally visible effects of one run, in order. -/
inductive Eff where
  | stderrMsg
  | stdoutMsg
  | walkVideosDir
  | createManifest (content : List Char)
  | runFFmpegProc (args : List (List Char))
  | removeManifest
deriving DecidableEq, Repr

/-- Effects that touch the filesystem or launch a process (everything except
writing to the standard streams). -/
def isFsOrProcEff : Eff → Bool
  | .stderrMsg => false
  | .stdoutMsg => false
  | _ => true

/-- External outcomes a run can encounter. `createOk = false` means
`createInputsFile` returned an error; `ffmpegOk` is the child process
success; `removeOk` is the success of the deferred `os.Remove`. -/
structure Env where
  walkEvents : List WalkEvent
  sep : Char
  abs : List Char → List Char
  stat : List Char → Option Int
  createOk : Bool
  ffmpegOk : Bool
  removeOk : Bool

/-- Exit status and effect trace of a run. -/
structure RunResult where
  exitCode : Nat
  trace : List Eff
deriving DecidableEq, Repr

/-- main.go lines 59-108 (after `flag.Parse`). -/
def mainGo (cameraName : List Char) (useGPU : Bool) (speed : ℚ) (env : Env) :
    RunResult :=
  -- lines 59-63: missing -camera flag: usage on stderr, os.Exit(1)
  if cameraName = [] then ⟨1, [.stderrMsg]⟩
  -- lines 65-67: speed range check, before any filesystem or process work
  else if speed < minSpeedFactor ∨ speed > maxSpeedFactor then ⟨1, [.stderrMsg]⟩
  else
    -- line 69 (pure)
    let outputFile := sanitizeFilename cameraName ++ "_merged_timelapse.mp4".toList
    -- lines 72-75: walk the videos directory
    let found := findVideoFiles env.sep env.abs cameraName env.walkEvents
    match found.2 with
    | some _ => ⟨1, [.walkVideosDir, .stderrMsg]⟩
    | none =>
      -- lines 77-79
      if found.1 = [] then ⟨1, [.walkVideosDir, .stderrMsg]⟩
      else
        -- line 81, then lines 84-88 (extraction reads stat, mutates nothing)
        let sorted := sortVideoFiles env.sep env.stat found.1
        let content := manifestContent sorted
        -- lines 91-93: on createInputsFile error, exitWithError skips the
        -- defer (not yet registered) — the manifest is not removed
        if ¬ env.createOk then
          ⟨1, [.walkVideosDir, .stdoutMsg, .createManifest content, .stderrMsg]⟩
        -- line 94: defer os.Remove(inputsFile) registered here
        else if ¬ env.ffmpegOk then
          -- lines 103-105: exitWithError calls os.Exit(1); deferred functions
          -- do NOT run, so no removeManifest effect on this path
          ⟨1, [.walkVideosDir, .stdoutMsg, .createManifest content, .stdoutMsg,
               .runFFmpegProc (runFFmpegArgs inputsFileName outputFile useGPU speed),
               .stderrMsg]⟩
        else
          -- line 107 then normal return: deferred removal runs (line 95);
          -- a failed removal is only a warning (line 96), exit stays 0
          ⟨0, [.walkVideosDir, .stdoutMsg, .createManifest content, .stdoutMsg,
               .runFFmpegProc (runFFmpegArgs inputsFileName outputFile useGPU speed),
               .stdoutMsg, .removeManifest] ++
              (if ¬ env.removeOk then [.stderrMsg] else [])⟩


/-! ## Proof-support definitions and lemmas -/

/-- Reference (proof-side) version of `replaceAllAux` defined by well-founded
recursion; `replaceAllAux` equals it whenever the fuel is at least the input
length. -/
def replaceAllSpec (p : Char) (ps rep : List Char) : List Char → List Char
  | [] => []
  | c :: cs =>
    if listStartsWith (c :: cs) (p :: ps) then
      rep ++ replaceAllSpec p ps rep (cs.drop ps.length)
    else
      c :: replaceAllSpec p ps rep cs
termination_by s => s.length
decreasing_by
  · simp only [List.length_drop, List.length_cons]; omega
  · simp only [List.length_cons]; omega

theorem replaceAllAux_eq_spec (p : Char) (ps rep : List Char) :
    ∀ fuel s, s.length ≤ fuel → replaceAllAux p ps rep fuel s = replaceAllSpec p ps rep s := by
  intro fuel
  induction fuel with
  | zero =>
    intro s hs
    have : s = [] := by
      cases s with
      | nil => rfl
      | cons c cs => simp at hs
    subst this
    simp [replaceAllAux, replaceAllSpec]
  | succ n ih =>
    intro s hs
    cases s with
    | nil => simp [replaceAllAux, replaceAllSpec]
    | cons c cs =>
      simp only [List.length_cons] at hs
      have h1 : cs.length ≤ n := by omega
      have h2 : (cs.drop ps.length).length ≤ n := by
        simp only [List.length_drop]; omega
      rw [replaceAllAux, replaceAllSpec]
      by_cases hpre : listStartsWith (c :: cs) (p :: ps) = true <;>
        simp [hpre, ih _ h1, ih _ h2]

theorem goReplaceAll_eq_spec (p : Char) (ps rep s : List Char) :
    goReplaceAll (p :: ps) rep s = replaceAllSpec p ps rep s := by
  rw [goReplaceAll]
  exact replaceAllAux_eq_spec p ps rep s.length s (le_refl _)

/-- Single-character pattern, single-character replacement: `ReplaceAll` is a
character map. -/
theorem goReplaceAll_single (c r : Char) (s : List Char) :
    goReplaceAll [c] [r] s = s.map (fun x => if x = c then r else x) := by
  rw [goReplaceAll_eq_spec]
  induction s with
  | nil => simp [replaceAllSpec]
  | cons x xs ih =>
    rw [replaceAllSpec]
    simp only [listStartsWith, Bool.and_true, List.map_cons, List.drop_zero]
    by_cases hx : x = c
    · simp [hx, ih]
    · simp [hx, ih]

theorem listStartsWith_append (p z : List Char) : listStartsWith (p ++ z) p = true := by
  induction p with
  | nil => cases z <;> rfl
  | cons c cs ih => simp [listStartsWith, ih]

theorem escapeQuotes_eq_spec (s : List Char) :
    escapeQuotes s = replaceAllSpec '\'' [] quoteEscapeRep s := by
  rw [escapeQuotes]
  exact goReplaceAll_eq_spec _ _ _ _

theorem unescapeQuotes_eq_spec (s : List Char) :
    unescapeQuotes s = replaceAllSpec '\'' ['\\', '\'', '\''] ['\''] s := by
  rw [unescapeQuotes]
  show goReplaceAll ['\'', '\\', '\'', '\''] ['\''] s = _
  exact goReplaceAll_eq_spec _ _ _ _

/-- The quote escape is reversible: applying the inverse substitution
(`'\''` back to `'`) recovers the escaped string exactly, for every input. -/
theorem unescape_escape (t : List Char) : unescapeQuotes (escapeQuotes t) = t := by
  rw [escapeQuotes_eq_spec]
  induction t with
  | nil => simp [replaceAllSpec, unescapeQuotes_eq_spec]
  | cons c cs ih =>
    rw [replaceAllSpec]
    by_cases hc : c = '\''
    · subst hc
      rw [if_pos (by simp [listStartsWith])]
      rw [unescapeQuotes_eq_spec] at ih ⊢
      simp only [quoteEscapeRep, List.length_nil, List.drop_zero, List.cons_append,
        List.nil_append] at ih ⊢
      rw [replaceAllSpec]
      rw [if_pos (by simp [listStartsWith])]
      simp only [List.length_cons, List.length_nil, List.drop_succ_cons, List.drop_zero]
      rw [ih]
      rfl
    · rw [if_neg (by simp [listStartsWith, hc])]
      rw [unescapeQuotes_eq_spec] at ih ⊢
      rw [replaceAllSpec]
      rw [if_neg (by simp [listStartsWith, hc])]
      rw [ih]

/-- Pointwise form of the sanitizer's replacement chain. -/
def sanChar (x : Char) : Char := if x ∈ invalidFilenameChars then '_' else x

theorem foldl_single_replace (cs : List Char) (s : List Char) :
    cs.foldl (fun r c => goReplaceAll [c] ['_'] r) s =
      s.map (fun x => cs.foldl (fun y c => if y = c then '_' else y) x) := by
  induction cs generalizing s with
  | nil => simp
  | cons c cs' ih =>
    simp only [List.foldl_cons]
    rw [goReplaceAll_single, ih, List.map_map]
    rfl

theorem sanChar_chain (x : Char) :
    invalidFilenameChars.foldl (fun y c => if y = c then '_' else y) x = sanChar x := by
  by_cases h : x ∈ invalidFilenameChars
  · simp only [invalidFilenameChars, List.mem_cons, List.not_mem_nil, or_false] at h
    rcases h with h | h | h | h | h | h | h | h | h | h <;> subst h <;> decide
  · simp only [invalidFilenameChars, List.mem_cons, List.not_mem_nil, or_false, not_or] at h
    obtain ⟨h1, h2, h3, h4, h5, h6, h7, h8, h9, h10⟩ := h
    simp only [invalidFilenameChars, List.foldl_cons, List.foldl_nil, if_neg h1, if_neg h2,
      if_neg h3, if_neg h4, if_neg h5, if_neg h6, if_neg h7, if_neg h8, if_neg h9, if_neg h10,
      sanChar]
    rw [if_neg (by simp [invalidFilenameChars, h1, h2, h3, h4, h5, h6, h7, h8, h9, h10])]

/-- The replacement chain of `sanitizeFilename` is the pointwise map. -/
theorem sanitizeFilename_eq_map (s : List Char) :
    sanitizeFilename s = goTrimSpace (s.map sanChar) := by
  rw [sanitizeFilename, foldl_single_replace,
    List.map_congr_left (fun x _ => sanChar_chain x)]

theorem sanChar_idem (x : Char) : sanChar (sanChar x) = sanChar x := by
  by_cases h : x ∈ invalidFilenameChars
  · have hx : sanChar x = '_' := by rw [sanChar, if_pos h]
    rw [hx, sanChar, if_neg (by decide)]
  · have hx : sanChar x = x := by rw [sanChar, if_neg h]
    simp only [hx]

theorem dropWhile_idem (p : α → Bool) (l : List α) :
    (l.dropWhile p).dropWhile p = l.dropWhile p := by
  induction l with
  | nil => rfl
  | cons c cs ih =>
    by_cases h : p c
    · simp [List.dropWhile_cons_of_pos h, ih]
    · simp [List.dropWhile_cons_of_neg h, h]

theorem mem_goTrimSpace (x : Char) (l : List Char) (h : x ∈ goTrimSpace l) : x ∈ l := by
  rw [goTrimSpace] at h
  rw [List.mem_reverse] at h
  have h2 := (List.dropWhile_sublist goIsSpace).mem h
  rw [List.mem_reverse] at h2
  exact (List.dropWhile_sublist goIsSpace).mem h2

/-- A list whose head does not satisfy `p` is untouched by `dropWhile p`;
prefixes inherit this. -/
theorem dropWhile_eq_self_of_isPrefix (p : α → Bool) (l t : List α)
    (hpre : t <+: l) (hl : l.dropWhile p = l) : t.dropWhile p = t := by
  cases t with
  | nil => rfl
  | cons c cs =>
    obtain ⟨r, hr⟩ := hpre
    subst hr
    by_cases h : p c
    · rw [List.cons_append, List.dropWhile_cons_of_pos h] at hl
      exfalso
      have hlen := congrArg List.length hl
      simp only [List.length_cons, List.length_append] at hlen
      have hle := (List.dropWhile_sublist (l := cs ++ r) p).length_le
      simp only [List.length_append] at hle
      omega
    · exact List.dropWhile_cons_of_neg h

theorem goTrimSpace_idem (l : List Char) :
    goTrimSpace (goTrimSpace l) = goTrimSpace l := by
  have h1 : (goTrimSpace l).dropWhile goIsSpace = goTrimSpace l := by
    apply dropWhile_eq_self_of_isPrefix goIsSpace (l.dropWhile goIsSpace)
    · rw [goTrimSpace, ← List.reverse_suffix, List.reverse_reverse]
      exact List.dropWhile_suffix goIsSpace
    · exact dropWhile_idem _ _
  have h2 : (goTrimSpace l).reverse = (l.dropWhile goIsSpace).reverse.dropWhile goIsSpace := by
    rw [goTrimSpace, List.reverse_reverse]
  conv_lhs => rw [goTrimSpace]
  rw [h1, h2, dropWhile_idem, goTrimSpace]

theorem normalizeSlashes_eq_map (p : List Char) :
    normalizeSlashes p = p.map (fun x => if x = '\\' then '/' else x) :=
  goReplaceAll_single '\\' '/' p

theorem normalizeSlashes_of_no_backslash (p : List Char) (h : '\\' ∉ p) :
    normalizeSlashes p = p := by
  rw [normalizeSlashes_eq_map]
  have hcong : ∀ x ∈ p, (if x = '\\' then '/' else x) = id x := by
    intro x hx
    have hne : ¬ x = '\\' := fun he => h (he ▸ hx)
    simp [hne]
  rw [List.map_congr_left hcong]
  exact List.map_id p

/-! ## Claim theorems -/

/-- C8: filename sanitization is idempotent: replacing each of
`/ \ : * ? " < > |` and space by `_` and trimming surrounding whitespace is a
fixed point after one application. -/
theorem c8_sanitizeFilename_idempotent (s : List Char) :
    sanitizeFilename (sanitizeFilename s) = sanitizeFilename s := by
  rw [sanitizeFilename_eq_map s, sanitizeFilename_eq_map]
  have hfix : (goTrimSpace (s.map sanChar)).map sanChar = goTrimSpace (s.map sanChar) := by
    rw [List.map_congr_left (g := id) (fun x hx => ?_)]
    · exact List.map_id _
    · have hx2 := mem_goTrimSpace x _ hx
      obtain ⟨y, _, hy⟩ := List.mem_map.mp hx2
      rw [← hy]
      exact sanChar_idem y
  rw [hfix, goTrimSpace_idem]

/-- C7 counterexample: for a path containing both a single quote and a
backslash, reversing the quote escape on the written manifest path text does
NOT recover the original path (the backslash was normalized to a forward
slash first). Refutes the claim as stated, which promises the original path
exactly for every path containing a single quote. -/
theorem c7_counterexample :
    '\'' ∈ "a\\'b".toList ∧
      unescapeQuotes (manifestPathText "a\\'b".toList) ≠ "a\\'b".toList := by
  decide

/-- C7 amended: reversing the quote escape on the written manifest path text
recovers the slash-normalized original path exactly; in particular it
recovers the original path exactly whenever the path contains no backslash. -/
theorem c7_manifest_roundtrip (p : List Char) :
    unescapeQuotes (manifestPathText p) = normalizeSlashes p ∧
      ('\\' ∉ p → unescapeQuotes (manifestPathText p) = p) := by
  constructor
  · rw [manifestPathText, unescape_escape]
  · intro h
    rw [manifestPathText, unescape_escape, normalizeSlashes_of_no_backslash p h]

/-- C7 witness: the round trip at a concrete quote-bearing, backslash-free
path. -/
theorem c7_manifest_roundtrip_witness :
    unescapeQuotes (manifestPathText "videos/it's.mp4".toList) = "videos/it's.mp4".toList :=
  (c7_manifest_roundtrip "videos/it's.mp4".toList).2 (by decide)

/-- C6: when the base name has no parseable embedded timestamp (no regex
match, or a calendar-invalid parse), extraction returns the `os.Stat`
modification time when the stat succeeds and the zero-time sentinel when it
fails too — never an error (the function is total). -/
theorem c6_extract_fallback (sep : Char) (path : List Char) (stat : Option Int)
    (h : goExtractParsed (goFilepathBase sep path) = none) :
    extractDateFromPath sep path stat = stat.getD zeroInstant := by
  rw [extractDateFromPath.eq_def, h]
  cases stat <;> rfl

/-- C6 witness: `2-30-2020` matches the pattern but is calendar-invalid, so
extraction falls back to the given modification time. -/
theorem c6_extract_fallback_witness :
    goExtractParsed (goFilepathBase '/' "A 2-30-2020, 10.00.00.mp4".toList) = none ∧
      extractDateFromPath '/' "A 2-30-2020, 10.00.00.mp4".toList (some 42) = 42 :=
  ⟨by decide, c6_extract_fallback '/' "A 2-30-2020, 10.00.00.mp4".toList (some 42) (by decide)⟩

/-- C4: for valid speeds the rescale factor handed to the setpts filter is
`1.0 / speed` (formatted with six decimals into
`[0:v]setpts=%.6f*PTS[v]`, argument 7 of the vector), and speed 10 yields
the rescale `0.100000`. -/
theorem c4_rescale_factor (speed : ℚ) (outputF : List Char) (useGPU : Bool)
    (h : minSpeedFactor ≤ speed ∧ speed ≤ maxSpeedFactor) :
    speedFactor speed = 1 / speed ∧
      (runFFmpegArgs inputsFileName outputF useGPU speed).get? 7 =
        some ("[0:v]setpts=".toList ++ fmt6 (1 / speed) ++ "*PTS[v]".toList) ∧
      setptsFilterArg 10 = "[0:v]setpts=0.100000*PTS[v]".toList := by
  refine ⟨rfl, ?_, ?_⟩
  · rfl
  · rw [setptsFilterArg]
    have h1 : speedFactor 10 = 1 / 10 := by rw [speedFactor]
    rw [h1]
    have h2 : fmt6 (1 / 10) = "0.100000".toList := by
      have hq : ((1 : ℚ) / 10) * 1000000 = ((100000 : Int) : ℚ) := by norm_num
      have hfl : roundHalfEven (((100000 : Int) : ℚ)) = 100000 := by
        rw [roundHalfEven]
        norm_num
      rw [fmt6, hq, hfl]
      decide
    rw [h2]
    decide

/-- C4 witness at speed 10. -/
theorem c4_rescale_factor_witness :
    speedFactor 10 = 1 / 10 ∧
      (runFFmpegArgs inputsFileName "out.mp4".toList true 10).get? 7 =
        some ("[0:v]setpts=".toList ++ fmt6 ((1 : ℚ) / 10) ++ "*PTS[v]".toList) ∧
      setptsFilterArg 10 = "[0:v]setpts=0.100000*PTS[v]".toList :=
  c4_rescale_factor 10 "out.mp4".toList true
    (by constructor <;> norm_num [minSpeedFactor, maxSpeedFactor])

/-- Helper: with a non-empty camera name and an in-range speed, the run
reaches discovery (the walk effect is in the trace) whatever the environment
does afterwards. -/
theorem walk_mem_of_valid (camera : List Char) (gpu : Bool) (speed : ℚ) (env : Env)
    (hcam : camera ≠ []) (hs : ¬ (speed < minSpeedFactor ∨ speed > maxSpeedFactor)) :
    Eff.walkVideosDir ∈ (mainGo camera gpu speed env).trace := by
  rw [mainGo, if_neg hcam, if_neg hs]
  dsimp only
  split
  · simp
  · split
    · simp
    · split
      · simp
      · split <;> simp

/-- C3: an out-of-range speed (e.g. 0.05) terminates the run with exit
status 1 and a message on the error stream, and the trace contains no
filesystem or process effect at all; the boundary speeds 0.1 and 1000.0 pass
validation and the run proceeds to the directory walk. -/
theorem c3_speed_validation :
    (∀ (camera : List Char) (gpu : Bool) (speed : ℚ) (env : Env),
        (speed < minSpeedFactor ∨ speed > maxSpeedFactor) →
        (mainGo camera gpu speed env).exitCode = 1 ∧
          (mainGo camera gpu speed env).trace.filter isFsOrProcEff = [] ∧
          Eff.stderrMsg ∈ (mainGo camera gpu speed env).trace) ∧
    (∀ (camera : List Char) (gpu : Bool) (env : Env), camera ≠ [] →
        Eff.walkVideosDir ∈ (mainGo camera gpu minSpeedFactor env).trace ∧
        Eff.walkVideosDir ∈ (mainGo camera gpu maxSpeedFactor env).trace) := by
  constructor
  · intro camera gpu speed env h
    rw [mainGo]
    by_cases hcam : camera = []
    · rw [if_pos hcam]
      refine ⟨rfl, rfl, by simp⟩
    · rw [if_neg hcam, if_pos h]
      refine ⟨rfl, rfl, by simp⟩
  · intro camera gpu env hcam
    constructor
    · exact walk_mem_of_valid camera gpu minSpeedFactor env hcam
        (by rw [minSpeedFactor, maxSpeedFactor]; norm_num)
    · exact walk_mem_of_valid camera gpu maxSpeedFactor env hcam
        (by rw [minSpeedFactor, maxSpeedFactor]; norm_num)

/-- A concrete healthy environment: one matching video file, all external
operations succeed. -/
def testEnv : Env :=
  { walkEvents := [.entry "videos/G5 Flex 1-1-2020, 10.00.00.mp4".toList true],
    sep := '/', abs := id, stat := fun _ => none,
    createOk := true, ffmpegOk := true, removeOk := true }

/-- C3 witness: speed 0.05 is rejected before any filesystem or process
effect; speeds 0.1 and 1000.0 are accepted (the walk happens). -/
theorem c3_speed_validation_witness :
    ((mainGo "G5 Flex".toList true (1 / 20) testEnv).exitCode = 1 ∧
      (mainGo "G5 Flex".toList true (1 / 20) testEnv).trace.filter isFsOrProcEff = [] ∧
      Eff.stderrMsg ∈ (mainGo "G5 Flex".toList true (1 / 20) testEnv).trace) ∧
    (Eff.walkVideosDir ∈ (mainGo "G5 Flex".toList true minSpeedFactor testEnv).trace ∧
      Eff.walkVideosDir ∈ (mainGo "G5 Flex".toList true maxSpeedFactor testEnv).trace) :=
  ⟨c3_speed_validation.1 "G5 Flex".toList true (1 / 20) testEnv
      (Or.inl (by rw [minSpeedFactor]; norm_num)),
    c3_speed_validation.2 "G5 Flex".toList true testEnv (by decide)⟩

/-- Does an effect create the manifest? -/
def isCreateEff : Eff → Bool
  | .createManifest _ => true
  | _ => false

/-- Is an effect the removal of the manifest? -/
def isRemoveEff : Eff → Bool
  | .removeManifest => true
  | _ => false

/-- The environment of the C1 failing run: manifest creation succeeds,
ffmpeg exits non-zero. -/
def c1EnvFail : Env :=
  { walkEvents := [.entry "videos/G5 1-1-2020, 10.00.00.mp4".toList true],
    sep := '/', abs := id, stat := fun _ => none,
    createOk := true, ffmpegOk := false, removeOk := true }

/-- Same environment with a successful ffmpeg run. -/
def c1EnvOk : Env :=
  { walkEvents := [.entry "videos/G5 1-1-2020, 10.00.00.mp4".toList true],
    sep := '/', abs := id, stat := fun _ => none,
    createOk := true, ffmpegOk := true, removeOk := true }

/-- C1: the code violates the claim (a Go defect): when ffmpeg fails,
`exitWithError` calls `os.Exit(1)`, which skips the deferred
`os.Remove(inputs.txt)` — the run creates the manifest, exits 1, and never
removes the manifest; on the success path the deferred removal does run. -/
theorem c1_manifest_not_removed_on_ffmpeg_failure :
    (mainGo "G5".toList true 10 c1EnvFail).trace.any isCreateEff = true ∧
      (mainGo "G5".toList true 10 c1EnvFail).exitCode = 1 ∧
      (mainGo "G5".toList true 10 c1EnvFail).trace.any isRemoveEff = false ∧
      (mainGo "G5".toList true 10 c1EnvOk).trace.any isRemoveEff = true := by
  have hval : ¬ ((10 : ℚ) < minSpeedFactor ∨ (10 : ℚ) > maxSpeedFactor) := by
    rw [minSpeedFactor, maxSpeedFactor]; norm_num
  refine ⟨?_, ?_, ?_, ?_⟩ <;>
    · rw [mainGo, if_neg (by decide), if_neg hval]
      decide

/-! ## C5: characterization of the filename parse -/

/-- Validity of a matched date-time, as the amended claim states it: month
1..12, day calendar-valid for that month and year, hour at most 23, minute
and second at most 59. -/
def validGroups (g : DTGroups) : Bool :=
  decide (1 ≤ natOfDigits g.mo ∧ natOfDigits g.mo ≤ 12 ∧
    1 ≤ natOfDigits g.d ∧
    natOfDigits g.d ≤ daysIn (natOfDigits g.mo) (natOfDigits g.y) ∧
    natOfDigits g.hh ≤ 23 ∧ natOfDigits g.mi ≤ 59 ∧ natOfDigits g.ss ≤ 59)

/-- The instant denoted by a matched (valid) date-time. -/
def instantOfGroups (g : DTGroups) : Int :=
  instantOfDate (natOfDigits g.y) (natOfDigits g.mo) (natOfDigits g.d)
    (natOfDigits g.hh) (natOfDigits g.mi) (natOfDigits g.ss)

/-- Shape invariant of the capture groups produced by the matcher. -/
def wfGroups (g : DTGroups) : Prop :=
  (g.mo.length = 1 ∨ g.mo.length = 2) ∧ g.mo.all isDigitGo = true ∧
  (g.d.length = 1 ∨ g.d.length = 2) ∧ g.d.all isDigitGo = true ∧
  g.y.length = 4 ∧ g.y.all isDigitGo = true ∧
  g.hh.length = 2 ∧ g.hh.all isDigitGo = true ∧
  g.mi.length = 2 ∧ g.mi.all isDigitGo = true ∧
  g.ss.length = 2 ∧ g.ss.all isDigitGo = true

theorem digits1_inv {s g r} (h : digits1 s = some (g, r)) :
    g.length = 1 ∧ g.all isDigitGo = true := by
  match s with
  | [] => simp [digits1] at h
  | c :: cs =>
    rw [digits1] at h
    by_cases hc : isDigitGo c = true
    · rw [if_pos hc] at h
      obtain ⟨h1, _⟩ := Prod.mk.injEq .. ▸ Option.some.injEq .. ▸ h
      cases h
      simp [hc]
    · simp [hc] at h

theorem digits2_inv {s g r} (h : digits2 s = some (g, r)) :
    g.length = 2 ∧ g.all isDigitGo = true := by
  match s with
  | [] => simp [digits2] at h
  | [c] => simp [digits2] at h
  | a :: b :: cs =>
    rw [digits2] at h
    by_cases hab : (isDigitGo a && isDigitGo b) = true
    · rw [if_pos hab] at h
      cases h
      simp only [Bool.and_eq_true] at hab
      simp [hab.1, hab.2]
    · simp [hab] at h

theorem digits4_inv {s g r} (h : digits4 s = some (g, r)) :
    g.length = 4 ∧ g.all isDigitGo = true := by
  match s with
  | [] => simp [digits4] at h
  | [c] => simp [digits4] at h
  | [c, d] => simp [digits4] at h
  | [c, d, e] => simp [digits4] at h
  | a :: b :: c :: d :: cs =>
    rw [digits4] at h
    by_cases habcd : (isDigitGo a && isDigitGo b && isDigitGo c && isDigitGo d) = true
    · rw [if_pos habcd] at h
      cases h
      simp only [Bool.and_eq_true] at habcd
      simp [habcd.1.1.1, habcd.1.1.2, habcd.1.2, habcd.2]
    · simp [habcd] at h

theorem matchAfterDay_inv {moG dG s g}
    (hmo : (moG.length = 1 ∨ moG.length = 2) ∧ moG.all isDigitGo = true)
    (hd : (dG.length = 1 ∨ dG.length = 2) ∧ dG.all isDigitGo = true)
    (h : matchAfterDay moG dG s = some g) : wfGroups g := by
  rw [matchAfterDay] at h
  simp only [Option.bind_eq_bind, Option.bind_eq_some] at h
  obtain ⟨s1, _, h⟩ := h
  obtain ⟨⟨yG, s2⟩, hy, h⟩ := h
  obtain ⟨s3, _, h⟩ := h
  obtain ⟨s4, _, h⟩ := h
  obtain ⟨⟨hG, s5⟩, hh, h⟩ := h
  obtain ⟨s6, _, h⟩ := h
  obtain ⟨⟨miG, s7⟩, hmi, h⟩ := h
  obtain ⟨s8, _, h⟩ := h
  obtain ⟨⟨sG, s9⟩, hss, h⟩ := h
  obtain ⟨hy1, hy2⟩ := digits4_inv hy
  obtain ⟨hh1, hh2⟩ := digits2_inv hh
  obtain ⟨hmi1, hmi2⟩ := digits2_inv hmi
  obtain ⟨hss1, hss2⟩ := digits2_inv hss
  cases h
  exact ⟨hmo.1, hmo.2, hd.1, hd.2, hy1, hy2, hh1, hh2, hmi1, hmi2, hss1, hss2⟩

theorem matchAfterMonth_inv {moG s g}
    (hmo : (moG.length = 1 ∨ moG.length = 2) ∧ moG.all isDigitGo = true)
    (h : matchAfterMonth moG s = some g) : wfGroups g := by
  rw [matchAfterMonth] at h
  simp only [Option.bind_eq_bind, Option.bind_eq_some] at h
  obtain ⟨s1, _, h⟩ := h
  rcases ho : digits2 s1 with _ | ⟨dG, s2⟩
  · rw [ho] at h
    simp only [Option.none_bind, Option.none_orElse, Option.bind_eq_some] at h
    obtain ⟨⟨dG, s2⟩, hdg, h⟩ := h
    exact matchAfterDay_inv hmo ⟨Or.inl (digits1_inv hdg).1, (digits1_inv hdg).2⟩ h
  · rw [ho] at h
    simp only [bind, Option.bind_eq_bind, Option.some_bind] at h
    rcases hmd : matchAfterDay moG dG s2 with _ | gg
    · rw [hmd, Option.none_orElse] at h
      simp only [Option.bind_eq_some] at h
      obtain ⟨⟨dG1, s21⟩, hd1, h⟩ := h
      exact matchAfterDay_inv hmo ⟨Or.inl (digits1_inv hd1).1, (digits1_inv hd1).2⟩ h
    · rw [hmd, Option.some_orElse] at h
      cases h
      exact matchAfterDay_inv hmo ⟨Or.inr (digits2_inv ho).1, (digits2_inv ho).2⟩ hmd

theorem matchAt_inv {s g} (h : matchAt s = some g) : wfGroups g := by
  rw [matchAt] at h
  simp only [Option.bind_eq_bind] at h
  rcases ho : digits2 s with _ | ⟨moG, s1⟩
  · rw [ho] at h
    simp only [Option.none_bind, Option.none_orElse, Option.bind_eq_some] at h
    obtain ⟨⟨moG, s1⟩, hmg, h⟩ := h
    exact matchAfterMonth_inv ⟨Or.inl (digits1_inv hmg).1, (digits1_inv hmg).2⟩ h
  · rw [ho] at h
    simp only [bind, Option.bind_eq_bind, Option.some_bind] at h
    rcases hmm : matchAfterMonth moG s1 with _ | gg
    · rw [hmm, Option.none_orElse] at h
      simp only [Option.bind_eq_some] at h
      obtain ⟨⟨moG1, s11⟩, hm1, h⟩ := h
      exact matchAfterMonth_inv ⟨Or.inl (digits1_inv hm1).1, (digits1_inv hm1).2⟩ h
    · rw [hmm, Option.some_orElse] at h
      cases h
      exact matchAfterMonth_inv ⟨Or.inr (digits2_inv ho).1, (digits2_inv ho).2⟩ hmm

theorem goFindFirstMatch_wf {name g} (h : goFindFirstMatch name = some g) : wfGroups g := by
  induction name with
  | nil => simp [goFindFirstMatch] at h
  | cons c cs ih =>
    rw [goFindFirstMatch] at h
    rcases hm : matchAt (c :: cs) with _ | g'
    · rw [hm] at h
      exact ih h
    · rw [hm] at h
      cases h
      exact matchAt_inv hm

theorem natOfDigits_one (a : Char) : natOfDigits [a] = digVal a := by
  simp [natOfDigits]

theorem natOfDigits_two (a b : Char) : natOfDigits [a, b] = digVal a * 10 + digVal b := by
  simp only [natOfDigits, List.foldl_cons, List.foldl_nil]
  ring

theorem natOfDigits_four (a b c d : Char) :
    natOfDigits [a, b, c, d] =
      digVal a * 1000 + digVal b * 100 + digVal c * 10 + digVal d := by
  simp only [natOfDigits, List.foldl_cons, List.foldl_nil]
  ring

theorem length_eq_four {l : List α} (h : l.length = 4) :
    ∃ a b c d, l = [a, b, c, d] := by
  match l with
  | [a, b, c, d] => exact ⟨a, b, c, d, rfl⟩

theorem length_eq_two' {l : List α} (h : l.length = 2) : ∃ a b, l = [a, b] := by
  match l with
  | [a, b] => exact ⟨a, b, rfl⟩

theorem length_eq_one' {l : List α} (h : l.length = 1) : ∃ a, l = [a] := by
  match l with
  | [a] => exact ⟨a, rfl⟩

theorem expectChar_step (x : Char) (rest : List Char) :
    expectChar x (x :: rest) = some rest := by
  simp [expectChar]

theorem getnum1or2_one {a x : Char} (rest : List Char) (ha : isDigitGo a = true)
    (hx : isDigitGo x = false) :
    getnum1or2 (a :: x :: rest) = some (digVal a, x :: rest) := by
  simp [getnum1or2, ha, hx]

theorem getnum1or2_two {a b : Char} (rest : List Char) (ha : isDigitGo a = true)
    (hb : isDigitGo b = true) :
    getnum1or2 (a :: b :: rest) = some (digVal a * 10 + digVal b, rest) := by
  simp [getnum1or2, ha, hb]

theorem getnum2_step {a b : Char} (rest : List Char) (ha : isDigitGo a = true)
    (hb : isDigitGo b = true) :
    getnum2 (a :: b :: rest) = some (digVal a * 10 + digVal b, rest) := by
  simp [getnum2, ha, hb]

theorem getnum4_step {a b c d : Char} (rest : List Char) (ha : isDigitGo a = true)
    (hb : isDigitGo b = true) (hc : isDigitGo c = true) (hd : isDigitGo d = true) :
    getnum4 (a :: b :: c :: d :: rest) =
      some (digVal a * 1000 + digVal b * 100 + digVal c * 10 + digVal d, rest) := by
  simp [getnum4, ha, hb, hc, hd]

theorem goTimeParseTail_eval (mo d : Nat) {y1 y2 y3 y4 p1 p2 q1 q2 r1 r2 : Char}
    (hy1 : isDigitGo y1 = true) (hy2 : isDigitGo y2 = true) (hy3 : isDigitGo y3 = true)
    (hy4 : isDigitGo y4 = true) (hp1 : isDigitGo p1 = true) (hp2 : isDigitGo p2 = true)
    (hq1 : isDigitGo q1 = true) (hq2 : isDigitGo q2 = true) (hr1 : isDigitGo r1 = true)
    (hr2 : isDigitGo r2 = true) :
    goTimeParseTail mo d
        (y1 :: y2 :: y3 :: y4 :: ',' :: ' ' :: p1 :: p2 :: ':' :: q1 :: q2 :: ':' ::
          r1 :: r2 :: []) =
      (if 24 ≤ digVal p1 * 10 + digVal p2 then none
       else if 60 ≤ digVal q1 * 10 + digVal q2 then none
       else if 60 ≤ digVal r1 * 10 + digVal r2 then none
       else if mo < 1 ∨ 12 < mo then none
       else if d < 1 ∨
           daysIn mo (digVal y1 * 1000 + digVal y2 * 100 + digVal y3 * 10 + digVal y4) < d
         then none
       else some (instantOfDate
          (digVal y1 * 1000 + digVal y2 * 100 + digVal y3 * 10 + digVal y4) mo d
          (digVal p1 * 10 + digVal p2) (digVal q1 * 10 + digVal q2)
          (digVal r1 * 10 + digVal r2))) := by
  rw [goTimeParseTail]
  simp only [bind, Option.bind_eq_bind, Option.some_bind, expectChar_step,
    getnum4_step _ hy1 hy2 hy3 hy4, getnum1or2_two _ hp1 hp2,
    getnum2_step _ hq1 hq2, getnum2_step _ hr1 hr2,
    ne_eq, not_true_eq_false, Bool.false_eq_true, if_false, ite_false]

/-- `time.Parse` on the reconstructed date-time string of well-formed capture
groups succeeds exactly on valid month/day/hour/minute/second values, and
then yields the instant of the matched calendar date. -/
theorem goTimeParse_rebuild (g : DTGroups) (h : wfGroups g) :
    goTimeParse (rebuildDateTimeStr g) =
      if validGroups g = true then some (instantOfGroups g) else none := by
  obtain ⟨moL, dL, yL, hhL, miL, ssL⟩ := g
  obtain ⟨hmol, hmod, hdl, hdd, hyl, hyd, hhl, hhd, hmil, hmid, hssl, hssd⟩ := h
  dsimp only at hmol hmod hdl hdd hyl hyd hhl hhd hmil hmid hssl hssd ⊢
  obtain ⟨y1, y2, y3, y4, hy⟩ := length_eq_four hyl
  obtain ⟨p1, p2, hpq⟩ := length_eq_two' hhl
  obtain ⟨q1, q2, hq⟩ := length_eq_two' hmil
  obtain ⟨r1, r2, hr⟩ := length_eq_two' hssl
  subst hy hpq hq hr
  simp only [List.all_cons, List.all_nil, Bool.and_eq_true, and_true] at hyd hhd hmid hssd
  obtain ⟨hy1, hy2, hy3, hy4⟩ := hyd
  obtain ⟨hp1, hp2⟩ := hhd
  obtain ⟨hq1, hq2⟩ := hmid
  obtain ⟨hr1, hr2⟩ := hssd
  have hmoE : (∃ a, moL = [a]) ∨ ∃ a b, moL = [a, b] := by
    rcases hmol with h1 | h2
    · exact Or.inl (length_eq_one' h1)
    · exact Or.inr (length_eq_two' h2)
  have hdE : (∃ a, dL = [a]) ∨ ∃ a b, dL = [a, b] := by
    rcases hdl with h1 | h2
    · exact Or.inl (length_eq_one' h1)
    · exact Or.inr (length_eq_two' h2)
  rcases hmoE with ⟨a1, hma⟩ | ⟨a1, a2, hma⟩ <;> subst hma <;>
    rcases hdE with ⟨b1, hdb⟩ | ⟨b1, b2, hdb⟩ <;> subst hdb <;>
    simp only [List.all_cons, List.all_nil, Bool.and_eq_true, and_true] at hmod hdd
  case inl.intro.inl.intro =>
    simp only [rebuildDateTimeStr, List.cons_append, List.nil_append]
    rw [goTimeParse, getnum1or2_one _ hmod (by decide)]
    simp only [bind, Option.bind_eq_bind, Option.some_bind]
    rw [expectChar_step]
    simp only [bind, Option.bind_eq_bind, Option.some_bind]
    rw [getnum1or2_one _ hdd (by decide)]
    simp only [bind, Option.bind_eq_bind, Option.some_bind]
    rw [expectChar_step]
    simp only [bind, Option.bind_eq_bind, Option.some_bind]
    rw [goTimeParseTail_eval _ _ hy1 hy2 hy3 hy4 hp1 hp2 hq1 hq2 hr1 hr2]
    simp only [validGroups, decide_eq_true_eq, instantOfGroups, natOfDigits_one,
      natOfDigits_two, natOfDigits_four]
    split_ifs <;> first | rfl | omega
  case inl.intro.inr.intro.intro =>
    simp only [rebuildDateTimeStr, List.cons_append, List.nil_append]
    rw [goTimeParse, getnum1or2_one _ hmod (by decide)]
    simp only [bind, Option.bind_eq_bind, Option.some_bind]
    rw [expectChar_step]
    simp only [bind, Option.bind_eq_bind, Option.some_bind]
    rw [getnum1or2_two _ hdd.1 hdd.2]
    simp only [bind, Option.bind_eq_bind, Option.some_bind]
    rw [expectChar_step]
    simp only [bind, Option.bind_eq_bind, Option.some_bind]
    rw [goTimeParseTail_eval _ _ hy1 hy2 hy3 hy4 hp1 hp2 hq1 hq2 hr1 hr2]
    simp only [validGroups, decide_eq_true_eq, instantOfGroups, natOfDigits_one,
      natOfDigits_two, natOfDigits_four]
    split_ifs <;> first | rfl | omega
  case inr.intro.intro.inl.intro =>
    simp only [rebuildDateTimeStr, List.cons_append, List.nil_append]
    rw [goTimeParse, getnum1or2_two _ hmod.1 hmod.2]
    simp only [bind, Option.bind_eq_bind, Option.some_bind]
    rw [expectChar_step]
    simp only [bind, Option.bind_eq_bind, Option.some_bind]
    rw [getnum1or2_one _ hdd (by decide)]
    simp only [bind, Option.bind_eq_bind, Option.some_bind]
    rw [expectChar_step]
    simp only [bind, Option.bind_eq_bind, Option.some_bind]
    rw [goTimeParseTail_eval _ _ hy1 hy2 hy3 hy4 hp1 hp2 hq1 hq2 hr1 hr2]
    simp only [validGroups, decide_eq_true_eq, instantOfGroups, natOfDigits_one,
      natOfDigits_two, natOfDigits_four]
    split_ifs <;> first | rfl | omega
  case inr.intro.intro.inr.intro.intro =>
    simp only [rebuildDateTimeStr, List.cons_append, List.nil_append]
    rw [goTimeParse, getnum1or2_two _ hmod.1 hmod.2]
    simp only [bind, Option.bind_eq_bind, Option.some_bind]
    rw [expectChar_step]
    simp only [bind, Option.bind_eq_bind, Option.some_bind]
    rw [getnum1or2_two _ hdd.1 hdd.2]
    simp only [bind, Option.bind_eq_bind, Option.some_bind]
    rw [expectChar_step]
    simp only [bind, Option.bind_eq_bind, Option.some_bind]
    rw [goTimeParseTail_eval _ _ hy1 hy2 hy3 hy4 hp1 hp2 hq1 hq2 hr1 hr2]
    simp only [validGroups, decide_eq_true_eq, instantOfGroups, natOfDigits_one,
      natOfDigits_two, natOfDigits_four]
    split_ifs <;> first | rfl | omega

/-- C5 counterexample: `99` is a syntactically valid two-digit hour field and
the month (1) and day (1, valid for January 2020) satisfy the claim's
conditions, yet the parse fails (Go's `time.Parse` rejects hour ≥ 24) and
extraction does not return a parsed instant. Refutes "the parse succeeds
exactly when month is in 1–12 and day is calendar-valid". -/
theorem c5_counterexample :
    goFindFirstMatch "A 1-1-2020, 99.00.00.mp4".toList =
      some ⟨['1'], ['1'], ['2', '0', '2', '0'], ['9', '9'], ['0', '0'], ['0', '0']⟩ ∧
      (1 ≤ natOfDigits ['1'] ∧ natOfDigits ['1'] ≤ 12) ∧
      (1 ≤ natOfDigits ['1'] ∧
        natOfDigits ['1'] ≤ daysIn (natOfDigits ['1']) (natOfDigits ['2', '0', '2', '0'])) ∧
      goExtractParsed "A 1-1-2020, 99.00.00.mp4".toList = none := by
  decide

/-- The parse stage of extraction, characterized on the first match. -/
theorem goExtractParsed_eval (name : List Char) (g : DTGroups)
    (hm : goFindFirstMatch name = some g) :
    goExtractParsed name =
      if validGroups g = true then some (instantOfGroups g) else none := by
  simp only [goExtractParsed, hm]
  exact goTimeParse_rebuild g (goFindFirstMatch_wf hm)

/-- C5 amended: when the base name contains a match of the date pattern, the
extraction's parse stage succeeds exactly when month is 1..12, day is
calendar-valid for that month and year, hour is at most 23 and minute and
second are at most 59, and then returns the instant of the matched
date-time; extraction depends only on the digit groups, so the `.` and `:`
separator spellings (which leave the groups identical) extract identically. -/
theorem c5_timestamp_extraction :
    (∀ (name : List Char) (g : DTGroups), goFindFirstMatch name = some g →
      goExtractParsed name =
        if validGroups g = true then some (instantOfGroups g) else none) ∧
    (∀ (n1 n2 : List Char) (g : DTGroups), goFindFirstMatch n1 = some g →
      goFindFirstMatch n2 = some g → goExtractParsed n1 = goExtractParsed n2) := by
  constructor
  · intro name g hm
    exact goExtractParsed_eval name g hm
  · intro n1 n2 g h1 h2
    simp only [goExtractParsed, h1, h2]

/-- C5 witness: the end-to-end scenario filename, in its `.` and `:`
separator spellings. -/
theorem c5_timestamp_extraction_witness :
    goExtractParsed "G5 Flex 12-30-2025, 21.00.00 GMT+1 - 12-31-2025, 03.00.00 GMT+1.mp4".toList =
      (if validGroups ⟨['1', '2'], ['3', '0'], ['2', '0', '2', '5'], ['2', '1'], ['0', '0'],
          ['0', '0']⟩ = true then
        some (instantOfGroups ⟨['1', '2'], ['3', '0'], ['2', '0', '2', '5'], ['2', '1'],
          ['0', '0'], ['0', '0']⟩)
      else none) ∧
    goExtractParsed "G5 Flex 12-30-2025, 21.00.00 GMT+1 - 12-31-2025, 03.00.00 GMT+1.mp4".toList =
      goExtractParsed "G5 Flex 12-30-2025, 21:00:00 GMT+1.mp4".toList :=
  ⟨c5_timestamp_extraction.1 _ _ (by decide),
   c5_timestamp_extraction.2 _ _
     ⟨['1', '2'], ['3', '0'], ['2', '0', '2', '5'], ['2', '1'], ['0', '0'], ['0', '0']⟩
     (by decide) (by decide)⟩

theorem daysBeforeYear_nonneg (y : Nat) (hy : 1 ≤ y) : 0 ≤ daysBeforeYear y := by
  rw [daysBeforeYear, if_neg (by omega)]
  exact Int.ofNat_nonneg _

theorem instantOfDate_nonneg (y mo d hh mi ss : Nat) (hy : 1 ≤ y) (hd : 1 ≤ d) :
    0 ≤ instantOfDate y mo d hh mi ss := by
  rw [instantOfDate]
  have h1 : 0 ≤ daysBeforeYear y := daysBeforeYear_nonneg y hy
  have h2 : (0 : Int) ≤ if 2 < mo ∧ goIsLeap y = true then 1 else 0 := by positivity
  have h3 : (1 : Int) ≤ Int.ofNat d := Int.ofNat_le.mpr hd
  have h4 : (0 : Int) ≤ Int.ofNat (daysBeforeMonth mo) := Int.ofNat_nonneg _
  have h5 : (0 : Int) ≤ Int.ofNat (hh * 3600 + mi * 60 + ss) := Int.ofNat_nonneg _
  have hdays : 0 ≤ daysBeforeYear y + Int.ofNat (daysBeforeMonth mo) +
      (if 2 < mo ∧ goIsLeap y = true then 1 else 0) + Int.ofNat d - 1 := by omega
  have := mul_nonneg hdays (by norm_num : (0 : Int) ≤ 86400)
  omega

theorem instantOfGroups_nonneg (g : DTGroups) (hy : 1 ≤ natOfDigits g.y)
    (hval : validGroups g = true) : 0 ≤ instantOfGroups g := by
  rw [validGroups, decide_eq_true_eq] at hval
  exact instantOfDate_nonneg _ _ _ _ _ _ hy hval.2.2.1

/-- C10 counterexample: the 4-digit year `0000` parses (year 0, a leap year
in the proleptic calendar), producing an instant one leap year BEFORE the
zero-time sentinel; the sentinel is After that parsed instant, and under the
Before-based comparator a file with an unknown key (zero time) is ordered
strictly after that real-key file by the sequencer. Refutes both the claimed
"the sentinel is never After t" and its sort consequence. -/
theorem c10_counterexample :
    goExtractParsed (goFilepathBase '/' "C 1-1-0000, 00.00.00.mp4".toList) =
      some (-31622400) ∧
      goTimeAfter zeroInstant (-31622400) = true ∧
      extractDateFromPath '/' "nostamp.mp4".toList none = zeroInstant ∧
      sortVideoFiles '/' (fun _ => none)
          ["nostamp.mp4".toList, "C 1-1-0000, 00.00.00.mp4".toList] =
        ["C 1-1-0000, 00.00.00.mp4".toList, "nostamp.mp4".toList] := by
  decide

/-- C10 amended: the unknown sentinel is exactly the zero time (midnight,
January 1 of year 1); for every timestamp parsed from a filename whose
4-digit year field is at least 0001, the sentinel is not After it, and the
sequencer's Before-based comparator never orders a file with the unknown
(zero) key strictly after such a file. -/
theorem c10_sentinel_placement :
    zeroInstant = instantOfDate 1 1 1 0 0 0 ∧
    (∀ (name : List Char) (g : DTGroups) (t : Int), goFindFirstMatch name = some g →
      goExtractParsed name = some t → 1 ≤ natOfDigits g.y →
      goTimeAfter zeroInstant t = false) ∧
    (∀ (sep : Char) (fReal fUnk : List Char) (statR statU : Option Int) (g : DTGroups)
      (t : Int),
      goFindFirstMatch (goFilepathBase sep fReal) = some g → 1 ≤ natOfDigits g.y →
      goExtractParsed (goFilepathBase sep fReal) = some t →
      extractDateFromPath sep fUnk statU = zeroInstant →
      goTimeBefore (extractDateFromPath sep fReal statR)
        (extractDateFromPath sep fUnk statU) = false) := by
  refine ⟨by decide, ?_, ?_⟩
  · intro name g t hm hext hy
    rw [goExtractParsed_eval name g hm] at hext
    rcases hval : validGroups g with _ | _
    · rw [hval] at hext
      simp at hext
    · rw [hval, if_pos rfl] at hext
      obtain rfl : instantOfGroups g = t := Option.some.injEq .. ▸ hext
      have := instantOfGroups_nonneg g hy hval
      rw [goTimeAfter, zeroInstant]
      simp
      omega
  · intro sep fReal fUnk statR statU g t hm hy hext hunk
    have hreal : extractDateFromPath sep fReal statR = t := by
      rw [extractDateFromPath.eq_def, hext]
    rw [hreal, hunk]
    rw [goExtractParsed_eval _ g hm] at hext
    rcases hval : validGroups g with _ | _
    · rw [hval] at hext
      simp at hext
    · rw [hval, if_pos rfl] at hext
      obtain rfl : instantOfGroups g = t := Option.some.injEq .. ▸ hext
      have := instantOfGroups_nonneg g hy hval
      rw [goTimeBefore, zeroInstant]
      simp
      omega

/-- C10 witness: a real parsed timestamp (Dec 30 2025); the sentinel is not
After it and the comparator never puts the unknown-key file strictly after
the file carrying it. -/
theorem c10_sentinel_placement_witness :
    goTimeAfter zeroInstant 63902725200 = false ∧
      goTimeBefore
        (extractDateFromPath '/'
          "G5 Flex 12-30-2025, 21.00.00 GMT+1 - 12-31-2025, 03.00.00 GMT+1.mp4".toList none)
        (extractDateFromPath '/' "nostamp.mp4".toList none) = false :=
  ⟨c10_sentinel_placement.2.1
      "G5 Flex 12-30-2025, 21.00.00 GMT+1 - 12-31-2025, 03.00.00 GMT+1.mp4".toList
      ⟨['1', '2'], ['3', '0'], ['2', '0', '2', '5'], ['2', '1'], ['0', '0'], ['0', '0']⟩
      63902725200 (by decide) (by decide) (by decide),
    c10_sentinel_placement.2.2 '/'
      "G5 Flex 12-30-2025, 21.00.00 GMT+1 - 12-31-2025, 03.00.00 GMT+1.mp4".toList
      "nostamp.mp4".toList none none
      ⟨['1', '2'], ['3', '0'], ['2', '0', '2', '5'], ['2', '1'], ['0', '0'], ['0', '0']⟩
      63902725200 (by decide) (by decide) (by decide) (by decide)⟩

/-! ## C9: characterization of discovery -/

/-- The walk events seen before the first error. -/
def walkPre : List WalkEvent → List WalkEvent
  | [] => []
  | .fail _ :: _ => []
  | e :: rest => e :: walkPre rest

/-- The first walk error, if any. -/
def firstWalkErr : List WalkEvent → Option Nat
  | [] => none
  | .fail e :: _ => some e
  | _ :: rest => firstWalkErr rest

/-- The claim's selection predicate: a regular file whose base name,
compared case-insensitively, ends in `.mp4`, and whose base name starts with
the camera name (case-sensitively). -/
def claimMatch (sep : Char) (camera : List Char) : WalkEvent → Option (List Char)
  | .entry p true =>
    if (listEndsWith (goToLower (goFilepathBase sep p)) videoExtChars &&
        listStartsWith (goFilepathBase sep p) camera) = true then some p else none
  | _ => none

/-- A walk-produced path: non-empty and without a trailing separator
(`filepath.Walk` emits `Join(root, name)` paths, which never end in the
separator). -/
def eventPathClean (sep : Char) : WalkEvent → Prop
  | .entry p _ => p ≠ [] ∧ p.reverse.head? ≠ some sep
  | .fail _ => True

theorem startsWith_lower_takeWhile (sep : Char) (hlow : goToLowerChar sep = sep) :
    ∀ (pat P : List Char), (∀ x ∈ pat, x ≠ sep) →
    listStartsWith ((P.takeWhile fun c => decide (c ≠ sep)).map goToLowerChar) pat =
      listStartsWith (P.map goToLowerChar) pat := by
  intro pat
  induction pat with
  | nil =>
    intro P _
    cases hm : (P.takeWhile fun c => decide (c ≠ sep)).map goToLowerChar <;>
      cases hm2 : P.map goToLowerChar <;> rfl
  | cons x xs ih =>
    intro P hx
    cases P with
    | nil => rfl
    | cons c P' =>
      by_cases hc : c = sep
      · have hsx : decide (sep = x) = false := by
          simp only [decide_eq_false_iff_not]
          exact fun he => (hx x (List.mem_cons_self x xs)) he.symm
        simp [List.takeWhile_cons, hc, listStartsWith, hlow, hsx]
      · have htw : decide (c ≠ sep) = true := by simp [hc]
        simp only [List.takeWhile_cons, htw, if_true, List.map_cons, listStartsWith]
        rw [ih P' (fun y hy => hx y (List.mem_cons_of_mem x hy))]

/-- For separator `/` or `\`, the case-insensitive `.mp4` test on the whole
walk path (as the code performs it) agrees with the same test on the base
name (as the claim states it), for walk-clean paths. -/
theorem suffix_base_eq (sep : Char) (hsep : sep = '/' ∨ sep = '\\') (p : List Char)
    (hne : p ≠ []) (hlast : p.reverse.head? ≠ some sep) :
    listEndsWith (goToLower p) videoExtChars =
      listEndsWith (goToLower (goFilepathBase sep p)) videoExtChars := by
  have hlow : goToLowerChar sep = sep := by
    rcases hsep with h | h <;> subst h <;> decide
  have hPne : p.reverse ≠ [] := by
    intro h
    exact hne (by simpa using congrArg List.reverse h)
  obtain ⟨c, P', hP⟩ : ∃ c P', p.reverse = c :: P' := by
    cases hcc : p.reverse with
    | nil => exact absurd hcc hPne
    | cons c P' => exact ⟨c, P', rfl⟩
  have hcsep : ¬ c = sep := by
    rw [hP] at hlast
    simp only [List.head?_cons, ne_eq, Option.some.injEq] at hlast
    exact hlast
  have hdrop : p.reverse.dropWhile (fun x => decide (x = sep)) = p.reverse := by
    rw [hP]
    exact List.dropWhile_cons_of_neg (by simpa using hcsep)
  have hbase : goFilepathBase sep p = ((p.reverse.takeWhile fun x => decide (¬ x = sep)).reverse) := by
    rw [goFilepathBase, if_neg hne]
    simp only [hdrop, List.reverse_reverse]
    rw [if_neg hne]
  rw [hbase]
  rw [listEndsWith, listEndsWith, goToLower, goToLower]
  rw [← List.map_reverse, ← List.map_reverse, List.reverse_reverse]
  exact (startsWith_lower_takeWhile sep hlow videoExtChars.reverse p.reverse
    (by rcases hsep with h | h <;> subst h <;> decide)).symm

/-- C9: discovery collects exactly the regular files whose base name ends
case-insensitively in `.mp4` and starts with the camera name
(case-sensitively), in walk order, as absolute paths; the first walk error
is propagated (aborting the walk); no error means `none` — in particular an
empty match set is returned with no error. -/
theorem c9_discovery (sep : Char) (abs : List Char → List Char) (camera : List Char)
    (events : List WalkEvent) (hsep : sep = '/' ∨ sep = '\\')
    (hclean : ∀ e ∈ events, eventPathClean sep e) :
    findVideoFiles sep abs camera events =
      (((walkPre events).filterMap (claimMatch sep camera)).map abs, firstWalkErr events) := by
  induction events with
  | nil => rfl
  | cons e rest ih =>
    have ihr := ih (fun x hx => hclean x (List.mem_cons_of_mem e hx))
    cases e with
    | fail n => simp [findVideoFiles, walkPre, firstWalkErr]
    | entry p reg =>
      obtain ⟨hne, hlast⟩ : p ≠ [] ∧ p.reverse.head? ≠ some sep :=
        hclean _ (List.mem_cons_self _ _)
      have hSB := suffix_base_eq sep hsep p hne hlast
      cases reg with
      | false =>
        rw [findVideoFiles]
        simp only [Bool.not_false, if_true, ihr]
        rw [show walkPre (WalkEvent.entry p false :: rest) =
              WalkEvent.entry p false :: walkPre rest from rfl,
          show firstWalkErr (WalkEvent.entry p false :: rest) = firstWalkErr rest from rfl,
          List.filterMap_cons]
        rfl
      | true =>
        rw [findVideoFiles]
        simp only [Bool.not_true, Bool.false_eq_true, if_false, ihr]
        rw [show walkPre (WalkEvent.entry p true :: rest) =
              WalkEvent.entry p true :: walkPre rest from rfl,
          show firstWalkErr (WalkEvent.entry p true :: rest) = firstWalkErr rest from rfl,
          List.filterMap_cons]
        by_cases hsuf : listEndsWith (goToLower p) videoExtChars = true
        · rw [hsuf]
          simp only [Bool.not_true, Bool.false_eq_true, if_false]
          by_cases hpre : listStartsWith (goFilepathBase sep p) camera = true
          · rw [if_pos hpre]
            rw [show claimMatch sep camera (WalkEvent.entry p true) = some p by
              rw [claimMatch, if_pos (by rw [← hSB, hsuf, hpre]; rfl)]]
            rfl
          · rw [if_neg hpre]
            rw [show claimMatch sep camera (WalkEvent.entry p true) = none by
              rw [claimMatch, if_neg (by
                rw [← hSB]
                simp only [Bool.and_eq_true, not_and]
                intro _
                exact fun hp => hpre hp)]]
        · rw [show listEndsWith (goToLower p) videoExtChars = false by
            cases hval : listEndsWith (goToLower p) videoExtChars
            · rfl
            · exact absurd hval hsuf]
          simp only [Bool.not_false, if_true]
          rw [show claimMatch sep camera (WalkEvent.entry p true) = none by
            rw [claimMatch, if_neg (by
              rw [← hSB]
              simp only [Bool.and_eq_true, not_and]
              intro hs
              exact absurd hs hsuf)]]

/-- Walk events for the C9 witness: the root directory, a matching file with
an uppercase extension, a non-matching file, a case-mismatched camera name,
a walk error, and a file after the error. -/
def c9Events : List WalkEvent :=
  [.entry "videos".toList false,
   .entry "videos/G5 Flex 1-1-2020, 10.00.00.MP4".toList true,
   .entry "videos/other.txt".toList true,
   .entry "videos/g5 flex 1-1-2020, 11.00.00.mp4".toList true,
   .fail 7,
   .entry "videos/G5 Flex 1-1-2020, 12.00.00.mp4".toList true]

/-- C9 witness: concrete discovery run over `c9Events`. -/
theorem c9_discovery_witness :
    findVideoFiles '/' (fun p => "/abs/".toList ++ p) "G5 Flex".toList c9Events =
      (((walkPre c9Events).filterMap (claimMatch '/' "G5 Flex".toList)).map
          (fun p => "/abs/".toList ++ p),
        firstWalkErr c9Events) :=
  c9_discovery '/' (fun p => "/abs/".toList ++ p) "G5 Flex".toList c9Events
    (Or.inl rfl)
    (by
      intro e he
      simp only [c9Events, List.mem_cons, List.not_mem_nil, or_false] at he
      rcases he with rfl | rfl | rfl | rfl | rfl | rfl <;>
        first
        | trivial
        | exact ⟨by decide, by decide⟩)

/-! ## C2: the sequencing sort

`sort.Slice` is pdqsort, which is NOT stable; for slices of at most 12
elements, however, it is exactly `insertionSort_func`, which is stable. The
development below relates the swap-based insertion sort to a list-level
stable insertion (`insR`/`insFoldAux`) and proves sortedness and stability
(filter preservation) for it; a 13-file counterexample refutes stability of
the full sort. -/

/-- Insert `x` into the reversed list `rl` (most recent element first):
walk past the elements `y` with `less x y` and drop `x` there — the
list-level reading of the inner swap loop. -/
def insRAux (less : α → α → Bool) (x : α) : List α → List α
  | [] => [x]
  | y :: ys => if less x y then y :: insRAux less x ys else x :: y :: ys

/-- Insert `x` into `s` from the right: `x` lands after every element it is
not `less` than, i.e. after all elements equal to it — the stable position. -/
def insR (less : α → α → Bool) (s : List α) (x : α) : List α :=
  (insRAux less x s.reverse).reverse

/-- Left-to-right insertion fold: the list-level insertion sort. -/
def insFoldAux (less : α → α → Bool) : List α → List α → List α
  | pre, [] => pre
  | pre, x :: rest => insFoldAux less (insR less pre x) rest

theorem insR_nil (less : α → α → Bool) (x : α) : insR less [] x = [x] := rfl

theorem insR_append_last (less : α → α → Bool) (ys : List α) (y x : α) :
    insR less (ys ++ [y]) x =
      if less x y then insR less ys x ++ [y] else (ys ++ [y]) ++ [x] := by
  rw [insR, insR, List.reverse_append]
  simp only [List.reverse_cons, List.reverse_nil, List.nil_append, List.cons_append,
    insRAux]
  split
  · simp [List.reverse_cons]
  · simp

theorem insRAux_length (less : α → α → Bool) (x : α) (l : List α) :
    (insRAux less x l).length = l.length + 1 := by
  induction l with
  | nil => rfl
  | cons y ys ih =>
    rw [insRAux]
    split <;> simp [ih]

theorem insR_length (less : α → α → Bool) (s : List α) (x : α) :
    (insR less s x).length = s.length + 1 := by
  rw [insR]
  simp [insRAux_length]

theorem get_bang_append_len [Inhabited α] (ys : List α) (x : α) (suf : List α) :
    (ys ++ x :: suf).get! ys.length = x := by
  induction ys with
  | nil => rfl
  | cons a ys ih => simpa using ih

theorem set_append_len (ys : List α) (a : α) (l : List α) (v : α) :
    (ys ++ a :: l).set ys.length v = ys ++ v :: l := by
  induction ys with
  | nil => rfl
  | cons c ys ih => simpa using ih

theorem swapL_adjacent [Inhabited α] (ys : List α) (a b : α) (t : List α) :
    swapL (ys ++ a :: b :: t) (ys.length + 1) ys.length = ys ++ b :: a :: t := by
  rw [swapL]
  have hu : (ys ++ a :: b :: t).get! (ys.length + 1) = b := by
    have := get_bang_append_len (ys ++ [a]) b t
    simpa using this
  have hv : (ys ++ a :: b :: t).get! ys.length = a := get_bang_append_len ys a (b :: t)
  rw [hu, hv]
  have h1 : (ys ++ a :: b :: t).set (ys.length + 1) a = ys ++ a :: a :: t := by
    have := set_append_len (ys ++ [a]) b t a
    simpa using this
  rw [h1, set_append_len ys a (a :: t) b]

theorem insInnerGo_spec [Inhabited α] (less : α → α → Bool) (pre : List α) (x : α)
    (suf : List α) :
    insInnerGo less 0 (pre ++ x :: suf) pre.length = insR less pre x ++ suf := by
  induction pre using List.reverseRecOn generalizing x suf with
  | nil => simp [insInnerGo, insR_nil]
  | append_singleton ys y ih =>
    have hlen : (ys ++ [y]).length = ys.length + 1 := by simp
    rw [hlen, insInnerGo]
    have hget1 : ((ys ++ [y]) ++ x :: suf).get! (ys.length + 1) = x := by
      have := get_bang_append_len (ys ++ [y]) x suf
      simpa using this
    have hget0 : ((ys ++ [y]) ++ x :: suf).get! ys.length = y := by
      have := get_bang_append_len ys y (x :: suf)
      simpa using this
    rw [hget1, hget0]
    by_cases hxy : less x y = true
    · rw [if_pos ⟨Nat.succ_pos _, hxy⟩]
      have hsw : swapL ((ys ++ [y]) ++ x :: suf) (ys.length + 1) ys.length =
          ys ++ x :: y :: suf := by
        have := swapL_adjacent ys y x suf
        simpa using this
      rw [hsw, ih x (y :: suf), insR_append_last, if_pos hxy]
      simp
    · rw [if_neg (by
        intro hcon
        exact hxy hcon.2)]
      rw [insR_append_last, if_neg hxy]
      simp

theorem insOuterGo_spec [Inhabited α] (less : α → α → Bool) :
    ∀ (rest pre : List α) (fuel : Nat), rest.length ≤ fuel →
    insOuterGo less 0 (pre.length + rest.length) fuel (pre ++ rest) pre.length =
      insFoldAux less pre rest := by
  intro rest
  induction rest with
  | nil =>
    intro pre fuel _
    cases fuel with
    | zero => simp [insOuterGo, insFoldAux]
    | succ f => simp [insOuterGo, insFoldAux]
  | cons x rest' ih =>
    intro pre fuel hfuel
    cases fuel with
    | zero => simp at hfuel
    | succ f =>
      rw [insOuterGo, if_pos (by simp)]
      rw [insInnerGo_spec]
      have hlen2 : pre.length + (x :: rest').length = (insR less pre x).length + rest'.length := by
        rw [insR_length]
        simp
        omega
      rw [hlen2]
      have hidx : pre.length + 1 = (insR less pre x).length := by rw [insR_length]
      rw [hidx]
      rw [ih (insR less pre x) f (by simp at hfuel; omega)]
      rfl

theorem insertionSortGo_spec [Inhabited α] (less : α → α → Bool) (l : List α) :
    insertionSortGo less l 0 l.length = insFoldAux less [] l := by
  cases l with
  | nil => simp [insertionSortGo, insOuterGo, insFoldAux]
  | cons x rest =>
    rw [insertionSortGo]
    have h1 : (x :: rest).length = [x].length + rest.length := by simp; omega
    have h2 : (x :: rest) = [x] ++ rest := rfl
    rw [show (0 + 1 : Nat) = [x].length from rfl]
    rw [h1, h2, insOuterGo_spec less rest [x] ([x].length + rest.length) (by simp)]
    rfl

theorem goSortSlice_small [Inhabited α] (less : α → α → Bool) (l : List α)
    (hlen : l.length ≤ 12) : goSortSlice less l = insFoldAux less [] l := by
  rw [goSortSlice, pdqsortGo, if_pos (by omega)]
  exact insertionSortGo_spec less l

theorem insR_split (k : α → Int) (x : α) (s : List α)
    (hs : s.Pairwise fun a b => k a ≤ k b) :
    ∃ s1 s2, s = s1 ++ s2 ∧
      insR (fun a b => decide (k a < k b)) s x = s1 ++ x :: s2 ∧
      (∀ y ∈ s2, k x < k y) ∧ (∀ y ∈ s1, k y ≤ k x) := by
  induction s using List.reverseRecOn with
  | nil => exact ⟨[], [], rfl, rfl, by simp, by simp⟩
  | append_singleton ys y ih =>
    have hdec := List.pairwise_append.mp hs
    have hys : ys.Pairwise fun a b => k a ≤ k b := hdec.1
    have hcross : ∀ z ∈ ys, k z ≤ k y := fun z hz => hdec.2.2 z hz y (by simp)
    by_cases hxy : k x < k y
    · obtain ⟨t1, t2, hsplit, hins, h2, h1⟩ := ih hys
      refine ⟨t1, t2 ++ [y], by rw [← List.append_assoc, ← hsplit], ?_, ?_, h1⟩
      · rw [insR_append_last, if_pos (by simpa using hxy), hins]
        simp
      · intro z hz
        rcases List.mem_append.mp hz with hz | hz
        · exact h2 z hz
        · simp only [List.mem_singleton] at hz
          subst hz
          exact hxy
    · refine ⟨ys ++ [y], [], by simp, ?_, by simp, ?_⟩
      · rw [insR_append_last, if_neg (by simpa using hxy)]
      · intro z hz
        rcases List.mem_append.mp hz with hz | hz
        · have := hcross z hz
          omega
        · simp only [List.mem_singleton] at hz
          subst hz
          omega

theorem insR_sorted (k : α → Int) (x : α) (s : List α)
    (hs : s.Pairwise fun a b => k a ≤ k b) :
    (insR (fun a b => decide (k a < k b)) s x).Pairwise fun a b => k a ≤ k b := by
  obtain ⟨s1, s2, hsplit, hins, h2, h1⟩ := insR_split k x s hs
  subst hsplit
  have hdec := List.pairwise_append.mp hs
  rw [hins, List.pairwise_append]
  refine ⟨hdec.1, ?_, ?_⟩
  · rw [List.pairwise_cons]
    exact ⟨fun y hy => le_of_lt (h2 y hy), hdec.2.1⟩
  · intro a ha b hb
    rcases List.mem_cons.mp hb with rfl | hb
    · exact h1 a ha
    · exact hdec.2.2 a ha b hb

theorem insR_filter (k : α → Int) (x : α) (s : List α) (t : Int)
    (hs : s.Pairwise fun a b => k a ≤ k b) :
    (insR (fun a b => decide (k a < k b)) s x).filter (fun f => decide (k f = t)) =
      s.filter (fun f => decide (k f = t)) ++ (if k x = t then [x] else []) := by
  obtain ⟨s1, s2, hsplit, hins, h2, h1⟩ := insR_split k x s hs
  subst hsplit
  rw [hins, List.filter_append, List.filter_append, List.filter_cons]
  by_cases hx : k x = t
  · have hs2 : s2.filter (fun f => decide (k f = t)) = [] := by
      rw [List.filter_eq_nil_iff]
      intro y hy
      have := h2 y hy
      simp only [decide_eq_true_eq]
      omega
    rw [hs2]
    simp [hx]
  · rw [if_neg (by simpa using hx), if_neg hx]
    simp

theorem insFold_sorted (k : α → Int) :
    ∀ (rest pre : List α), pre.Pairwise (fun a b => k a ≤ k b) →
    (insFoldAux (fun a b => decide (k a < k b)) pre rest).Pairwise fun a b => k a ≤ k b := by
  intro rest
  induction rest with
  | nil => intro pre hpre; exact hpre
  | cons x rest' ih =>
    intro pre hpre
    exact ih _ (insR_sorted k x pre hpre)

theorem insFold_filter (k : α → Int) (t : Int) :
    ∀ (rest pre : List α), pre.Pairwise (fun a b => k a ≤ k b) →
    (insFoldAux (fun a b => decide (k a < k b)) pre rest).filter (fun f => decide (k f = t)) =
      pre.filter (fun f => decide (k f = t)) ++ rest.filter (fun f => decide (k f = t)) := by
  intro rest
  induction rest with
  | nil => intro pre _; simp [insFoldAux]
  | cons x rest' ih =>
    intro pre hpre
    rw [insFoldAux, ih _ (insR_sorted k x pre hpre), insR_filter k x pre t hpre,
      List.filter_cons]
    by_cases hx : k x = t
    · rw [if_pos hx, if_pos (by simpa using hx)]
      simp
    · rw [if_neg hx, if_neg (by simpa using hx)]
      simp

/-! ### Correctness of the embedded pdqsort: the output range is sorted.

The development below proves that `goSortSlice` always returns a
permutation of its input that is non-decreasing in a key `k : α → Int`
when the comparator is `fun x y => decide (k x < k y)` — the shape of the
comparator main.go passes to `sort.Slice` (`Before` on extracted dates).
Every mutation in the embedding is a `swapL` inside the active range, so
the state lemmas are phrased with `List.get!` like the definitions. -/

theorem getBangPos [Inhabited α] (l : List α) (i : Nat) (h : i < l.length) :
    l.get! i = l[i] := by
  induction l generalizing i with
  | nil => simp at h
  | cons x t ih =>
    cases i with
    | zero => rfl
    | succ j => simpa using ih j (by simpa using h)

theorem getBangNeg [Inhabited α] (l : List α) (i : Nat) (h : l.length ≤ i) :
    l.get! i = default := by
  induction l generalizing i with
  | nil => cases i <;> rfl
  | cons x t ih =>
    cases i with
    | zero => simp at h
    | succ j => simpa using ih j (by simpa using h)

theorem get_bang_mem [Inhabited α] (l : List α) (i : Nat) (h : i < l.length) :
    l.get! i ∈ l := by
  rw [getBangPos l i h]
  exact List.getElem_mem h

theorem get_bang_set_self [Inhabited α] (l : List α) (i : Nat) (v : α) (h : i < l.length) :
    (l.set i v).get! i = v := by
  induction l generalizing i with
  | nil => simp at h
  | cons x t ih =>
    cases i with
    | zero => rfl
    | succ j => simpa using ih j (by simpa using h)

theorem get_bang_set_ne [Inhabited α] (l : List α) (i j : Nat) (v : α) (h : i ≠ j) :
    (l.set i v).get! j = l.get! j := by
  induction l generalizing i j with
  | nil => simp
  | cons x t ih =>
    cases i with
    | zero =>
      cases j with
      | zero => exact absurd rfl h
      | succ jj => rfl
    | succ ii =>
      cases j with
      | zero => rfl
      | succ jj => simpa using ih ii jj (by omega)

theorem set_get_bang_self [Inhabited α] (l : List α) (i : Nat) (h : i < l.length) :
    l.set i (l.get! i) = l := by
  induction l generalizing i with
  | nil => simp at h
  | cons x t ih =>
    cases i with
    | zero => rfl
    | succ j => simpa using ih j (by simpa using h)

theorem swapL_length [Inhabited α] (l : List α) (i j : Nat) :
    (swapL l i j).length = l.length := by
  simp [swapL]

theorem swapL_get_fst [Inhabited α] (l : List α) (i j : Nat) (hi : i < l.length)
    (hj : j < l.length) : (swapL l i j).get! i = l.get! j := by
  rw [swapL]
  by_cases hij : i = j
  · subst hij
    rw [List.set_set, get_bang_set_self _ _ _ hi]
  · rw [get_bang_set_ne _ j i _ (fun hh => hij hh.symm), get_bang_set_self _ _ _ hi]

theorem swapL_get_snd [Inhabited α] (l : List α) (i j : Nat) (hi : i < l.length)
    (hj : j < l.length) : (swapL l i j).get! j = l.get! i := by
  rw [swapL, get_bang_set_self _ _ _ (by simpa using hj)]

theorem swapL_get_other [Inhabited α] (l : List α) (i j p : Nat) (hpi : p ≠ i) (hpj : p ≠ j) :
    (swapL l i j).get! p = l.get! p := by
  rw [swapL, get_bang_set_ne _ j p _ (fun hh => hpj hh.symm),
    get_bang_set_ne _ i p _ (fun hh => hpi hh.symm)]

theorem swapL_self [Inhabited α] (l : List α) (i : Nat) (h : i < l.length) :
    swapL l i i = l := by
  rw [swapL, List.set_set, set_get_bang_self _ _ h]

theorem swapL_comm [Inhabited α] (l : List α) (i j : Nat) : swapL l i j = swapL l j i := by
  by_cases hij : i = j
  · subst hij; rfl
  · rw [swapL, swapL, List.set_comm _ _ _ hij]

theorem cons_set_perm [Inhabited α] (t : List α) (j : Nat) (x : α) (hj : j < t.length) :
    (t.get! j :: t.set j x).Perm (x :: t) := by
  induction t generalizing j with
  | nil => simp at hj
  | cons y s ih =>
    cases j with
    | zero => exact List.Perm.swap x y s
    | succ jj =>
      have h1 : ((y :: s).get! (jj+1) :: (y :: s).set (jj+1) x) =
          s.get! jj :: y :: s.set jj x := rfl
      rw [h1]
      exact (List.Perm.swap y (s.get! jj) (s.set jj x)).trans
        (((ih jj (by simpa using hj)).cons y).trans (List.Perm.swap x y s))

theorem swapL_zero_succ_perm [Inhabited α] (x : α) (t : List α) (j : Nat) (hj : j < t.length) :
    (swapL (x :: t) 0 (j+1)).Perm (x :: t) := by
  have h : swapL (x :: t) 0 (j+1) = t.get! j :: t.set j x := rfl
  rw [h]
  exact cons_set_perm t j x hj

theorem swapL_perm [Inhabited α] (l : List α) (i j : Nat) (hi : i < l.length)
    (hj : j < l.length) : (swapL l i j).Perm l := by
  induction l generalizing i j with
  | nil => simp at hi
  | cons x t ih =>
    match i, j with
    | 0, 0 =>
      rw [swapL_self _ _ hi]
    | 0, jj+1 =>
      exact swapL_zero_succ_perm x t jj (by simpa using hj)
    | ii+1, 0 =>
      rw [swapL_comm]
      exact swapL_zero_succ_perm x t ii (by simpa using hi)
    | ii+1, jj+1 =>
      have h : swapL (x :: t) (ii+1) (jj+1) = x :: swapL t ii jj := rfl
      rw [h]
      exact (ih ii jj (by simpa using hi) (by simpa using hj)).cons x

/-- `r` is `l` with only positions of the half-open range `[a, b)`
rearranged: same length, untouched outside the range, a permutation
overall. -/
def permWithin [Inhabited α] (a b : Nat) (l r : List α) : Prop :=
  r.length = l.length ∧ (∀ p, p < a → r.get! p = l.get! p) ∧
    (∀ p, b ≤ p → r.get! p = l.get! p) ∧ r.Perm l

theorem permWithin_refl [Inhabited α] (a b : Nat) (l : List α) : permWithin a b l l :=
  ⟨rfl, fun _ _ => rfl, fun _ _ => rfl, List.Perm.refl l⟩

theorem permWithin_trans [Inhabited α] {a b : Nat} {l m r : List α}
    (h1 : permWithin a b l m) (h2 : permWithin a b m r) : permWithin a b l r :=
  ⟨h2.1.trans h1.1, fun p hp => (h2.2.1 p hp).trans (h1.2.1 p hp),
   fun p hp => (h2.2.2.1 p hp).trans (h1.2.2.1 p hp), h2.2.2.2.trans h1.2.2.2⟩

theorem permWithin_mono [Inhabited α] {a b a2 b2 : Nat} {l r : List α}
    (haa : a ≤ a2) (hbb : b2 ≤ b) (h : permWithin a2 b2 l r) : permWithin a b l r :=
  ⟨h.1, fun p hp => h.2.1 p (lt_of_lt_of_le hp haa),
   fun p hp => h.2.2.1 p (le_trans hbb hp), h.2.2.2⟩

theorem permWithin_swapL [Inhabited α] (l : List α) (a b i j : Nat) (hai : a ≤ i)
    (hib : i < b) (haj : a ≤ j) (hjb : j < b) (hb : b ≤ l.length) :
    permWithin a b l (swapL l i j) :=
  ⟨swapL_length l i j,
   fun p hp => swapL_get_other l i j p (by omega) (by omega),
   fun p hp => swapL_get_other l i j p (by omega) (by omega),
   swapL_perm l i j (by omega) (by omega)⟩

theorem permWithin_take [Inhabited α] {a b : Nat} {l r : List α}
    (h : permWithin a b l r) : r.take a = l.take a := by
  have hlen : r.length = l.length := h.1
  apply List.ext_getElem?
  intro p
  by_cases hp : p < a
  · by_cases hlen : p < r.length
    · rw [List.getElem?_take, List.getElem?_take, if_pos hp, if_pos hp,
        List.getElem?_eq_getElem hlen, List.getElem?_eq_getElem (h.1 ▸ hlen),
        ← getBangPos r p hlen, ← getBangPos l p (h.1 ▸ hlen), h.2.1 p hp]
    · rw [List.getElem?_take, List.getElem?_take, if_pos hp, if_pos hp,
        List.getElem?_eq_none (by omega), List.getElem?_eq_none (by omega : l.length ≤ p)]
  · rw [List.getElem?_take, List.getElem?_take, if_neg hp, if_neg hp]

theorem permWithin_drop [Inhabited α] {a b : Nat} {l r : List α}
    (h : permWithin a b l r) : r.drop b = l.drop b := by
  have hlen : r.length = l.length := h.1
  apply List.ext_getElem?
  intro p
  rw [List.getElem?_drop, List.getElem?_drop]
  by_cases hlen : b + p < r.length
  · rw [List.getElem?_eq_getElem hlen, List.getElem?_eq_getElem (h.1 ▸ hlen),
      ← getBangPos r _ hlen, ← getBangPos l _ (h.1 ▸ hlen), h.2.2.1 (b + p) (by omega)]
  · rw [List.getElem?_eq_none (by omega), List.getElem?_eq_none (by omega : l.length ≤ b + p)]

theorem permWithin_mid_perm [Inhabited α] {a b : Nat} {l r : List α}
    (h : permWithin a b l r) (hab : a ≤ b) :
    ((r.drop a).take (b - a)).Perm ((l.drop a).take (b - a)) := by
  have hdecomp : ∀ z : List α, z = z.take a ++ ((z.drop a).take (b - a) ++ z.drop b) := by
    intro z
    conv_lhs => rw [← List.take_append_drop a z]
    congr 1
    conv_lhs => rw [← List.take_append_drop (b - a) (z.drop a)]
    congr 1
    rw [List.drop_drop]
    congr 1
    omega
  have hperm := h.2.2.2
  rw [hdecomp r, hdecomp l, permWithin_take h, permWithin_drop h] at hperm
  have h1 := (List.perm_append_left_iff (l.take a)).mp hperm
  exact (List.perm_append_right_iff (l.drop b)).mp h1

theorem permWithin_get_mem [Inhabited α] {a b : Nat} {l r : List α} (h : permWithin a b l r)
    (hab : a ≤ b) (hb : b ≤ l.length) (i : Nat) (hai : a ≤ i) (hib : i < b) :
    ∃ t, a ≤ t ∧ t < b ∧ r.get! i = l.get! t := by
  have hmid := permWithin_mid_perm h hab
  have hrlen : r.length = l.length := h.1
  have hmidr_len : ((r.drop a).take (b - a)).length = b - a := by
    simp only [List.length_take, List.length_drop]
    omega
  have hmidl_len : ((l.drop a).take (b - a)).length = b - a := by
    simp only [List.length_take, List.length_drop]
    omega
  have hry : ((r.drop a).take (b - a))[i - a]? = r[i]? := by
    rw [List.getElem?_take, if_pos (by omega), List.getElem?_drop]
    congr 1
    omega
  have hi_r : i < r.length := by omega
  rw [List.getElem?_eq_getElem hi_r] at hry
  have hia : i - a < ((r.drop a).take (b - a)).length := by omega
  have hval : ((r.drop a).take (b - a))[i - a] = r[i] := by
    have := List.getElem?_eq_getElem hia
    rw [hry] at this
    exact Option.some.inj this.symm
  have hmem : ((r.drop a).take (b - a))[i - a] ∈ (l.drop a).take (b - a) :=
    hmid.mem_iff.mp (List.getElem_mem hia)
  obtain ⟨q, hq, hqe⟩ := List.mem_iff_getElem.mp hmem
  have hlq : ((l.drop a).take (b - a))[q]? = l[a + q]? := by
    rw [List.getElem?_take, if_pos (by omega), List.getElem?_drop]
  have haq : a + q < l.length := by omega
  rw [List.getElem?_eq_getElem hq, List.getElem?_eq_getElem haq] at hlq
  refine ⟨a + q, by omega, by omega, ?_⟩
  rw [getBangPos r i hi_r, getBangPos l (a + q) haq, ← Option.some.inj hlq, hqe, ← hval]

theorem permWithin_range_pred [Inhabited α] {a b : Nat} {l r : List α} (P : α → Prop)
    (h : permWithin a b l r) (hab : a ≤ b) (hb : b ≤ l.length)
    (hP : ∀ t, a ≤ t → t < b → P (l.get! t)) :
    ∀ t, a ≤ t → t < b → P (r.get! t) := by
  intro t h1 h2
  obtain ⟨q, hq1, hq2, heq⟩ := permWithin_get_mem h hab hb t h1 h2
  rw [heq]
  exact hP q hq1 hq2

/-- Keys non-decreasing across the half-open index range `[a, b)`. -/
def sortedRange [Inhabited α] (k : α → Int) (a b : Nat) (l : List α) : Prop :=
  ∀ i j, a ≤ i → i ≤ j → j < b → k (l.get! i) ≤ k (l.get! j)

/-- Adjacent pairs non-decreasing across `[a, b)`. -/
def adjSorted [Inhabited α] (k : α → Int) (a b : Nat) (l : List α) : Prop :=
  ∀ t, a < t → t < b → k (l.get! (t-1)) ≤ k (l.get! t)

theorem sortedRange_of_adj [Inhabited α] (k : α → Int) {a b : Nat} {l : List α}
    (h : adjSorted k a b l) : sortedRange k a b l := by
  intro i j hai hij hjb
  induction j, hij using Nat.le_induction with
  | base => exact le_refl _
  | succ j hij ih =>
    refine le_trans (ih (by omega)) ?_
    have := h (j+1) (by omega) hjb
    simpa using this

theorem pairwise_of_sortedRange [Inhabited α] (k : α → Int) (l : List α)
    (h : sortedRange k 0 l.length l) :
    l.Pairwise (fun x y => k x ≤ k y) := by
  rw [List.pairwise_iff_getElem]
  intro i j hi hj hij
  have hh := h i j (Nat.zero_le _) (le_of_lt hij) hj
  rwa [getBangPos l i hi, getBangPos l j hj] at hh

/-- The comparator shape `sort.Slice` receives in main.go: strictly-less on
an integer key. -/
def lessOf (k : α → Int) : α → α → Bool := fun x y => decide (k x < k y)

theorem insInnerGo_adj [Inhabited α] (k : α → Int) (a b m : Nat) :
    ∀ (q : Nat) (l : List α), b ≤ l.length → a ≤ q → q ≤ m → m < b →
    (∀ t, a < t → t < q → k (l.get! (t-1)) ≤ k (l.get! t)) →
    (∀ t, q + 1 < t → t ≤ m → k (l.get! (t-1)) ≤ k (l.get! t)) →
    (q < m → k (l.get! q) ≤ k (l.get! (q+1))) →
    (a < q → q < m → k (l.get! (q-1)) ≤ k (l.get! (q+1))) →
    permWithin a b l (insInnerGo (lessOf k) a l q) ∧
      (∀ t, a < t → t ≤ m →
        k ((insInnerGo (lessOf k) a l q).get! (t-1)) ≤
          k ((insInnerGo (lessOf k) a l q).get! t)) := by
  intro q
  induction q with
  | zero =>
    intro l hb ha hqm hmb hlow hhigh hmov hbridge
    refine ⟨permWithin_refl a b l, ?_⟩
    intro t h1 h2
    rcases Nat.lt_or_ge t 2 with ht | ht
    · have ht1 : t = 1 := by omega
      subst ht1
      exact hmov (by omega)
    · exact hhigh t (by omega) h2
  | succ j ih =>
    intro l hb ha hqm hmb hlow hhigh hmov hbridge
    rw [insInnerGo]
    by_cases hc : j + 1 > a ∧ k (l.get! (j+1)) < k (l.get! j)
    · rw [if_pos (by simpa [lessOf] using hc)]
      have hjb : j + 1 < b := by omega
      have hjlen : j + 1 < l.length := by omega
      have hjlen0 : j < l.length := by omega
      have hsw1 : (swapL l (j+1) j).get! (j+1) = l.get! j :=
        swapL_get_fst l (j+1) j hjlen hjlen0
      have hsw0 : (swapL l (j+1) j).get! j = l.get! (j+1) :=
        swapL_get_snd l (j+1) j hjlen hjlen0
      have hswo : ∀ p, p ≠ j + 1 → p ≠ j → (swapL l (j+1) j).get! p = l.get! p :=
        fun p h1 h2 => swapL_get_other l (j+1) j p h1 h2
      have hres := ih (swapL l (j+1) j) (by rw [swapL_length]; exact hb)
        (by omega) (by omega) hmb
        (fun t h1 h2 => by
          rw [hswo t (by omega) (by omega), hswo (t-1) (by omega) (by omega)]
          exact hlow t h1 (by omega))
        (fun t h1 h2 => by
          rcases Nat.lt_or_ge (j+2) t with ht | ht
          · rw [hswo t (by omega) (by omega), hswo (t-1) (by omega) (by omega)]
            exact hhigh t (by omega) h2
          · have ht2 : t = j + 2 := by omega
            subst ht2
            have htm1 : j + 2 - 1 = j + 1 := by omega
            rw [htm1, hsw1, hswo (j+2) (by omega) (by omega)]
            have := hbridge (by omega) (by omega)
            simpa using this)
        (fun hjm => by
          rw [hsw0, hsw1]
          exact le_of_lt hc.2)
        (fun haj hjm => by
          rw [hswo (j-1) (by omega) (by omega), hsw1]
          have := hlow j haj (by omega)
          simpa using this)
      refine ⟨permWithin_trans (permWithin_swapL l a b (j+1) j (by omega) hjb (by omega)
        (by omega) hb) hres.1, hres.2⟩
    · rw [if_neg (by simpa [lessOf] using hc)]
      refine ⟨permWithin_refl a b l, ?_⟩
      intro t h1 h2
      rcases Nat.lt_or_ge a (j+1) with haj | haj
      · have hge : k (l.get! j) ≤ k (l.get! (j+1)) := by
          by_contra hlt
          exact hc ⟨haj, by omega⟩
        rcases Nat.lt_or_ge t (j+1) with ht | ht
        · exact hlow t h1 ht
        · rcases Nat.lt_or_ge (j+2) t with ht2 | ht2
          · exact hhigh t ht2 h2
          · rcases Nat.eq_or_lt_of_le ht with ht3 | ht3
            · have : t = j + 1 := ht3.symm
              subst this
              simpa using hge
            · have ht4 : t = j + 2 := by omega
              subst ht4
              have := hmov (by omega)
              simpa using this
      · have haq : a = j + 1 := by omega
        subst haq
        rcases Nat.lt_or_ge (j+2) t with ht2 | ht2
        · exact hhigh t ht2 h2
        · have ht4 : t = j + 2 := by omega
          subst ht4
          have := hmov (by omega)
          simpa using this

theorem insOuterGo_adj [Inhabited α] (k : α → Int) (a b : Nat) :
    ∀ (fuel : Nat) (l : List α) (i : Nat), b ≤ l.length → a + 1 ≤ i → b ≤ i + fuel →
    (∀ t, a < t → t < i → k (l.get! (t-1)) ≤ k (l.get! t)) →
    permWithin a b l (insOuterGo (lessOf k) a b fuel l i) ∧
      adjSorted k a b (insOuterGo (lessOf k) a b fuel l i) := by
  intro fuel
  induction fuel with
  | zero =>
    intro l i hb hai hfi hadj
    rw [insOuterGo]
    exact ⟨permWithin_refl a b l, fun t h1 h2 => hadj t h1 (by omega)⟩
  | succ f ih =>
    intro l i hb hai hfi hadj
    rw [insOuterGo]
    by_cases hib : i < b
    · rw [if_pos hib]
      have hinner := insInnerGo_adj k a b i i l hb (by omega) (le_refl i) hib
        hadj (fun t h1 h2 => by omega)
        (fun h => absurd h (lt_irrefl i)) (fun _ h => absurd h (lt_irrefl i))
      have hrec := ih (insInnerGo (lessOf k) a l i) (i+1)
        (by rw [hinner.1.1]; exact hb) (by omega) (by omega)
        (fun t h1 h2 => hinner.2 t h1 (by omega))
      exact ⟨permWithin_trans hinner.1 hrec.1, hrec.2⟩
    · rw [if_neg hib]
      exact ⟨permWithin_refl a b l, fun t h1 h2 => hadj t h1 (by omega)⟩

theorem insertionSortGo_adj [Inhabited α] (k : α → Int) (l : List α) (a b : Nat)
    (hb : b ≤ l.length) :
    permWithin a b l (insertionSortGo (lessOf k) l a b) ∧
      adjSorted k a b (insertionSortGo (lessOf k) l a b) := by
  rw [insertionSortGo]
  exact insOuterGo_adj k a b b l (a+1) hb (le_refl _) (by omega)
    (fun t h1 h2 => absurd h2 (by omega))

theorem pisScanGo_spec [Inhabited α] (k : α → Int) (a b : Nat) (l : List α) :
    ∀ (fuel i : Nat), a + 1 ≤ i → i ≤ b → b ≤ i + fuel →
    (∀ t, a < t → t < i → k (l.get! (t-1)) ≤ k (l.get! t)) →
    i ≤ pisScanGo (lessOf k) l b fuel i ∧ pisScanGo (lessOf k) l b fuel i ≤ b ∧
      (∀ t, a < t → t < pisScanGo (lessOf k) l b fuel i →
        k (l.get! (t-1)) ≤ k (l.get! t)) ∧
      (pisScanGo (lessOf k) l b fuel i = b ∨
        (pisScanGo (lessOf k) l b fuel i < b ∧
          k (l.get! (pisScanGo (lessOf k) l b fuel i)) <
            k (l.get! (pisScanGo (lessOf k) l b fuel i - 1)))) := by
  intro fuel
  induction fuel with
  | zero =>
    intro i hai hib hfuel hadj
    rw [pisScanGo]
    exact ⟨le_refl i, hib, hadj, Or.inl (by omega)⟩
  | succ f ih =>
    intro i hai hib hfuel hadj
    rw [pisScanGo]
    by_cases hc : i < b ∧ ¬ k (l.get! i) < k (l.get! (i-1))
    · rw [if_pos (by simpa [lessOf] using hc)]
      have hrec := ih (i+1) (by omega) (by omega) (by omega)
        (fun t h1 h2 => by
          rcases Nat.lt_or_ge t i with ht | ht
          · exact hadj t h1 ht
          · have ht2 : t = i := by omega
            subst ht2
            omega)
      exact ⟨by omega, hrec.2.1, hrec.2.2.1, hrec.2.2.2⟩
    · rw [if_neg (by simpa [lessOf] using hc)]
      refine ⟨le_refl i, hib, hadj, ?_⟩
      rcases Nat.lt_or_ge i b with hib2 | hib2
      · refine Or.inr ⟨hib2, ?_⟩
        by_contra hh
        exact hc ⟨hib2, by omega⟩
      · exact Or.inl (by omega)

theorem pisShiftLeftGo_adj [Inhabited α] (k : α → Int) (a b m : Nat) :
    ∀ (q : Nat) (l : List α), b ≤ l.length → a ≤ q → q ≤ m → m < b →
    (0 < a → ∀ t, a ≤ t → t < b → k (l.get! (a-1)) ≤ k (l.get! t)) →
    (∀ t, a < t → t < q → k (l.get! (t-1)) ≤ k (l.get! t)) →
    (∀ t, q + 1 < t → t ≤ m → k (l.get! (t-1)) ≤ k (l.get! t)) →
    (q < m → k (l.get! q) ≤ k (l.get! (q+1))) →
    (a < q → q < m → k (l.get! (q-1)) ≤ k (l.get! (q+1))) →
    permWithin a b l (pisShiftLeftGo (lessOf k) l q) ∧
      (∀ t, a < t → t ≤ m →
        k ((pisShiftLeftGo (lessOf k) l q).get! (t-1)) ≤
          k ((pisShiftLeftGo (lessOf k) l q).get! t)) := by
  intro q
  induction q with
  | zero =>
    intro l hb ha hqm hmb hlb hlow hhigh hmov hbridge
    refine ⟨permWithin_refl a b l, ?_⟩
    intro t h1 h2
    rcases Nat.lt_or_ge t 2 with ht | ht
    · have ht1 : t = 1 := by omega
      subst ht1
      exact hmov (by omega)
    · exact hhigh t (by omega) h2
  | succ j ih =>
    intro l hb ha hqm hmb hlb hlow hhigh hmov hbridge
    rw [pisShiftLeftGo]
    by_cases hc : k (l.get! (j+1)) < k (l.get! j)
    · rw [if_neg (by simpa [lessOf] using hc)]
      have haj : a < j + 1 := by
        rcases Nat.eq_or_lt_of_le ha with h | h
        · exfalso
          have hstep := hlb (by omega) (j+1) (by omega) (by omega)
          have hm1 : a - 1 = j := by omega
          rw [hm1] at hstep
          omega
        · exact h
      have hjb : j + 1 < b := by omega
      have hjlen : j + 1 < l.length := by omega
      have hjlen0 : j < l.length := by omega
      have hsw1 : (swapL l (j+1) j).get! (j+1) = l.get! j :=
        swapL_get_fst l (j+1) j hjlen hjlen0
      have hsw0 : (swapL l (j+1) j).get! j = l.get! (j+1) :=
        swapL_get_snd l (j+1) j hjlen hjlen0
      have hswo : ∀ p, p ≠ j + 1 → p ≠ j → (swapL l (j+1) j).get! p = l.get! p :=
        fun p h1 h2 => swapL_get_other l (j+1) j p h1 h2
      have hres := ih (swapL l (j+1) j) (by rw [swapL_length]; exact hb)
        (by omega) (by omega) hmb
        (fun ha0 t h1 h2 => by
          rw [hswo (a-1) (by omega) (by omega)]
          rcases Nat.decEq t (j+1) with h | h
          · rcases Nat.decEq t j with h2t | h2t
            · rw [hswo t h h2t]
              exact hlb ha0 t h1 h2
            · rw [h2t, hsw0]
              exact hlb ha0 (j+1) (by omega) (by omega)
          · rw [h, hsw1]
            exact hlb ha0 j (by omega) (by omega))
        (fun t h1 h2 => by
          rw [hswo t (by omega) (by omega), hswo (t-1) (by omega) (by omega)]
          exact hlow t h1 (by omega))
        (fun t h1 h2 => by
          rcases Nat.lt_or_ge (j+2) t with ht | ht
          · rw [hswo t (by omega) (by omega), hswo (t-1) (by omega) (by omega)]
            exact hhigh t (by omega) h2
          · have ht2 : t = j + 2 := by omega
            subst ht2
            have htm1 : j + 2 - 1 = j + 1 := by omega
            rw [htm1, hsw1, hswo (j+2) (by omega) (by omega)]
            have := hbridge (by omega) (by omega)
            simpa using this)
        (fun hjm => by
          rw [hsw0, hsw1]
          exact le_of_lt hc)
        (fun haj2 hjm => by
          rw [hswo (j-1) (by omega) (by omega), hsw1]
          have := hlow j haj2 (by omega)
          simpa using this)
      exact ⟨permWithin_trans (permWithin_swapL l a b (j+1) j (by omega) hjb (by omega)
        (by omega) hb) hres.1, hres.2⟩
    · rw [if_pos (by simpa [lessOf] using hc)]
      refine ⟨permWithin_refl a b l, ?_⟩
      intro t h1 h2
      rcases Nat.lt_or_ge t (j+1) with ht | ht
      · exact hlow t h1 ht
      · rcases Nat.lt_or_ge (j+2) t with ht2 | ht2
        · exact hhigh t ht2 h2
        · rcases Nat.eq_or_lt_of_le ht with ht3 | ht3
          · have heq : t = j + 1 := ht3.symm
            subst heq
            simpa using (by omega : k (l.get! j) ≤ k (l.get! (j+1)))
          · have ht4 : t = j + 2 := by omega
            subst ht4
            have := hmov (by omega)
            simpa using this

theorem pisShiftRightGo_pw [Inhabited α] (k : α → Int) (b c : Nat) :
    ∀ (fuel : Nat) (l : List α) (j : Nat), b ≤ l.length → c + 1 ≤ j →
    permWithin c b l (pisShiftRightGo (lessOf k) b fuel l j) := by
  intro fuel
  induction fuel with
  | zero =>
    intro l j hb hcj
    rw [pisShiftRightGo]
    exact permWithin_refl c b l
  | succ f ih =>
    intro l j hb hcj
    rw [pisShiftRightGo]
    by_cases hjb : j < b
    · rw [if_pos hjb]
      by_cases hc : k (l.get! j) < k (l.get! (j-1))
      · rw [if_neg (by simpa [lessOf] using hc)]
        refine permWithin_trans (permWithin_swapL l c b j (j-1) (by omega) hjb (by omega)
          (by omega) hb) ?_
        exact ih (swapL l j (j-1)) (j+1) (by rw [swapL_length]; exact hb) (by omega)
      · rw [if_pos (by simpa [lessOf] using hc)]
        exact permWithin_refl c b l
    · rw [if_neg hjb]
      exact permWithin_refl c b l

theorem pisLoopGo_spec [Inhabited α] (k : α → Int) (a b : Nat) :
    ∀ (steps : Nat) (l : List α) (i : Nat), b ≤ l.length → a + 1 ≤ i → i ≤ b →
    (0 < a → ∀ t, a ≤ t → t < b → k (l.get! (a-1)) ≤ k (l.get! t)) →
    (∀ t, a < t → t < i → k (l.get! (t-1)) ≤ k (l.get! t)) →
    permWithin a b l (pisLoopGo (lessOf k) a b l i steps).1 ∧
      ((pisLoopGo (lessOf k) a b l i steps).2 = true →
        adjSorted k a b (pisLoopGo (lessOf k) a b l i steps).1) := by
  intro steps
  induction steps with
  | zero =>
    intro l i hb hai hib hlb hadj
    rw [pisLoopGo]
    have hscan := pisScanGo_spec k a b l b i hai hib (by omega) hadj
    by_cases hsb : pisScanGo (lessOf k) l b b i = b
    · rw [if_pos hsb]
      refine ⟨permWithin_refl a b l, fun _ => ?_⟩
      intro t h1 h2
      exact hscan.2.2.1 t h1 (by omega)
    · rw [if_neg hsb]
      by_cases h50 : b - a < 50
      · rw [if_pos h50]
        exact ⟨permWithin_refl a b l, fun hfalse => by simp at hfalse⟩
      · rw [if_neg h50]
        dsimp only
        have hib2 : pisScanGo (lessOf k) l b b i < b := by
          rcases hscan.2.2.2 with h | h
          · exact absurd h hsb
          · exact h.1
        have hsw := permWithin_swapL l a b (pisScanGo (lessOf k) l b b i)
          (pisScanGo (lessOf k) l b b i - 1) (by omega) hib2 (by omega) (by omega) hb
        have hperm2 : permWithin a b l
            (if pisScanGo (lessOf k) l b b i - a ≥ 2 then
              pisShiftLeftGo (lessOf k)
                (swapL l (pisScanGo (lessOf k) l b b i) (pisScanGo (lessOf k) l b b i - 1))
                (pisScanGo (lessOf k) l b b i - 1)
            else swapL l (pisScanGo (lessOf k) l b b i)
              (pisScanGo (lessOf k) l b b i - 1)) := by
          by_cases h2a : pisScanGo (lessOf k) l b b i - a ≥ 2
          · rw [if_pos h2a]
            refine permWithin_trans hsw ?_
            have hsl := pisShiftLeftGo_adj k a b (pisScanGo (lessOf k) l b b i - 1)
              (pisScanGo (lessOf k) l b b i - 1)
              (swapL l (pisScanGo (lessOf k) l b b i) (pisScanGo (lessOf k) l b b i - 1))
              (by rw [swapL_length]; exact hb) (by omega) (le_refl _) (by omega)
              (fun ha0 t h1 h2 => by
                rw [swapL_get_other l _ _ (a-1) (by omega) (by omega)]
                refine permWithin_range_pred (fun x => k (l.get! (a-1)) ≤ k x) hsw
                  (by omega) hb (hlb ha0) t h1 h2)
              (fun t h1 h2 => by
                rw [swapL_get_other l _ _ t (by omega) (by omega),
                  swapL_get_other l _ _ (t-1) (by omega) (by omega)]
                exact hscan.2.2.1 t h1 (by omega))
              (fun t h1 h2 => by omega)
              (fun h => by omega)
              (fun h1 h2 => by omega)
            exact hsl.1
          · rw [if_neg h2a]
            exact hsw
        exact ⟨by
          refine permWithin_trans hperm2 ?_
          by_cases h2b : b - pisScanGo (lessOf k) l b b i ≥ 2
          · rw [if_pos h2b]
            have hpr := pisShiftRightGo_pw k b (pisScanGo (lessOf k) l b b i) b _
              (pisScanGo (lessOf k) l b b i + 1) (by rw [hperm2.1]; exact hb) (le_refl _)
            exact permWithin_mono (by omega) (le_refl b) hpr
          · rw [if_neg h2b]
            exact permWithin_refl a b _,
          fun hfalse => by simp at hfalse⟩
  | succ st ih =>
    intro l i hb hai hib hlb hadj
    rw [pisLoopGo]
    have hscan := pisScanGo_spec k a b l b i hai hib (by omega) hadj
    by_cases hsb : pisScanGo (lessOf k) l b b i = b
    · rw [if_pos hsb]
      refine ⟨permWithin_refl a b l, fun _ => ?_⟩
      intro t h1 h2
      exact hscan.2.2.1 t h1 (by omega)
    · rw [if_neg hsb]
      by_cases h50 : b - a < 50
      · rw [if_pos h50]
        exact ⟨permWithin_refl a b l, fun hfalse => by simp at hfalse⟩
      · rw [if_neg h50]
        dsimp only
        have hib2 : pisScanGo (lessOf k) l b b i < b := by
          rcases hscan.2.2.2 with h | h
          · exact absurd h hsb
          · exact h.1
        have hsw := permWithin_swapL l a b (pisScanGo (lessOf k) l b b i)
          (pisScanGo (lessOf k) l b b i - 1) (by omega) hib2 (by omega) (by omega) hb
        have hstep2 : permWithin a b l
            (if pisScanGo (lessOf k) l b b i - a ≥ 2 then
              pisShiftLeftGo (lessOf k)
                (swapL l (pisScanGo (lessOf k) l b b i) (pisScanGo (lessOf k) l b b i - 1))
                (pisScanGo (lessOf k) l b b i - 1)
            else swapL l (pisScanGo (lessOf k) l b b i)
              (pisScanGo (lessOf k) l b b i - 1)) ∧
            (∀ t, a < t → t < pisScanGo (lessOf k) l b b i →
              k ((if pisScanGo (lessOf k) l b b i - a ≥ 2 then
                pisShiftLeftGo (lessOf k)
                  (swapL l (pisScanGo (lessOf k) l b b i) (pisScanGo (lessOf k) l b b i - 1))
                  (pisScanGo (lessOf k) l b b i - 1)
              else swapL l (pisScanGo (lessOf k) l b b i)
                (pisScanGo (lessOf k) l b b i - 1)).get! (t-1)) ≤
              k ((if pisScanGo (lessOf k) l b b i - a ≥ 2 then
                pisShiftLeftGo (lessOf k)
                  (swapL l (pisScanGo (lessOf k) l b b i) (pisScanGo (lessOf k) l b b i - 1))
                  (pisScanGo (lessOf k) l b b i - 1)
              else swapL l (pisScanGo (lessOf k) l b b i)
                (pisScanGo (lessOf k) l b b i - 1)).get! t)) := by
          by_cases h2a : pisScanGo (lessOf k) l b b i - a ≥ 2
          · rw [if_pos h2a]
            have hsl := pisShiftLeftGo_adj k a b (pisScanGo (lessOf k) l b b i - 1)
              (pisScanGo (lessOf k) l b b i - 1)
              (swapL l (pisScanGo (lessOf k) l b b i) (pisScanGo (lessOf k) l b b i - 1))
              (by rw [swapL_length]; exact hb) (by omega) (le_refl _) (by omega)
              (fun ha0 t h1 h2 => by
                rw [swapL_get_other l _ _ (a-1) (by omega) (by omega)]
                refine permWithin_range_pred (fun x => k (l.get! (a-1)) ≤ k x) hsw
                  (by omega) hb (hlb ha0) t h1 h2)
              (fun t h1 h2 => by
                rw [swapL_get_other l _ _ t (by omega) (by omega),
                  swapL_get_other l _ _ (t-1) (by omega) (by omega)]
                exact hscan.2.2.1 t h1 (by omega))
              (fun t h1 h2 => by omega)
              (fun h => by omega)
              (fun h1 h2 => by omega)
            exact ⟨permWithin_trans hsw hsl.1,
              fun t h1 h2 => hsl.2 t h1 (by omega)⟩
          · rw [if_neg h2a]
            refine ⟨hsw, fun t h1 h2 => ?_⟩
            exact absurd h2 (by omega)
        have hright : permWithin a b l
              (if b - pisScanGo (lessOf k) l b b i ≥ 2 then
                pisShiftRightGo (lessOf k) b b
                  (if pisScanGo (lessOf k) l b b i - a ≥ 2 then
                    pisShiftLeftGo (lessOf k)
                      (swapL l (pisScanGo (lessOf k) l b b i)
                        (pisScanGo (lessOf k) l b b i - 1))
                      (pisScanGo (lessOf k) l b b i - 1)
                  else swapL l (pisScanGo (lessOf k) l b b i)
                    (pisScanGo (lessOf k) l b b i - 1))
                  (pisScanGo (lessOf k) l b b i + 1)
              else
                (if pisScanGo (lessOf k) l b b i - a ≥ 2 then
                  pisShiftLeftGo (lessOf k)
                    (swapL l (pisScanGo (lessOf k) l b b i)
                      (pisScanGo (lessOf k) l b b i - 1))
                    (pisScanGo (lessOf k) l b b i - 1)
                else swapL l (pisScanGo (lessOf k) l b b i)
                  (pisScanGo (lessOf k) l b b i - 1))) ∧
            (∀ t, a < t → t < pisScanGo (lessOf k) l b b i →
              k ((if b - pisScanGo (lessOf k) l b b i ≥ 2 then
                pisShiftRightGo (lessOf k) b b
                  (if pisScanGo (lessOf k) l b b i - a ≥ 2 then
                    pisShiftLeftGo (lessOf k)
                      (swapL l (pisScanGo (lessOf k) l b b i)
                        (pisScanGo (lessOf k) l b b i - 1))
                      (pisScanGo (lessOf k) l b b i - 1)
                  else swapL l (pisScanGo (lessOf k) l b b i)
                    (pisScanGo (lessOf k) l b b i - 1))
                  (pisScanGo (lessOf k) l b b i + 1)
              else
                (if pisScanGo (lessOf k) l b b i - a ≥ 2 then
                  pisShiftLeftGo (lessOf k)
                    (swapL l (pisScanGo (lessOf k) l b b i)
                      (pisScanGo (lessOf k) l b b i - 1))
                    (pisScanGo (lessOf k) l b b i - 1)
                else swapL l (pisScanGo (lessOf k) l b b i)
                  (pisScanGo (lessOf k) l b b i - 1))).get! (t-1)) ≤
              k ((if b - pisScanGo (lessOf k) l b b i ≥ 2 then
                pisShiftRightGo (lessOf k) b b
                  (if pisScanGo (lessOf k) l b b i - a ≥ 2 then
                    pisShiftLeftGo (lessOf k)
                      (swapL l (pisScanGo (lessOf k) l b b i)
                        (pisScanGo (lessOf k) l b b i - 1))
                      (pisScanGo (lessOf k) l b b i - 1)
                  else swapL l (pisScanGo (lessOf k) l b b i)
                    (pisScanGo (lessOf k) l b b i - 1))
                  (pisScanGo (lessOf k) l b b i + 1)
              else
                (if pisScanGo (lessOf k) l b b i - a ≥ 2 then
                  pisShiftLeftGo (lessOf k)
                    (swapL l (pisScanGo (lessOf k) l b b i)
                      (pisScanGo (lessOf k) l b b i - 1))
                    (pisScanGo (lessOf k) l b b i - 1)
                else swapL l (pisScanGo (lessOf k) l b b i)
                  (pisScanGo (lessOf k) l b b i - 1))).get! t)) := by
          by_cases h2b : b - pisScanGo (lessOf k) l b b i ≥ 2
          · rw [if_pos h2b]
            have hpr := pisShiftRightGo_pw k b (pisScanGo (lessOf k) l b b i) b _
              (pisScanGo (lessOf k) l b b i + 1) (by rw [hstep2.1.1]; exact hb) (le_refl _)
            refine ⟨permWithin_trans hstep2.1 (permWithin_mono (by omega) (le_refl b) hpr), ?_⟩
            intro t h1 h2
            rw [hpr.2.1 t (by omega), hpr.2.1 (t-1) (by omega)]
            exact hstep2.2 t h1 h2
          · rw [if_neg h2b]
            exact hstep2
        refine ?_
        have hrec := ih _ (pisScanGo (lessOf k) l b b i)
          (by rw [hright.1.1]; exact hb) (by omega) (by omega)
          (fun ha0 t h1 h2 => by
            rw [hright.1.2.1 (a-1) (by omega)]
            exact permWithin_range_pred (fun x => k (l.get! (a-1)) ≤ k x) hright.1
              (by omega) hb (hlb ha0) t h1 h2)
          hright.2
        exact ⟨permWithin_trans hright.1 hrec.1, hrec.2⟩

theorem partInsSortGo_spec [Inhabited α] (k : α → Int) (l : List α) (a b : Nat)
    (hab : a + 1 ≤ b) (hb : b ≤ l.length)
    (hlb : 0 < a → ∀ t, a ≤ t → t < b → k (l.get! (a-1)) ≤ k (l.get! t)) :
    permWithin a b l (partInsSortGo (lessOf k) l a b).1 ∧
      ((partInsSortGo (lessOf k) l a b).2 = true →
        adjSorted k a b (partInsSortGo (lessOf k) l a b).1) := by
  rw [partInsSortGo]
  exact pisLoopGo_spec k a b 4 l (a+1) hb (le_refl _) hab hlb
    (fun t h1 h2 => absurd h2 (by omega))

theorem scanILess_spec [Inhabited α] (k : α → Int) (l : List α) (a j : Nat) :
    ∀ (fuel i : Nat), i ≤ j + 1 → j + 1 ≤ i + fuel →
    i ≤ scanILess (lessOf k) l a j fuel i ∧ scanILess (lessOf k) l a j fuel i ≤ j + 1 ∧
      (∀ t, i ≤ t → t < scanILess (lessOf k) l a j fuel i →
        k (l.get! t) < k (l.get! a)) ∧
      (scanILess (lessOf k) l a j fuel i ≤ j →
        ¬ k (l.get! (scanILess (lessOf k) l a j fuel i)) < k (l.get! a)) := by
  intro fuel
  induction fuel with
  | zero =>
    intro i hij hfuel
    rw [scanILess]
    exact ⟨le_refl i, hij, fun t h1 h2 => absurd h2 (by omega),
      fun h => absurd h (by omega)⟩
  | succ f ih =>
    intro i hij hfuel
    rw [scanILess]
    by_cases hc : i ≤ j ∧ k (l.get! i) < k (l.get! a)
    · rw [if_pos (by simpa [lessOf] using hc)]
      have hrec := ih (i+1) (by omega) (by omega)
      refine ⟨by omega, hrec.2.1, ?_, hrec.2.2.2⟩
      intro t h1 h2
      rcases Nat.eq_or_lt_of_le h1 with h | h
      · rw [← h]
        exact hc.2
      · exact hrec.2.2.1 t (by omega) h2
    · rw [if_neg (by simpa [lessOf] using hc)]
      refine ⟨le_refl i, hij, fun t h1 h2 => absurd h2 (by omega), ?_⟩
      intro hle
      by_contra hlt
      exact hc ⟨hle, by omega⟩

theorem scanJNotLess_spec [Inhabited α] (k : α → Int) (l : List α) (a i : Nat)
    (hi : 1 ≤ i) :
    ∀ (fuel j : Nat), j + 1 ≤ i + fuel →
    scanJNotLess (lessOf k) l a i j fuel ≤ j ∧
      min (i - 1) j ≤ scanJNotLess (lessOf k) l a i j fuel ∧
      (∀ t, scanJNotLess (lessOf k) l a i j fuel < t → t ≤ j →
        ¬ k (l.get! t) < k (l.get! a)) ∧
      (i ≤ scanJNotLess (lessOf k) l a i j fuel →
        k (l.get! (scanJNotLess (lessOf k) l a i j fuel)) < k (l.get! a)) := by
  intro fuel
  induction fuel with
  | zero =>
    intro j hfuel
    rw [scanJNotLess]
    exact ⟨le_refl j, by omega, fun t h1 h2 => absurd h1 (by omega),
      fun h => absurd h (by omega)⟩
  | succ f ih =>
    intro j hfuel
    rw [scanJNotLess]
    by_cases hc : i ≤ j ∧ ¬ k (l.get! j) < k (l.get! a)
    · rw [if_pos (by simpa [lessOf] using hc)]
      have hrec := ih (j-1) (by omega)
      refine ⟨by omega, by omega, ?_, hrec.2.2.2⟩
      intro t h1 h2
      rcases Nat.eq_or_lt_of_le h2 with h | h
      · rw [h]
        exact hc.2
      · exact hrec.2.2.1 t h1 (by omega)
    · rw [if_neg (by simpa [lessOf] using hc)]
      refine ⟨le_refl j, by omega, fun t h1 h2 => absurd h1 (by omega), ?_⟩
      intro hle
      by_contra hge
      exact hc ⟨hle, hge⟩

theorem partLoopGo_spec [Inhabited α] (k : α → Int) (a b : Nat) (v : Int) :
    ∀ (fuel : Nat) (l : List α) (i j : Nat),
    b ≤ l.length → a + 1 ≤ i → i ≤ j + 1 → j + 1 ≤ b → b ≤ i + fuel →
    k (l.get! a) = v →
    (∀ t, a + 1 ≤ t → t < i → k (l.get! t) < v) →
    (∀ t, j < t → t < b → v ≤ k (l.get! t)) →
    permWithin (a+1) b l (partLoopGo (lessOf k) a l i j fuel).1 ∧
      a ≤ (partLoopGo (lessOf k) a l i j fuel).2 ∧
      (partLoopGo (lessOf k) a l i j fuel).2 + 1 ≤ b ∧
      (∀ t, a + 1 ≤ t → t ≤ (partLoopGo (lessOf k) a l i j fuel).2 →
        k ((partLoopGo (lessOf k) a l i j fuel).1.get! t) < v) ∧
      (∀ t, (partLoopGo (lessOf k) a l i j fuel).2 < t → t < b →
        v ≤ k ((partLoopGo (lessOf k) a l i j fuel).1.get! t)) := by
  intro fuel
  induction fuel with
  | zero =>
    intro l i j hb hai hij hjb hfuel hva hleft hright
    rw [partLoopGo]
    exact ⟨permWithin_refl (a+1) b l, by omega, by omega,
      fun t h1 h2 => hleft t h1 (by omega), hright⟩
  | succ f ih =>
    intro l i j hb hai hij hjb hfuel hva hleft hright
    rw [partLoopGo]
    have hsi := scanILess_spec k l a j (j+1) i hij (by omega)
    set i2 := scanILess (lessOf k) l a j (j+1) i with hi2def
    have hsj := scanJNotLess_spec k l a i2 (by omega) (j+1) j (by omega)
    set j2 := scanJNotLess (lessOf k) l a i2 j (j+1) with hj2def
    by_cases hgt : i2 > j2
    · rw [if_pos hgt]
      dsimp only
      refine ⟨permWithin_refl (a+1) b l, by omega, by omega, ?_, ?_⟩
      · intro t h1 h2
        rcases Nat.lt_or_ge t i with ht | ht
        · exact hva ▸ hleft t h1 ht
        · exact hva ▸ hsi.2.2.1 t ht (by omega)
      · intro t h1 h2
        rcases Nat.lt_or_ge j t with ht | ht
        · exact hright t ht h2
        · have := hsj.2.2.1 t h1 ht
          omega
    · rw [if_neg hgt]
      have hij2 : i2 ≤ j2 := by omega
      have hneq : i2 < j2 := by
        rcases Nat.eq_or_lt_of_le hij2 with h | h
        · exfalso
          have hstop := hsi.2.2.2 (by omega)
          have hjlt := hsj.2.2.2 (by omega)
          rw [← h] at hjlt
          omega
        · exact h
      have hi2b : i2 < b := by omega
      have hj2b : j2 < b := by omega
      have hsw1 : (swapL l i2 j2).get! i2 = l.get! j2 :=
        swapL_get_fst l i2 j2 (by omega) (by omega)
      have hsw0 : (swapL l i2 j2).get! j2 = l.get! i2 :=
        swapL_get_snd l i2 j2 (by omega) (by omega)
      have hswo : ∀ p, p ≠ i2 → p ≠ j2 → (swapL l i2 j2).get! p = l.get! p :=
        fun p h1 h2 => swapL_get_other l i2 j2 p h1 h2
      have hrec := ih (swapL l i2 j2) (i2+1) (j2-1)
        (by rw [swapL_length]; exact hb) (by omega) (by omega) (by omega) (by omega)
        (by rw [hswo a (by omega) (by omega)]; exact hva)
        (fun t h1 h2 => by
          rcases Nat.eq_or_lt_of_le (by omega : t ≤ i2) with h | h
          · rw [h, hsw1]
            have := hsj.2.2.2 (by omega)
            omega
          · rw [hswo t (by omega) (by omega)]
            rcases Nat.lt_or_ge t i with ht | ht
            · exact hleft t h1 ht
            · have := hsi.2.2.1 t ht (by omega)
              omega)
        (fun t h1 h2 => by
          rcases Nat.eq_or_lt_of_le (by omega : j2 ≤ t) with h | h
          · rw [← h, hsw0]
            have := hsi.2.2.2 (by omega)
            omega
          · rw [hswo t (by omega) (by omega)]
            rcases Nat.lt_or_ge j t with ht | ht
            · exact hright t ht h2
            · have := hsj.2.2.1 t (by omega) ht
              omega)
      refine ⟨permWithin_trans (permWithin_swapL l (a+1) b i2 j2 (by omega) hi2b
        (by omega) hj2b hb) hrec.1, hrec.2.1, hrec.2.2.1, hrec.2.2.2.1, hrec.2.2.2.2⟩

theorem partitionGo_spec [Inhabited α] (k : α → Int) (l : List α) (a b pivot : Nat)
    (hb : b ≤ l.length) (hab : a + 2 ≤ b) (hp1 : a ≤ pivot) (hp2 : pivot < b) :
    permWithin a b l (partitionGo (lessOf k) l a b pivot).1 ∧
      a ≤ (partitionGo (lessOf k) l a b pivot).2.1 ∧
      (partitionGo (lessOf k) l a b pivot).2.1 < b ∧
      k ((partitionGo (lessOf k) l a b pivot).1.get!
        (partitionGo (lessOf k) l a b pivot).2.1) = k (l.get! pivot) ∧
      (∀ t, a ≤ t → t < (partitionGo (lessOf k) l a b pivot).2.1 →
        k ((partitionGo (lessOf k) l a b pivot).1.get! t) < k (l.get! pivot)) ∧
      (∀ t, (partitionGo (lessOf k) l a b pivot).2.1 < t → t < b →
        k (l.get! pivot) ≤ k ((partitionGo (lessOf k) l a b pivot).1.get! t)) := by
  rw [partitionGo]
  have hva : (swapL l a pivot).get! a = l.get! pivot :=
    swapL_get_fst l a pivot (by omega) (by omega)
  have hperm1 := permWithin_swapL l a b a pivot (le_refl a) (by omega) hp1 hp2 hb
  have hlen1 : (swapL l a pivot).length = l.length := swapL_length l a pivot
  have hsi := scanILess_spec k (swapL l a pivot) a (b-1) (b-1+1) (a+1)
    (by omega) (by omega)
  set i2 := scanILess (lessOf k) (swapL l a pivot) a (b-1) (b-1+1) (a+1) with hi2def
  have hsj := scanJNotLess_spec k (swapL l a pivot) a i2 (by omega) (b-1+1) (b-1)
    (by omega)
  set j2 := scanJNotLess (lessOf k) (swapL l a pivot) a i2 (b-1) (b-1+1) with hj2def
  by_cases hgt : i2 > j2
  · rw [if_pos hgt]
    dsimp only
    have hj2a : a ≤ j2 := by omega
    have hj2b : j2 < b := by omega
    have hswf : (swapL (swapL l a pivot) j2 a).get! j2 = (swapL l a pivot).get! a :=
      swapL_get_fst (swapL l a pivot) j2 a (by omega) (by omega)
    have hsws : (swapL (swapL l a pivot) j2 a).get! a = (swapL l a pivot).get! j2 :=
      swapL_get_snd (swapL l a pivot) j2 a (by omega) (by omega)
    have hswo : ∀ p, p ≠ j2 → p ≠ a →
        (swapL (swapL l a pivot) j2 a).get! p = (swapL l a pivot).get! p :=
      fun p h1 h2 => swapL_get_other (swapL l a pivot) j2 a p h1 h2
    refine ⟨permWithin_trans hperm1 (permWithin_swapL (swapL l a pivot) a b j2 a hj2a
      hj2b (le_refl a) (by omega) (by omega)), hj2a, hj2b, ?_, ?_, ?_⟩
    · rw [hswf, hva]
    · intro t h1 h2
      rcases Nat.eq_or_lt_of_le h1 with h | h
      · rw [← h, hsws]
        have := hsi.2.2.1 j2 (by omega) (by omega)
        rwa [hva] at this
      · rw [hswo t (by omega) (by omega)]
        have := hsi.2.2.1 t (by omega) (by omega)
        rwa [hva] at this
    · intro t h1 h2
      rw [hswo t (by omega) (by omega)]
      have := hsj.2.2.1 t h1 (by omega)
      rw [hva] at this
      omega
  · rw [if_neg hgt]
    have hneq : i2 < j2 := by
      rcases Nat.eq_or_lt_of_le (by omega : i2 ≤ j2) with h | h
      · exfalso
        have hstop := hsi.2.2.2 (by omega)
        have hjlt := hsj.2.2.2 (by omega)
        rw [← h] at hjlt
        omega
      · exact h
    have hi2b : i2 < b := by omega
    have hj2b : j2 < b := by omega
    have hsw1 : (swapL (swapL l a pivot) i2 j2).get! i2 = (swapL l a pivot).get! j2 :=
      swapL_get_fst (swapL l a pivot) i2 j2 (by omega) (by omega)
    have hsw0 : (swapL (swapL l a pivot) i2 j2).get! j2 = (swapL l a pivot).get! i2 :=
      swapL_get_snd (swapL l a pivot) i2 j2 (by omega) (by omega)
    have hswo : ∀ p, p ≠ i2 → p ≠ j2 →
        (swapL (swapL l a pivot) i2 j2).get! p = (swapL l a pivot).get! p :=
      fun p h1 h2 => swapL_get_other (swapL l a pivot) i2 j2 p h1 h2
    have hloop := partLoopGo_spec k a b (k (l.get! pivot)) b
      (swapL (swapL l a pivot) i2 j2) (i2+1) (j2-1)
      (by rw [swapL_length, hlen1]; exact hb) (by omega) (by omega) (by omega) (by omega)
      (by rw [hswo a (by omega) (by omega), hva])
      (fun t h1 h2 => by
        rcases Nat.eq_or_lt_of_le (by omega : t ≤ i2) with h | h
        · rw [h, hsw1]
          have := hsj.2.2.2 (by omega)
          rw [hva] at this
          omega
        · rw [hswo t (by omega) (by omega)]
          have := hsi.2.2.1 t (by omega) (by omega)
          rwa [hva] at this)
      (fun t h1 h2 => by
        rcases Nat.eq_or_lt_of_le (by omega : j2 ≤ t) with h | h
        · rw [← h, hsw0]
          have := hsi.2.2.2 (by omega)
          rw [hva] at this
          omega
        · rw [hswo t (by omega) (by omega)]
          have := hsj.2.2.1 t (by omega) (by omega)
          rw [hva] at this
          omega)
    rcases hre : partLoopGo (lessOf k) a (swapL (swapL l a pivot) i2 j2) (i2+1) (j2-1) b
      with ⟨l3, jf⟩
    rw [hre] at hloop
    dsimp only at hloop
    simp only [hre]
    have hjfa : a ≤ jf := hloop.2.1
    have hjfb : jf < b := by
      have := hloop.2.2.1
      omega
    have hl3len : l3.length = l.length := by
      have := hloop.1.1
      rw [swapL_length, hlen1] at this
      exact this
    have hl3a : l3.get! a = (swapL l a pivot).get! a := by
      have := hloop.1.2.1 a (by omega)
      rw [this, hswo a (by omega) (by omega)]
    have hswf2 : (swapL l3 jf a).get! jf = l3.get! a :=
      swapL_get_fst l3 jf a (by omega) (by omega)
    have hsws2 : (swapL l3 jf a).get! a = l3.get! jf :=
      swapL_get_snd l3 jf a (by omega) (by omega)
    have hswo2 : ∀ p, p ≠ jf → p ≠ a → (swapL l3 jf a).get! p = l3.get! p :=
      fun p h1 h2 => swapL_get_other l3 jf a p h1 h2
    have hchain : permWithin a b l l3 :=
      permWithin_trans hperm1 (permWithin_trans
        (permWithin_swapL (swapL l a pivot) a b i2 j2 (by omega) hi2b (by omega) hj2b
          (by omega))
        (permWithin_mono (by omega) (le_refl b) hloop.1))
    refine ⟨permWithin_trans hchain (permWithin_swapL l3 a b jf a hjfa hjfb (le_refl a)
      (by omega) (by omega)), hjfa, hjfb, ?_, ?_, ?_⟩
    · rw [hswf2, hl3a, hva]
    · intro t h1 h2
      rcases Nat.eq_or_lt_of_le h1 with h | h
      · rw [← h, hsws2]
        exact hloop.2.2.2.1 jf (by omega) (le_refl jf)
      · rw [hswo2 t (by omega) (by omega)]
        exact hloop.2.2.2.1 t (by omega) (by omega)
    · intro t h1 h2
      rw [hswo2 t (by omega) (by omega)]
      exact hloop.2.2.2.2 t h1 h2

theorem scanINotLessP_spec [Inhabited α] (k : α → Int) (l : List α) (a j : Nat) :
    ∀ (fuel i : Nat), i ≤ j + 1 → j + 1 ≤ i + fuel →
    i ≤ scanINotLessP (lessOf k) l a j fuel i ∧
      scanINotLessP (lessOf k) l a j fuel i ≤ j + 1 ∧
      (∀ t, i ≤ t → t < scanINotLessP (lessOf k) l a j fuel i →
        k (l.get! t) ≤ k (l.get! a)) ∧
      (scanINotLessP (lessOf k) l a j fuel i ≤ j →
        k (l.get! a) < k (l.get! (scanINotLessP (lessOf k) l a j fuel i))) := by
  intro fuel
  induction fuel with
  | zero =>
    intro i hij hfuel
    rw [scanINotLessP]
    exact ⟨le_refl i, hij, fun t h1 h2 => absurd h2 (by omega),
      fun h => absurd h (by omega)⟩
  | succ f ih =>
    intro i hij hfuel
    rw [scanINotLessP]
    by_cases hc : i ≤ j ∧ ¬ k (l.get! a) < k (l.get! i)
    · rw [if_pos (by simpa [lessOf] using hc)]
      have hrec := ih (i+1) (by omega) (by omega)
      refine ⟨by omega, hrec.2.1, ?_, hrec.2.2.2⟩
      intro t h1 h2
      rcases Nat.eq_or_lt_of_le h1 with h | h
      · rw [← h]
        have := hc.2
        omega
      · exact hrec.2.2.1 t (by omega) h2
    · rw [if_neg (by simpa [lessOf] using hc)]
      refine ⟨le_refl i, hij, fun t h1 h2 => absurd h2 (by omega), ?_⟩
      intro hle
      by_contra hlt
      exact hc ⟨hle, by omega⟩

theorem scanJLessP_spec [Inhabited α] (k : α → Int) (l : List α) (a i : Nat)
    (hi : 1 ≤ i) :
    ∀ (fuel j : Nat), j + 1 ≤ i + fuel →
    scanJLessP (lessOf k) l a i j fuel ≤ j ∧
      min (i - 1) j ≤ scanJLessP (lessOf k) l a i j fuel ∧
      (∀ t, scanJLessP (lessOf k) l a i j fuel < t → t ≤ j →
        k (l.get! a) < k (l.get! t)) ∧
      (i ≤ scanJLessP (lessOf k) l a i j fuel →
        k (l.get! (scanJLessP (lessOf k) l a i j fuel)) ≤ k (l.get! a)) := by
  intro fuel
  induction fuel with
  | zero =>
    intro j hfuel
    rw [scanJLessP]
    exact ⟨le_refl j, by omega, fun t h1 h2 => absurd h1 (by omega),
      fun h => absurd h (by omega)⟩
  | succ f ih =>
    intro j hfuel
    rw [scanJLessP]
    by_cases hc : i ≤ j ∧ k (l.get! a) < k (l.get! j)
    · rw [if_pos (by simpa [lessOf] using hc)]
      have hrec := ih (j-1) (by omega)
      refine ⟨by omega, by omega, ?_, hrec.2.2.2⟩
      intro t h1 h2
      rcases Nat.eq_or_lt_of_le h2 with h | h
      · rw [h]
        exact hc.2
      · exact hrec.2.2.1 t h1 (by omega)
    · rw [if_neg (by simpa [lessOf] using hc)]
      refine ⟨le_refl j, by omega, fun t h1 h2 => absurd h1 (by omega), ?_⟩
      intro hle
      by_contra hgt
      exact hc ⟨hle, by omega⟩

theorem partEqLoopGo_spec [Inhabited α] (k : α → Int) (a b : Nat) (v : Int) :
    ∀ (fuel : Nat) (l : List α) (i j : Nat),
    b ≤ l.length → a + 1 ≤ i → i ≤ j + 1 → j + 1 ≤ b → b ≤ i + fuel →
    k (l.get! a) = v →
    (∀ t, a + 1 ≤ t → t < i → k (l.get! t) ≤ v) →
    (∀ t, j < t → t < b → v < k (l.get! t)) →
    permWithin (a+1) b l (partEqLoopGo (lessOf k) a l i j fuel).1 ∧
      a + 1 ≤ (partEqLoopGo (lessOf k) a l i j fuel).2 ∧
      (partEqLoopGo (lessOf k) a l i j fuel).2 ≤ b ∧
      (∀ t, a + 1 ≤ t → t < (partEqLoopGo (lessOf k) a l i j fuel).2 →
        k ((partEqLoopGo (lessOf k) a l i j fuel).1.get! t) ≤ v) ∧
      (∀ t, (partEqLoopGo (lessOf k) a l i j fuel).2 ≤ t → t < b →
        v < k ((partEqLoopGo (lessOf k) a l i j fuel).1.get! t)) := by
  intro fuel
  induction fuel with
  | zero =>
    intro l i j hb hai hij hjb hfuel hva hleft hright
    rw [partEqLoopGo]
    exact ⟨permWithin_refl (a+1) b l, hai, by omega,
      fun t h1 h2 => hleft t h1 h2, fun t h1 h2 => by omega⟩
  | succ f ih =>
    intro l i j hb hai hij hjb hfuel hva hleft hright
    rw [partEqLoopGo]
    have hsi := scanINotLessP_spec k l a j (j+1) i hij (by omega)
    set i2 := scanINotLessP (lessOf k) l a j (j+1) i with hi2def
    have hsj := scanJLessP_spec k l a i2 (by omega) (j+1) j (by omega)
    set j2 := scanJLessP (lessOf k) l a i2 j (j+1) with hj2def
    by_cases hgt : i2 > j2
    · rw [if_pos hgt]
      dsimp only
      refine ⟨permWithin_refl (a+1) b l, by omega, by omega, ?_, ?_⟩
      · intro t h1 h2
        rcases Nat.lt_or_ge t i with ht | ht
        · exact hleft t h1 ht
        · exact hva ▸ hsi.2.2.1 t ht (by omega)
      · intro t h1 h2
        rcases Nat.lt_or_ge j t with ht | ht
        · exact hright t ht h2
        · exact hva ▸ hsj.2.2.1 t (by omega) ht
    · rw [if_neg hgt]
      have hneq : i2 < j2 := by
        rcases Nat.eq_or_lt_of_le (by omega : i2 ≤ j2) with h | h
        · exfalso
          have hstop := hsi.2.2.2 (by omega)
          have hjle := hsj.2.2.2 (by omega)
          rw [← h] at hjle
          omega
        · exact h
      have hi2b : i2 < b := by omega
      have hj2b : j2 < b := by omega
      have hsw1 : (swapL l i2 j2).get! i2 = l.get! j2 :=
        swapL_get_fst l i2 j2 (by omega) (by omega)
      have hsw0 : (swapL l i2 j2).get! j2 = l.get! i2 :=
        swapL_get_snd l i2 j2 (by omega) (by omega)
      have hswo : ∀ p, p ≠ i2 → p ≠ j2 → (swapL l i2 j2).get! p = l.get! p :=
        fun p h1 h2 => swapL_get_other l i2 j2 p h1 h2
      have hrec := ih (swapL l i2 j2) (i2+1) (j2-1)
        (by rw [swapL_length]; exact hb) (by omega) (by omega) (by omega) (by omega)
        (by rw [hswo a (by omega) (by omega)]; exact hva)
        (fun t h1 h2 => by
          rcases Nat.eq_or_lt_of_le (by omega : t ≤ i2) with h | h
          · rw [h, hsw1]
            have := hsj.2.2.2 (by omega)
            omega
          · rw [hswo t (by omega) (by omega)]
            rcases Nat.lt_or_ge t i with ht | ht
            · exact hleft t h1 ht
            · have := hsi.2.2.1 t ht (by omega)
              omega)
        (fun t h1 h2 => by
          rcases Nat.eq_or_lt_of_le (by omega : j2 ≤ t) with h | h
          · rw [← h, hsw0]
            have := hsi.2.2.2 (by omega)
            omega
          · rw [hswo t (by omega) (by omega)]
            rcases Nat.lt_or_ge j t with ht | ht
            · exact hright t ht h2
            · have := hsj.2.2.1 t (by omega) ht
              omega)
      exact ⟨permWithin_trans (permWithin_swapL l (a+1) b i2 j2 (by omega) hi2b
        (by omega) hj2b hb) hrec.1, hrec.2.1, hrec.2.2.1, hrec.2.2.2.1, hrec.2.2.2.2⟩

theorem partitionEqualGo_spec [Inhabited α] (k : α → Int) (l : List α) (a b pivot : Nat)
    (hb : b ≤ l.length) (hab : a + 1 ≤ b) (hp1 : a ≤ pivot) (hp2 : pivot < b) :
    permWithin a b l (partitionEqualGo (lessOf k) l a b pivot).1 ∧
      a + 1 ≤ (partitionEqualGo (lessOf k) l a b pivot).2 ∧
      (partitionEqualGo (lessOf k) l a b pivot).2 ≤ b ∧
      (∀ t, a ≤ t → t < (partitionEqualGo (lessOf k) l a b pivot).2 →
        k ((partitionEqualGo (lessOf k) l a b pivot).1.get! t) ≤ k (l.get! pivot)) ∧
      (∀ t, (partitionEqualGo (lessOf k) l a b pivot).2 ≤ t → t < b →
        k (l.get! pivot) < k ((partitionEqualGo (lessOf k) l a b pivot).1.get! t)) := by
  rw [partitionEqualGo]
  have hva : (swapL l a pivot).get! a = l.get! pivot :=
    swapL_get_fst l a pivot (by omega) (by omega)
  have hperm1 := permWithin_swapL l a b a pivot (le_refl a) (by omega) hp1 hp2 hb
  have hloop := partEqLoopGo_spec k a b (k (l.get! pivot)) b (swapL l a pivot)
    (a+1) (b-1) (by rw [swapL_length]; exact hb) (le_refl _) (by omega) (by omega)
    (by omega) (by rw [hva])
    (fun t h1 h2 => by omega)
    (fun t h1 h2 => by omega)
  refine ⟨permWithin_trans hperm1 (permWithin_mono (by omega) (le_refl b) hloop.1),
    hloop.2.1, hloop.2.2.1, ?_, hloop.2.2.2.2⟩
  intro t h1 h2
  rcases Nat.eq_or_lt_of_le h1 with h | h
  · rw [← h]
    have huntouched := hloop.1.2.1 a (by omega)
    rw [huntouched, hva]
  · exact hloop.2.2.2.1 t (by omega) h2

/-- Fuel form of the binary-heap ancestor chain: `p` lies in the subtree
rooted at `r` (indices of the implicit heap, parent of `p` is `(p-1)/2`). -/
def isDescF (r : Nat) : Nat → Nat → Bool
  | 0, p => decide (r = p)
  | fuel + 1, p => decide (r = p) || (decide (0 < p) && isDescF r fuel ((p-1)/2))

/-- `p` is in the subtree rooted at `r`. -/
def isDesc (r p : Nat) : Prop := isDescF r p p = true

theorem isDescF_stable (r : Nat) :
    ∀ (fuel fuel2 p : Nat), p ≤ fuel → p ≤ fuel2 →
    isDescF r fuel p = isDescF r fuel2 p := by
  intro fuel
  induction fuel with
  | zero =>
    intro fuel2 p hp hp2
    have hp0 : p = 0 := by omega
    subst hp0
    cases fuel2 with
    | zero => rfl
    | succ f2 => simp [isDescF]
  | succ f ih =>
    intro fuel2 p hp hp2
    cases fuel2 with
    | zero =>
      have hp0 : p = 0 := by omega
      subst hp0
      simp [isDescF]
    | succ f2 =>
      cases p with
      | zero => simp [isDescF]
      | succ q =>
        rw [isDescF, isDescF]
        rw [ih f2 ((q+1-1)/2) (by omega) (by omega)]

theorem isDesc_iff (r p : Nat) :
    isDesc r p ↔ (r = p ∨ (0 < p ∧ isDesc r ((p-1)/2))) := by
  cases p with
  | zero =>
    rw [isDesc, isDescF]
    simp
  | succ q =>
    rw [isDesc, isDescF]
    rw [isDescF_stable r q ((q+1-1)/2) ((q+1-1)/2) (by omega) (le_refl _)]
    simp [isDesc, Bool.or_eq_true, Bool.and_eq_true, decide_eq_true_eq]

theorem isDesc_refl (r : Nat) : isDesc r r := (isDesc_iff r r).mpr (Or.inl rfl)

theorem isDesc_le (r : Nat) : ∀ p, isDesc r p → r ≤ p := by
  intro p
  induction p using Nat.strong_induction_on with
  | _ p ih =>
    intro hd
    rcases (isDesc_iff r p).mp hd with h | ⟨hp0, hq⟩
    · omega
    · have := ih ((p-1)/2) (by omega) hq
      omega

theorem isDesc_trans (r s : Nat) : ∀ p, isDesc r s → isDesc s p → isDesc r p := by
  intro p
  induction p using Nat.strong_induction_on with
  | _ p ih =>
    intro hrs hsp
    rcases (isDesc_iff s p).mp hsp with h | ⟨hp0, hq⟩
    · rw [← h]
      exact hrs
    · exact (isDesc_iff r p).mpr (Or.inr ⟨hp0, ih ((p-1)/2) (by omega) hrs hq⟩)

theorem isDesc_child1 (r p : Nat) (h : isDesc r p) : isDesc r (2*p+1) := by
  refine (isDesc_iff r (2*p+1)).mpr (Or.inr ⟨by omega, ?_⟩)
  have he : (2*p+1-1)/2 = p := by omega
  rwa [he]

theorem isDesc_child2 (r p : Nat) (h : isDesc r p) : isDesc r (2*p+2) := by
  refine (isDesc_iff r (2*p+2)).mpr (Or.inr ⟨by omega, ?_⟩)
  have he : (2*p+2-1)/2 = p := by omega
  rwa [he]

theorem isDesc_zero (p : Nat) : isDesc 0 p := by
  induction p using Nat.strong_induction_on with
  | _ p ih =>
    cases p with
    | zero => exact isDesc_refl 0
    | succ q =>
      exact (isDesc_iff 0 (q+1)).mpr (Or.inr ⟨by omega, ih ((q+1-1)/2) (by omega)⟩)

theorem not_isDesc_of_lt (r p : Nat) (h : p < r) : ¬ isDesc r p :=
  fun hd => absurd (isDesc_le r p hd) (by omega)

theorem isDesc_split (r : Nat) : ∀ p, isDesc r p → r ≠ p →
    isDesc (2*r+1) p ∨ isDesc (2*r+2) p := by
  intro p
  induction p using Nat.strong_induction_on with
  | _ p ih =>
    intro hd hne
    rcases (isDesc_iff r p).mp hd with h | ⟨hp0, hq⟩
    · exact absurd h hne
    · by_cases hqr : (p-1)/2 = r
      · have hcase : p = 2*r+1 ∨ p = 2*r+2 := by omega
        rcases hcase with h | h
        · exact Or.inl (h ▸ isDesc_refl _)
        · exact Or.inr (h ▸ isDesc_refl _)
      · rcases ih ((p-1)/2) (by omega) hq (fun hh => hqr hh.symm) with h | h
        · exact Or.inl ((isDesc_iff _ p).mpr (Or.inr ⟨hp0, h⟩))
        · exact Or.inr ((isDesc_iff _ p).mpr (Or.inr ⟨hp0, h⟩))

theorem not_isDesc_sibling21 (r : Nat) : ¬ isDesc (2*r+1) (2*r+2) := by
  intro hd
  rcases (isDesc_iff (2*r+1) (2*r+2)).mp hd with h | ⟨hp0, hq⟩
  · omega
  · have he : (2*r+2-1)/2 = r := by omega
    rw [he] at hq
    exact absurd (isDesc_le _ _ hq) (by omega)

theorem isDesc_sibling_disjoint (r : Nat) : ∀ p, isDesc (2*r+1) p → isDesc (2*r+2) p →
    False := by
  intro p
  induction p using Nat.strong_induction_on with
  | _ p ih =>
    intro h1 h2
    rcases (isDesc_iff (2*r+2) p).mp h2 with h | ⟨hp0, hq2⟩
    · rw [← h] at h1
      exact not_isDesc_sibling21 r h1
    · rcases (isDesc_iff (2*r+1) p).mp h1 with h | ⟨_, hq1⟩
      · rw [← h] at h2
        exact absurd (isDesc_le _ _ h2) (by omega)
      · exact ih ((p-1)/2) (by omega) hq1 hq2

theorem heapDescLe [Inhabited α] (k : α → Int) (first n : Nat) (l : List α) (r : Nat)
    (Hsub : ∀ j c, (c = 2*j+1 ∨ c = 2*j+2) → c < n → isDesc r j →
      k (l.get! (first+c)) ≤ k (l.get! (first+j))) :
    ∀ p, isDesc r p → p < n → k (l.get! (first+p)) ≤ k (l.get! (first+r)) := by
  intro p
  induction p using Nat.strong_induction_on with
  | _ p ih =>
    intro hd hn
    by_cases hpr : p = r
    · subst hpr
      exact le_refl _
    · rcases (isDesc_iff r p).mp hd with h | ⟨hp0, hq⟩
      · exact absurd h.symm hpr
      · have hcase : p = 2*((p-1)/2)+1 ∨ p = 2*((p-1)/2)+2 := by omega
        have hstep := Hsub ((p-1)/2) p hcase hn hq
        have hrec := ih ((p-1)/2) (by omega) hq (by omega)
        exact le_trans hstep hrec

/-- Specification of one `siftDown` run rooted at `root` (heap indices are
offsets from `first`, heap size `n`): only subtree positions are touched,
subtree values stay within the subtree, and afterwards the subtree is
heap-ordered. -/
def siftSpec [Inhabited α] (k : α → Int) (n first root : Nat) (l r : List α) : Prop :=
  permWithin first (first+n) l r ∧
    (∀ p, p < l.length → (∀ pp, pp < n → isDesc root pp → first + pp ≠ p) →
      r.get! p = l.get! p) ∧
    (∀ p, p < n → isDesc root p → ∃ q, q < n ∧ isDesc root q ∧
      r.get! (first+p) = l.get! (first+q)) ∧
    (∀ j c, (c = 2*j+1 ∨ c = 2*j+2) → c < n → isDesc root j →
      k (r.get! (first+c)) ≤ k (r.get! (first+j)))

theorem siftDown_step [Inhabited α] (k : α → Int) (n first fuel : Nat) (l : List α)
    (root C : Nat)
    (hlen : first + n ≤ l.length)
    (Hsub : ∀ j c, (c = 2*j+1 ∨ c = 2*j+2) → c < n → isDesc root j → j ≠ root →
      k (l.get! (first+c)) ≤ k (l.get! (first+j)))
    (hC : C = 2*root+1 ∨ C = 2*root+2) (hCn : C < n)
    (hmax : ∀ s, (s = 2*root+1 ∨ s = 2*root+2) → s < n →
      k (l.get! (first+s)) ≤ k (l.get! (first+C)))
    (hlt : k (l.get! (first+root)) < k (l.get! (first+C)))
    (IH : ∀ (l2 : List α), first + n ≤ l2.length →
      (∀ j c, (c = 2*j+1 ∨ c = 2*j+2) → c < n → isDesc C j → j ≠ C →
        k (l2.get! (first+c)) ≤ k (l2.get! (first+j))) →
      siftSpec k n first C l2 (siftDownGo (lessOf k) n first fuel l2 C)) :
    siftSpec k n first root l
      (siftDownGo (lessOf k) n first fuel (swapL l (first+root) (first+C)) C) := by
  have hrootC : root < C := by omega
  have hrootn : root < n := by omega
  have hdescC : isDesc root C := by
    rcases hC with h | h
    · exact h ▸ isDesc_child1 root root (isDesc_refl root)
    · exact h ▸ isDesc_child2 root root (isDesc_refl root)
  have hlswlen : (swapL l (first+root) (first+C)).length = l.length :=
    swapL_length l (first+root) (first+C)
  have hswR : (swapL l (first+root) (first+C)).get! (first+root) = l.get! (first+C) :=
    swapL_get_fst l (first+root) (first+C) (by omega) (by omega)
  have hswC : (swapL l (first+root) (first+C)).get! (first+C) = l.get! (first+root) :=
    swapL_get_snd l (first+root) (first+C) (by omega) (by omega)
  have hswO : ∀ p, p ≠ first+root → p ≠ first+C →
      (swapL l (first+root) (first+C)).get! p = l.get! p :=
    fun p h1 h2 => swapL_get_other l (first+root) (first+C) p h1 h2
  have Hsub2 : ∀ j c, (c = 2*j+1 ∨ c = 2*j+2) → c < n → isDesc C j → j ≠ C →
      k ((swapL l (first+root) (first+C)).get! (first+c)) ≤
        k ((swapL l (first+root) (first+C)).get! (first+j)) := by
    intro j c hcr hcn hdj hne
    have hCj : C < j := by
      have := isDesc_le C j hdj
      omega
    rw [hswO (first+c) (by omega) (by omega), hswO (first+j) (by omega) (by omega)]
    exact Hsub j c hcr hcn (isDesc_trans root C j hdescC hdj) (by omega)
  obtain ⟨hA, hB, hCC, hD⟩ := IH (swapL l (first+root) (first+C)) (by omega) Hsub2
  have hreslen : (siftDownGo (lessOf k) n first fuel (swapL l (first+root) (first+C)) C).length
      = l.length := by
    rw [hA.1, hlswlen]
  have hRroot : (siftDownGo (lessOf k) n first fuel
      (swapL l (first+root) (first+C)) C).get! (first+root) = l.get! (first+C) := by
    rw [hB (first+root) (by omega) (fun pp hppn hppd => by
      have := isDesc_le C pp hppd
      omega), hswR]
  refine ⟨?_, ?_, ?_, ?_⟩
  · exact permWithin_trans (permWithin_swapL l first (first+n) (first+root) (first+C)
      (by omega) (by omega) (by omega) (by omega) hlen) hA
  · intro p hp hP
    rw [hB p (by omega) (fun pp hppn hppd =>
      hP pp hppn (isDesc_trans root C pp hdescC hppd)),
      hswO p (Ne.symm (hP root hrootn (isDesc_refl root))) (Ne.symm (hP C hCn hdescC))]
  · intro p hpn hpd
    by_cases hproot : p = root
    · rw [hproot]
      exact ⟨C, hCn, hdescC, hRroot⟩
    · by_cases hpC : isDesc C p
      · obtain ⟨q2, hq2n, hq2d, hq2e⟩ := hCC p hpn hpC
        by_cases hq2C : q2 = C
        · rw [hq2C] at hq2e
          rw [hq2e, hswC]
          exact ⟨root, hrootn, isDesc_refl root, rfl⟩
        · have hCq2 : C < q2 := by
            have := isDesc_le C q2 hq2d
            omega
          rw [hq2e, hswO (first+q2) (by omega) (by omega)]
          exact ⟨q2, hq2n, isDesc_trans root C q2 hdescC hq2d, rfl⟩
      · have hpneC : p ≠ C := fun hh => hpC (hh ▸ isDesc_refl C)
        have h1 : (siftDownGo (lessOf k) n first fuel
            (swapL l (first+root) (first+C)) C).get! (first+p) =
            (swapL l (first+root) (first+C)).get! (first+p) :=
          hB (first+p) (by omega) (fun pp hppn hppd heq => by
            have hppp : pp = p := by omega
            exact hpC (hppp ▸ hppd))
        rw [h1, hswO (first+p) (by omega) (by omega)]
        exact ⟨p, hpn, hpd, rfl⟩
  · intro j c hcr hcn hdj
    by_cases hjroot : j = root
    · rw [hjroot] at hcr
      rw [hjroot]
      by_cases hcC : c = C
      · rw [hRroot, hcC]
        obtain ⟨q2, hq2n, hq2d, hq2e⟩ := hCC C hCn (isDesc_refl C)
        rw [hq2e]
        by_cases hq2C : q2 = C
        · rw [hq2C, hswC]
          exact le_of_lt hlt
        · have hCq2 : C < q2 := by
            have := isDesc_le C q2 hq2d
            omega
          rw [hswO (first+q2) (by omega) (by omega)]
          refine heapDescLe k first n l C ?_ q2 hq2d hq2n
          intro j2 c2 hcr2 hcn2 hdj2
          by_cases hj2C : j2 = C
          · rw [hj2C] at hcr2
            rw [hj2C]
            exact Hsub C c2 hcr2 hcn2 hdescC (by omega)
          · have := isDesc_le C j2 hdj2
            exact Hsub j2 c2 hcr2 hcn2 (isDesc_trans root C j2 hdescC hdj2) (by omega)
      · have hcd : ¬ isDesc C c := by
          intro hdc
          rcases hC with h | h <;> rcases hcr with h2 | h2
          · exact hcC (by omega)
          · rw [h] at hdc
            rw [h2] at hdc
            exact not_isDesc_sibling21 root hdc
          · rw [h] at hdc
            rw [h2] at hdc
            have := isDesc_le (2*root+2) (2*root+1) hdc
            omega
          · exact hcC (by omega)
        have hcne : c ≠ C := fun hh => hcd (hh ▸ isDesc_refl C)
        have hcgt : root < c := by omega
        have hRc : (siftDownGo (lessOf k) n first fuel
            (swapL l (first+root) (first+C)) C).get! (first+c) = l.get! (first+c) := by
          rw [hB (first+c) (by omega) (fun pp hppn hppd heq => by
            have hppp : pp = c := by omega
            exact hcd (hppp ▸ hppd)),
            hswO (first+c) (by omega) (by omega)]
        rw [hRroot, hRc]
        exact hmax c hcr hcn
    · have hjn : j < n := by omega
      by_cases hdCj : isDesc C j
      · exact hD j c hcr hcn hdCj
      · have hjne : j ≠ C := fun hh => hdCj (hh ▸ isDesc_refl C)
        have hdjc : isDesc j c := by
          rcases hcr with h | h
          · exact h ▸ isDesc_child1 j j (isDesc_refl j)
          · exact h ▸ isDesc_child2 j j (isDesc_refl j)
        have hcd : ¬ isDesc C c := by
          intro hdc
          rcases isDesc_split root j hdj (fun hh => hjroot hh.symm) with hs | hs
          · rcases hC with h | h
            · rw [h] at hdCj
              exact hdCj hs
            · have hdc2 : isDesc (2*root+1) c := isDesc_trans (2*root+1) j c hs hdjc
              rw [h] at hdc
              exact isDesc_sibling_disjoint root c hdc2 hdc
          · rcases hC with h | h
            · have hdc2 : isDesc (2*root+2) c := isDesc_trans (2*root+2) j c hs hdjc
              rw [h] at hdc
              exact isDesc_sibling_disjoint root c hdc hdc2
            · rw [h] at hdCj
              exact hdCj hs
        have hjgtroot : root < j := by
          have := isDesc_le root j hdj
          omega
        have hcgtroot : root < c := by omega
        have hcne : c ≠ C := fun hh => hcd (hh ▸ isDesc_refl C)
        have hRj : (siftDownGo (lessOf k) n first fuel
            (swapL l (first+root) (first+C)) C).get! (first+j) = l.get! (first+j) := by
          rw [hB (first+j) (by omega) (fun pp hppn hppd heq => by
            have hppp : pp = j := by omega
            exact hdCj (hppp ▸ hppd)),
            hswO (first+j) (by omega) (by omega)]
        have hRc : (siftDownGo (lessOf k) n first fuel
            (swapL l (first+root) (first+C)) C).get! (first+c) = l.get! (first+c) := by
          rw [hB (first+c) (by omega) (fun pp hppn hppd heq => by
            have hppp : pp = c := by omega
            exact hcd (hppp ▸ hppd)),
            hswO (first+c) (by omega) (by omega)]
        rw [hRj, hRc]
        exact Hsub j c hcr hcn hdj (by omega)

theorem siftDownGo_spec [Inhabited α] (k : α → Int) (n first : Nat) :
    ∀ (fuel : Nat) (l : List α) (root : Nat),
    first + n ≤ l.length → n ≤ root + fuel →
    (∀ j c, (c = 2*j+1 ∨ c = 2*j+2) → c < n → isDesc root j → j ≠ root →
      k (l.get! (first+c)) ≤ k (l.get! (first+j))) →
    siftSpec k n first root l (siftDownGo (lessOf k) n first fuel l root) := by
  intro fuel
  induction fuel with
  | zero =>
    intro l root hlen hfuel Hsub
    rw [siftDownGo]
    refine ⟨permWithin_refl _ _ l, fun p hp hP => rfl,
      fun p hpn hpd => ⟨p, hpn, hpd, rfl⟩, ?_⟩
    intro j c hcr hcn hdj
    have := isDesc_le root j hdj
    exact absurd hcn (by omega)
  | succ f ih =>
    intro l root hlen hfuel Hsub
    rw [siftDownGo]
    by_cases hch : 2*root+1 ≥ n
    · rw [if_pos hch]
      refine ⟨permWithin_refl _ _ l, fun p hp hP => rfl,
        fun p hpn hpd => ⟨p, hpn, hpd, rfl⟩, ?_⟩
      intro j c hcr hcn hdj
      by_cases hjr : j = root
      · rw [hjr] at hcr
        exact absurd hcn (by omega)
      · exact Hsub j c hcr hcn hdj hjr
    · rw [if_neg hch]
      by_cases hsel : 2*root+1+1 < n ∧
          k (l.get! (first + (2*root+1))) < k (l.get! (first + (2*root+1) + 1))
      · rw [if_pos (show 2*root+1+1 < n ∧ lessOf k (l.get! (first + (2*root+1)))
            (l.get! (first + (2*root+1) + 1)) = true from
          ⟨hsel.1, by simp only [lessOf, decide_eq_true_eq]; exact hsel.2⟩)]
        by_cases hstop : k (l.get! (first+root)) < k (l.get! (first + (2*root+1+1)))
        · rw [if_neg (show ¬¬(lessOf k (l.get! (first+root))
              (l.get! (first + (2*root+1+1))) = true) from
            not_not_intro (by simp only [lessOf, decide_eq_true_eq]; exact hstop))]
          refine siftDown_step k n first f l root (2*root+1+1) hlen Hsub
            (Or.inr (by omega)) (by omega) ?_ hstop ?_
          · intro s hs hsn
            rcases hs with h | h
            · have he : first + s = first + (2*root+1) := by omega
              rw [he]
              refine le_of_lt ?_
              have he2 : first + (2*root+1+1) = first + (2*root+1) + 1 := by omega
              rw [he2]
              exact hsel.2
            · have he : first + s = first + (2*root+1+1) := by omega
              rw [he]
          · intro l2 hlen2 Hsub2
            exact ih l2 (2*root+1+1) hlen2 (by omega) Hsub2
        · rw [if_pos (show ¬(lessOf k (l.get! (first+root))
              (l.get! (first + (2*root+1+1))) = true) from
            (by simp only [lessOf, decide_eq_true_eq]; exact hstop))]
          refine ⟨permWithin_refl _ _ l, fun p hp hP => rfl,
            fun p hpn hpd => ⟨p, hpn, hpd, rfl⟩, ?_⟩
          intro j c hcr hcn hdj
          by_cases hjr : j = root
          · rw [hjr] at hcr
            rw [hjr]
            have hstop2 : ¬ k (l.get! (first+root)) <
                k (l.get! (first + (2*root+1) + 1)) := by
              have he2 : first + (2*root+1) + 1 = first + (2*root+1+1) := by omega
              rw [he2]
              exact hstop
            rcases hcr with h | h
            · have he : first + c = first + (2*root+1) := by omega
              rw [he]
              have := hsel.2
              omega
            · have he : first + c = first + (2*root+1) + 1 := by omega
              rw [he]
              omega
          · exact Hsub j c hcr hcn hdj hjr
      · rw [if_neg (show ¬(2*root+1+1 < n ∧ lessOf k (l.get! (first + (2*root+1)))
            (l.get! (first + (2*root+1) + 1)) = true) from
          (by simp only [lessOf, decide_eq_true_eq]; exact hsel))]
        by_cases hstop : k (l.get! (first+root)) < k (l.get! (first + (2*root+1)))
        · rw [if_neg (show ¬¬(lessOf k (l.get! (first+root))
              (l.get! (first + (2*root+1))) = true) from
            not_not_intro (by simp only [lessOf, decide_eq_true_eq]; exact hstop))]
          refine siftDown_step k n first f l root (2*root+1) hlen Hsub
            (Or.inl rfl) (by omega) ?_ hstop ?_
          · intro s hs hsn
            rcases hs with h | h
            · have he : first + s = first + (2*root+1) := by omega
              rw [he]
            · have hcond : ¬ k (l.get! (first + (2*root+1))) <
                  k (l.get! (first + (2*root+1) + 1)) := by
                intro hh
                exact hsel ⟨by omega, hh⟩
              have he : first + s = first + (2*root+1) + 1 := by omega
              rw [he]
              omega
          · intro l2 hlen2 Hsub2
            exact ih l2 (2*root+1) hlen2 (by omega) Hsub2
        · rw [if_pos (show ¬(lessOf k (l.get! (first+root))
              (l.get! (first + (2*root+1))) = true) from
            (by simp only [lessOf, decide_eq_true_eq]; exact hstop))]
          refine ⟨permWithin_refl _ _ l, fun p hp hP => rfl,
            fun p hpn hpd => ⟨p, hpn, hpd, rfl⟩, ?_⟩
          intro j c hcr hcn hdj
          by_cases hjr : j = root
          · rw [hjr] at hcr
            rw [hjr]
            rcases hcr with h | h
            · have he : first + c = first + (2*root+1) := by omega
              rw [he]
              omega
            · have hcond : ¬ k (l.get! (first + (2*root+1))) <
                  k (l.get! (first + (2*root+1) + 1)) := by
                intro hh
                exact hsel ⟨by omega, hh⟩
              have he : first + c = first + (2*root+1) + 1 := by omega
              rw [he]
              omega
          · exact Hsub j c hcr hcn hdj hjr

theorem heapBuildGo_spec [Inhabited α] (k : α → Int) (n first : Nat) :
    ∀ (i : Nat) (l : List α), first + n ≤ l.length →
    (∀ j c, (c = 2*j+1 ∨ c = 2*j+2) → c < n → i < j →
      k (l.get! (first+c)) ≤ k (l.get! (first+j))) →
    permWithin first (first+n) l (heapBuildGo (lessOf k) n first l i) ∧
      (∀ j c, (c = 2*j+1 ∨ c = 2*j+2) → c < n →
        k ((heapBuildGo (lessOf k) n first l i).get! (first+c)) ≤
          k ((heapBuildGo (lessOf k) n first l i).get! (first+j))) := by
  intro i
  induction i with
  | zero =>
    intro l hlen hbelow
    rw [heapBuildGo]
    have hsift := siftDownGo_spec k n first n l 0 hlen (by omega)
      (fun j c hcr hcn hdj hne => hbelow j c hcr hcn (by omega))
    exact ⟨hsift.1, fun j c hcr hcn => hsift.2.2.2 j c hcr hcn (isDesc_zero j)⟩
  | succ i2 ih =>
    intro l hlen hbelow
    rw [heapBuildGo]
    have hsift := siftDownGo_spec k n first n l (i2+1) hlen (by omega)
      (fun j c hcr hcn hdj hne => by
        have := isDesc_le (i2+1) j hdj
        exact hbelow j c hcr hcn (by omega))
    have hlen2 : (siftDownGo (lessOf k) n first n l (i2+1)).length = l.length :=
      hsift.1.1
    have hbelow2 : ∀ j c, (c = 2*j+1 ∨ c = 2*j+2) → c < n → i2 < j →
        k ((siftDownGo (lessOf k) n first n l (i2+1)).get! (first+c)) ≤
          k ((siftDownGo (lessOf k) n first n l (i2+1)).get! (first+j)) := by
      intro j c hcr hcn hij
      by_cases hdj : isDesc (i2+1) j
      · exact hsift.2.2.2 j c hcr hcn hdj
      · have hjne : j ≠ i2 + 1 := fun hh => hdj (hh ▸ isDesc_refl _)
        have hcnd : ¬ isDesc (i2+1) c := by
          intro hdc
          rcases (isDesc_iff (i2+1) c).mp hdc with h | ⟨hc0, hq⟩
          · omega
          · have hqj : (c-1)/2 = j := by omega
            rw [hqj] at hq
            exact hdj hq
        have hRj : (siftDownGo (lessOf k) n first n l (i2+1)).get! (first+j) =
            l.get! (first+j) :=
          hsift.2.1 (first+j) (by omega) (fun pp hppn hppd heq => by
            have hppp : pp = j := by omega
            exact hdj (hppp ▸ hppd))
        have hRc : (siftDownGo (lessOf k) n first n l (i2+1)).get! (first+c) =
            l.get! (first+c) :=
          hsift.2.1 (first+c) (by omega) (fun pp hppn hppd heq => by
            have hppp : pp = c := by omega
            exact hcnd (hppp ▸ hppd))
        rw [hRj, hRc]
        exact hbelow j c hcr hcn (by omega)
    have hrec := ih (siftDownGo (lessOf k) n first n l (i2+1)) (by omega) hbelow2
    exact ⟨permWithin_trans hsift.1 hrec.1, hrec.2⟩

theorem heapExtractGo_spec [Inhabited α] (k : α → Int) (first hi : Nat) :
    ∀ (i : Nat) (l : List α), i < hi → first + hi ≤ l.length →
    (∀ j c, (c = 2*j+1 ∨ c = 2*j+2) → c < i+1 →
      k (l.get! (first+c)) ≤ k (l.get! (first+j))) →
    (∀ p q, i < p → p ≤ q → q < hi → k (l.get! (first+p)) ≤ k (l.get! (first+q))) →
    (∀ p q, p ≤ i → i < q → q < hi → k (l.get! (first+p)) ≤ k (l.get! (first+q))) →
    permWithin first (first+i+1) l (heapExtractGo (lessOf k) first l i) ∧
      (∀ p q, p ≤ q → q < hi →
        k ((heapExtractGo (lessOf k) first l i).get! (first+p)) ≤
          k ((heapExtractGo (lessOf k) first l i).get! (first+q))) := by
  intro i
  induction i with
  | zero =>
    intro l hihi hlen hheap htail hsep
    rw [heapExtractGo, siftDownGo]
    simp only [Nat.add_zero]
    rw [swapL_self l first (by omega)]
    refine ⟨permWithin_refl _ _ l, ?_⟩
    intro p q hpq hq
    rcases Nat.eq_or_lt_of_le hpq with h | h
    · rw [h]
    · rcases Nat.eq_zero_or_pos p with h0 | h0
      · rw [h0]
        exact hsep 0 q (le_refl 0) (by omega) hq
      · exact htail p q (by omega) hpq hq
  | succ i2 ih =>
    intro l hihi hlen hheap htail hsep
    rw [heapExtractGo]
    have hswlen : (swapL l first (first + (i2+1))).length = l.length :=
      swapL_length l first (first + (i2+1))
    have hswF : (swapL l first (first + (i2+1))).get! first = l.get! (first + (i2+1)) :=
      swapL_get_fst l first (first + (i2+1)) (by omega) (by omega)
    have hswL : (swapL l first (first + (i2+1))).get! (first + (i2+1)) = l.get! first :=
      swapL_get_snd l first (first + (i2+1)) (by omega) (by omega)
    have hswO : ∀ p, p ≠ first → p ≠ first + (i2+1) →
        (swapL l first (first + (i2+1))).get! p = l.get! p :=
      fun p h1 h2 => swapL_get_other l first (first + (i2+1)) p h1 h2
    have hoot : ∀ p2, p2 < i2 + 2 → k (l.get! (first + p2)) ≤ k (l.get! first) := by
      intro p2 hp2
      have hdle := heapDescLe k first (i2+2) l 0
        (fun j c hcr hcn hdj => hheap j c hcr hcn) p2 (isDesc_zero p2) hp2
      simpa using hdle
    have hsift := siftDownGo_spec k (i2+1) first (i2+1)
      (swapL l first (first + (i2+1))) 0 (by omega) (by omega)
      (fun j c hcr hcn hdj hne => by
        rw [hswO (first+c) (by omega) (by omega), hswO (first+j) (by omega) (by omega)]
        exact hheap j c hcr (by omega))
    set l2 := siftDownGo (lessOf k) (i2+1) first (i2+1)
      (swapL l first (first + (i2+1))) 0 with hl2def
    have hl2len : l2.length = l.length := by
      rw [hsift.1.1, hswlen]
    have hl2tailval : ∀ p, i2 < p → p < hi →
        l2.get! (first+p) = (if p = i2 + 1 then l.get! first else l.get! (first+p)) := by
      intro p hp hphi
      have h1 : l2.get! (first+p) = (swapL l first (first + (i2+1))).get! (first+p) :=
        hsift.2.1 (first+p) (by omega) (fun pp hppn hppd heq => by omega)
      rw [h1]
      by_cases hpe : p = i2 + 1
      · rw [if_pos hpe, hpe, hswL]
      · rw [if_neg hpe, hswO (first+p) (by omega) (by omega)]
    have hH1 : ∀ j c, (c = 2*j+1 ∨ c = 2*j+2) → c < i2+1 →
        k (l2.get! (first+c)) ≤ k (l2.get! (first+j)) := by
      intro j c hcr hcn
      exact hsift.2.2.2 j c hcr hcn (isDesc_zero j)
    have hH2 : ∀ p q, i2 < p → p ≤ q → q < hi →
        k (l2.get! (first+p)) ≤ k (l2.get! (first+q)) := by
      intro p q hp hpq hq
      rw [hl2tailval p hp (by omega), hl2tailval q (by omega) hq]
      by_cases hpe : p = i2 + 1
      · rw [if_pos hpe]
        by_cases hqe : q = i2 + 1
        · rw [if_pos hqe]
        · rw [if_neg hqe]
          exact hsep 0 q (by omega) (by omega) hq
      · rw [if_neg hpe]
        have hqe : q ≠ i2 + 1 := by omega
        rw [if_neg hqe]
        exact htail p q (by omega) hpq hq
    have hH3 : ∀ p q, p ≤ i2 → i2 < q → q < hi →
        k (l2.get! (first+p)) ≤ k (l2.get! (first+q)) := by
      intro p q hp hq hqhi
      have hsrc := hsift.2.2.1 p (by omega) (isDesc_zero p)
      obtain ⟨src, hsrcn, _, hsrce⟩ := hsrc
      have hbound : k (l2.get! (first+p)) ≤ k (l.get! first) := by
        rw [hsrce]
        by_cases hs0 : src = 0
        · rw [hs0]
          simp only [Nat.add_zero]
          rw [hswF]
          exact hoot (i2+1) (by omega)
        · rw [hswO (first+src) (by omega) (by omega)]
          exact hoot src (by omega)
      refine le_trans hbound ?_
      rw [hl2tailval q hq hqhi]
      by_cases hqe : q = i2 + 1
      · rw [if_pos hqe]
      · rw [if_neg hqe]
        exact hsep 0 q (by omega) (by omega) hqhi
    have hrec := ih l2 (by omega) (by omega) hH1 hH2 hH3
    refine ⟨?_, hrec.2⟩
    refine permWithin_trans (permWithin_swapL l first (first+(i2+1)+1) first
      (first + (i2+1)) (le_refl first) (by omega) (by omega) (by omega) (by omega)) ?_
    refine permWithin_trans (permWithin_mono (le_refl first) (by omega) hsift.1) ?_
    exact permWithin_mono (le_refl first) (by omega) hrec.1

theorem heapSortGo_spec [Inhabited α] (k : α → Int) (l : List α) (a b : Nat)
    (hab : a ≤ b) (hb : b ≤ l.length) :
    permWithin a b l (heapSortGo (lessOf k) l a b) ∧
      sortedRange k a b (heapSortGo (lessOf k) l a b) := by
  rw [heapSortGo]
  have hbuild := heapBuildGo_spec k (b-a) a ((b-a-1)/2) l (by omega)
    (fun j c hcr hcn hij => absurd hcn (by omega))
  by_cases hz : b - a = 0
  · rw [if_pos hz]
    have hpw := hbuild.1
    refine ⟨⟨hpw.1, hpw.2.1, ?_, hpw.2.2.2⟩, ?_⟩
    · intro p hp
      rcases Nat.lt_or_ge p a with h2 | h2
      · exact hpw.2.1 p h2
      · exact hpw.2.2.1 p (by omega)
    · intro i j hai hij hjb
      exact absurd hjb (by omega)
  · rw [if_neg hz]
    have hblen : (heapBuildGo (lessOf k) (b-a) a l ((b-a-1)/2)).length = l.length :=
      hbuild.1.1
    have hext := heapExtractGo_spec k a (b-a) (b-a-1)
      (heapBuildGo (lessOf k) (b-a) a l ((b-a-1)/2)) (by omega) (by omega)
      (fun j c hcr hcn => hbuild.2 j c hcr (by omega))
      (fun p q hp hpq hq => by omega)
      (fun p q hp hq hqhi => by omega)
    constructor
    · have hbp := hbuild.1
      have heb : a + (b-a) = b := by omega
      rw [heb] at hbp
      refine permWithin_trans hbp ?_
      have := hext.1
      have he : a + (b-a-1) + 1 = b := by omega
      rw [he] at this
      exact this
    · intro i j hai hij hjb
      have := hext.2 (i - a) (j - a) (by omega) (by omega)
      have he1 : a + (i - a) = i := by omega
      have he2 : a + (j - a) = j := by omega
      rw [he1, he2] at this
      exact this

theorem reverseRangeGo_pw [Inhabited α] (a b : Nat) :
    ∀ (fuel : Nat) (l : List α) (i j : Nat), a ≤ i → j < b → b ≤ l.length →
    permWithin a b l (reverseRangeGo fuel l i j) := by
  intro fuel
  induction fuel with
  | zero =>
    intro l i j hai hjb hb
    rw [reverseRangeGo]
    exact permWithin_refl a b l
  | succ f ih =>
    intro l i j hai hjb hb
    rw [reverseRangeGo]
    by_cases hij : i < j
    · rw [if_pos hij]
      refine permWithin_trans (permWithin_swapL l a b i j hai (by omega) (by omega) hjb hb)
        ?_
      exact ih (swapL l i j) (i+1) (j-1) (by omega) (by omega)
        (by rw [swapL_length]; exact hb)
    · rw [if_neg hij]
      exact permWithin_refl a b l

theorem land_le_right (x y : Nat) : Nat.land x y ≤ y := by
  apply Nat.le_of_testBit
  intro i hi
  have hi2 : (x &&& y).testBit i = true := hi
  rw [Nat.testBit_land] at hi2
  exact (Bool.and_eq_true _ _).mp hi2 |>.2

theorem bitsLenAux_bounds :
    ∀ (fuel n : Nat), n ≤ fuel →
    n < 2 ^ bitsLenAux fuel n ∧ (1 ≤ n → 2 ^ bitsLenAux fuel n ≤ 2 * n) := by
  intro fuel
  induction fuel with
  | zero =>
    intro n hn
    have hn0 : n = 0 := by omega
    subst hn0
    rw [bitsLenAux]
    exact ⟨by norm_num, fun h => absurd h (by omega)⟩
  | succ f ih =>
    intro n hn
    rw [bitsLenAux]
    by_cases h0 : n = 0
    · rw [if_pos h0]
      subst h0
      exact ⟨by norm_num, fun h => absurd h (by omega)⟩
    · rw [if_neg h0]
      have hrec := ih (n / 2) (by omega)
      have hpow : 2 ^ (bitsLenAux f (n / 2) + 1) = 2 * 2 ^ bitsLenAux f (n / 2) := by
        rw [pow_succ]
        ring
      constructor
      · rw [hpow]
        have h1 := hrec.1
        omega
      · intro _
        rw [hpow]
        by_cases h1 : 1 ≤ n / 2
        · have h2 := hrec.2 h1
          omega
        · have hn1 : n = 1 := by omega
          have hz : n / 2 = 0 := by omega
          rw [hz] at hrec ⊢
          have : bitsLenAux f 0 = 0 := by
            cases f <;> simp [bitsLenAux]
          rw [this]
          omega

theorem permWithin_swap3 [Inhabited α] (l : List α) (a b p1 q1 p2 q2 p3 q3 : Nat)
    (hb : b ≤ l.length)
    (h1 : a ≤ p1) (h2 : p1 < b) (h3 : a ≤ q1) (h4 : q1 < b)
    (h5 : a ≤ p2) (h6 : p2 < b) (h7 : a ≤ q2) (h8 : q2 < b)
    (h9 : a ≤ p3) (h10 : p3 < b) (h11 : a ≤ q3) (h12 : q3 < b) :
    permWithin a b l (swapL (swapL (swapL l p1 q1) p2 q2) p3 q3) := by
  have e1 : (swapL l p1 q1).length = l.length := swapL_length ..
  have e2 : (swapL (swapL l p1 q1) p2 q2).length = l.length := by
    rw [swapL_length, e1]
  refine permWithin_trans (permWithin_swapL l a b p1 q1 h1 h2 h3 h4 hb) ?_
  refine permWithin_trans (permWithin_swapL _ a b p2 q2 h5 h6 h7 h8 (by omega)) ?_
  exact permWithin_swapL _ a b p3 q3 h9 h10 h11 h12 (by omega)

theorem breakPatternsGo_pw [Inhabited α] (l : List α) (a b : Nat) (hb : b ≤ l.length) :
    permWithin a b l (breakPatternsGo l a b) := by
  rw [breakPatternsGo]
  by_cases h8 : b - a ≥ 8
  · rw [if_pos h8]
    have hmod := bitsLenAux_bounds (b - a) (b - a) (le_refl _)
    have hmod1 : b - a < nextPowerOfTwo (b - a) := hmod.1
    have hmod2 : nextPowerOfTwo (b - a) ≤ 2 * (b - a) := hmod.2 (by omega)
    have hdiv : 2 ≤ (b - a) / 4 := by omega
    have hdiv2 : ((b - a) / 4) * 2 < b - a := by omega
    have ho : ∀ r : Nat, (if Nat.land r (nextPowerOfTwo (b - a) - 1) ≥ b - a then
        Nat.land r (nextPowerOfTwo (b - a) - 1) - (b - a)
        else Nat.land r (nextPowerOfTwo (b - a) - 1)) < b - a := by
      intro r
      have hland : Nat.land r (nextPowerOfTwo (b - a) - 1) ≤ nextPowerOfTwo (b - a) - 1 :=
        land_le_right r _
      by_cases hcase : Nat.land r (nextPowerOfTwo (b - a) - 1) ≥ b - a
      · rw [if_pos hcase]
        omega
      · rw [if_neg hcase]
        omega
    have ho1 := ho (xorshiftNext (b - a))
    have ho2 := ho (xorshiftNext (xorshiftNext (b - a)))
    have ho3 := ho (xorshiftNext (xorshiftNext (xorshiftNext (b - a))))
    refine permWithin_swap3 l a b _ _ _ _ _ _ hb ?_ ?_ ?_ ?_ ?_ ?_ ?_ ?_ ?_ ?_ ?_ ?_ <;>
      omega
  · rw [if_neg h8]
    exact permWithin_refl a b l

theorem order2Go_mem [Inhabited α] (less : α → α → Bool) (l : List α) (x y s : Nat) :
    ((order2Go less l x y s).1 = x ∨ (order2Go less l x y s).1 = y) ∧
      ((order2Go less l x y s).2.1 = x ∨ (order2Go less l x y s).2.1 = y) := by
  rw [order2Go]
  split_ifs <;> simp

set_option maxHeartbeats 1000000 in
theorem medianGo_mem [Inhabited α] (less : α → α → Bool) (l : List α) (x y z s : Nat) :
    (medianGo less l x y z s).1 = x ∨ (medianGo less l x y z s).1 = y ∨
      (medianGo less l x y z s).1 = z := by
  rw [medianGo]
  have h1 := order2Go_mem less l x y s
  rcases hre1 : order2Go less l x y s with ⟨x1, y1, s1⟩
  rw [hre1] at h1
  dsimp only at h1 ⊢
  have h2 := order2Go_mem less l y1 z s1
  rcases hre2 : order2Go less l y1 z s1 with ⟨y2, z2, s2⟩
  rw [hre2] at h2
  dsimp only at h2 ⊢
  have h3 := order2Go_mem less l x1 y2 s2
  rcases hre3 : order2Go less l x1 y2 s2 with ⟨x3, y3, s3⟩
  rw [hre3] at h3
  dsimp only at h3 ⊢
  rcases h1.1 with ha | ha <;> rcases h1.2 with hb | hb <;>
    rcases h2.1 with hc | hc <;> rcases h3.2 with hd | hd <;> subst_eqs <;> tauto

theorem medianAdjacentGo_mem [Inhabited α] (less : α → α → Bool) (l : List α)
    (i s : Nat) :
    (medianAdjacentGo less l i s).1 = i - 1 ∨ (medianAdjacentGo less l i s).1 = i ∨
      (medianAdjacentGo less l i s).1 = i + 1 := by
  rw [medianAdjacentGo]
  exact medianGo_mem less l (i-1) i (i+1) s

theorem choosePivotGo_range [Inhabited α] (less : α → α → Bool) (l : List α) (a b : Nat)
    (hab : a + 8 ≤ b) :
    a ≤ (choosePivotGo less l a b).1 ∧ (choosePivotGo less l a b).1 < b := by
  rw [choosePivotGo]
  have hdiv1 : 2 ≤ (b - a) / 4 := by omega
  have hdiv2 : ((b - a) / 4) * 3 < b - a := by omega
  rw [if_pos (by omega : b - a ≥ 8)]
  by_cases h50 : b - a ≥ 50
  · rw [if_pos h50]
    have hdiv50 : 12 ≤ (b - a) / 4 := by omega
    have hm1 := medianAdjacentGo_mem less l (a + (b-a)/4*1) 0
    rcases hre1 : medianAdjacentGo less l (a + (b-a)/4*1) 0 with ⟨i1, s1⟩
    rw [hre1] at hm1
    dsimp only at hm1 ⊢
    have hm2 := medianAdjacentGo_mem less l (a + (b-a)/4*2) s1
    rcases hre2 : medianAdjacentGo less l (a + (b-a)/4*2) s1 with ⟨j1, s2⟩
    rw [hre2] at hm2
    dsimp only at hm2 ⊢
    have hm3 := medianAdjacentGo_mem less l (a + (b-a)/4*3) s2
    rcases hre3 : medianAdjacentGo less l (a + (b-a)/4*3) s2 with ⟨k1, s3⟩
    rw [hre3] at hm3
    dsimp only at hm3 ⊢
    have hmm := medianGo_mem less l i1 j1 k1 s3
    rcases hre4 : medianGo less l i1 j1 k1 s3 with ⟨j4, s4⟩
    rw [hre4] at hmm
    dsimp only at hmm ⊢
    rcases hmm with h | h | h <;> rcases hm1 with h1 | h1 | h1 <;>
      rcases hm2 with h2 | h2 | h2 <;> rcases hm3 with h3 | h3 | h3 <;>
      subst_eqs <;> constructor <;> omega
  · rw [if_neg h50]
    have hmm := medianGo_mem less l (a + (b-a)/4*1) (a + (b-a)/4*2) (a + (b-a)/4*3) 0
    rcases hre4 : medianGo less l (a + (b-a)/4*1) (a + (b-a)/4*2) (a + (b-a)/4*3) 0
      with ⟨j4, s4⟩
    rw [hre4] at hmm
    dsimp only at hmm ⊢
    rcases hmm with h | h | h <;> subst_eqs <;> constructor <;> omega

theorem hlb_transfer [Inhabited α] (k : α → Int) {a b : Nat} {l r : List α}
    (h : permWithin a b l r) (hab : a ≤ b) (hb : b ≤ l.length)
    (hlb : 0 < a → ∀ t, a ≤ t → t < b → k (l.get! (a-1)) ≤ k (l.get! t)) :
    0 < a → ∀ t, a ≤ t → t < b → k (r.get! (a-1)) ≤ k (r.get! t) := by
  intro ha
  have he : r.get! (a-1) = l.get! (a-1) := h.2.1 (a-1) (by omega)
  rw [he]
  exact permWithin_range_pred (fun x => k (l.get! (a-1)) ≤ k x) h hab hb (hlb ha)

theorem sorted_glue [Inhabited α] (k : α → Int) (a mid b : Nat) (R : List α) (v : Int)
    (hamid : a ≤ mid) (hmidb : mid < b)
    (hL : ∀ t, a ≤ t → t < mid → k (R.get! t) < v)
    (hM : k (R.get! mid) = v)
    (hR : ∀ t, mid < t → t < b → v ≤ k (R.get! t))
    (hSL : sortedRange k a mid R) (hSR : sortedRange k (mid+1) b R) :
    sortedRange k a b R := by
  intro i j hai hij hjb
  rcases Nat.lt_trichotomy j mid with hj | hj | hj
  · exact hSL i j hai hij hj
  · rcases Nat.lt_or_ge i mid with hi | hi
    · have h1 := hL i hai hi
      rw [hj]
      omega
    · have hieq : i = j := by omega
      rw [hieq]
  · rcases Nat.lt_trichotomy i mid with hi | hi | hi
    · have h1 := hL i hai hi
      have h2 := hR j hj hjb
      omega
    · have h2 := hR j hj hjb
      rw [hi, hM]
      exact h2
    · exact hSR i j (by omega) hij hjb

theorem sorted_glue_eq [Inhabited α] (k : α → Int) (a mid b : Nat) (R : List α) (v : Int)
    (hamid : a ≤ mid)
    (hL : ∀ t, a ≤ t → t < mid → k (R.get! t) = v)
    (hR : ∀ t, mid ≤ t → t < b → v ≤ k (R.get! t))
    (hSR : sortedRange k mid b R) :
    sortedRange k a b R := by
  intro i j hai hij hjb
  rcases Nat.lt_or_ge i mid with hi | hi
  · rcases Nat.lt_or_ge j mid with hj | hj
    · have h1 := hL i hai hi
      have h2 := hL j (by omega) hj
      omega
    · have h1 := hL i hai hi
      have h2 := hR j hj hjb
      omega
  · exact hSR i j hi hij hjb

theorem pdq_eqbranch [Inhabited α] (k : α → Int) (fuel a b pivot2 limit1 : Nat)
    (wb wp : Bool) (l3 l4 : List α) (mid : Nat)
    (hre : partitionEqualGo (lessOf k) l3 a b pivot2 = (l4, mid))
    (IH : ∀ (l : List α) (a2 b2 limit2 : Nat) (wb2 wp2 : Bool), b2 ≤ l.length →
      b2 - a2 ≤ fuel →
      (0 < a2 → ∀ t, a2 ≤ t → t < b2 → k (l.get! (a2-1)) ≤ k (l.get! t)) →
      permWithin a2 b2 l (pdqsortGo (lessOf k) fuel l a2 b2 limit2 wb2 wp2) ∧
        sortedRange k a2 b2 (pdqsortGo (lessOf k) fuel l a2 b2 limit2 wb2 wp2))
    (hblen : b ≤ l3.length) (hab : a + 13 ≤ b) (hfuel : b - a ≤ fuel + 1)
    (hp1 : a ≤ pivot2) (hp2 : pivot2 < b)
    (hlb : 0 < a → ∀ t, a ≤ t → t < b → k (l3.get! (a-1)) ≤ k (l3.get! t))
    (ha0 : 0 < a)
    (hvle : k (l3.get! pivot2) ≤ k (l3.get! (a-1))) :
    permWithin a b l3 (pdqsortGo (lessOf k) fuel l4 mid b limit1 wb wp) ∧
      sortedRange k a b (pdqsortGo (lessOf k) fuel l4 mid b limit1 wb wp) := by
  have hpeq := partitionEqualGo_spec k l3 a b pivot2 hblen (by omega) hp1 hp2
  rw [hre] at hpeq
  dsimp only at hpeq
  obtain ⟨hP, hm1, hm2, hLle, hRgt⟩ := hpeq
  have hlen4 : l4.length = l3.length := hP.1
  have hvglobal : ∀ t, a ≤ t → t < b → k (l3.get! pivot2) ≤ k (l3.get! t) := by
    intro t h1 h2
    exact le_trans hvle (hlb ha0 t h1 h2)
  have hvglobal4 : ∀ t, a ≤ t → t < b → k (l3.get! pivot2) ≤ k (l4.get! t) :=
    permWithin_range_pred (fun x => k (l3.get! pivot2) ≤ k x) hP (by omega) hblen hvglobal
  have hrec := IH l4 mid b limit1 wb wp (by omega) (by omega)
    (fun _ t h1 h2 => by
      have h3 := hLle (mid-1) (by omega) (by omega)
      have h4 := hRgt t (by omega) h2
      omega)
  refine ⟨permWithin_trans hP (permWithin_mono (by omega) (le_refl b) hrec.1), ?_⟩
  refine sorted_glue_eq k a mid b _ (k (l3.get! pivot2)) (by omega) ?_ ?_ hrec.2
  · intro t h1 h2
    have he : (pdqsortGo (lessOf k) fuel l4 mid b limit1 wb wp).get! t = l4.get! t :=
      hrec.1.2.1 t h2
    rw [he]
    have h3 := hLle t h1 h2
    have h4 := hvglobal4 t h1 (by omega)
    omega
  · intro t h1 h2
    refine permWithin_range_pred (fun x => k (l3.get! pivot2) ≤ k x) hrec.1 (by omega)
      (by omega) ?_ t h1 h2
    intro t2 h3 h4
    have := hRgt t2 h3 h4
    omega

theorem pdq_partbranch [Inhabited α] (k : α → Int) (fuel a b pivot2 limit1 : Nat)
    (l3 l4 : List α) (mid : Nat) (flag : Bool)
    (hre : partitionGo (lessOf k) l3 a b pivot2 = (l4, mid, flag))
    (IH : ∀ (l : List α) (a2 b2 limit2 : Nat) (wb2 wp2 : Bool), b2 ≤ l.length →
      b2 - a2 ≤ fuel →
      (0 < a2 → ∀ t, a2 ≤ t → t < b2 → k (l.get! (a2-1)) ≤ k (l.get! t)) →
      permWithin a2 b2 l (pdqsortGo (lessOf k) fuel l a2 b2 limit2 wb2 wp2) ∧
        sortedRange k a2 b2 (pdqsortGo (lessOf k) fuel l a2 b2 limit2 wb2 wp2))
    (hblen : b ≤ l3.length) (hab : a + 13 ≤ b) (hfuel : b - a ≤ fuel + 1)
    (hp1 : a ≤ pivot2) (hp2 : pivot2 < b)
    (hlb : 0 < a → ∀ t, a ≤ t → t < b → k (l3.get! (a-1)) ≤ k (l3.get! t)) :
    (∀ x y : Bool,
      permWithin a b l3 (pdqsortGo (lessOf k) fuel
        (pdqsortGo (lessOf k) fuel l4 a mid limit1 true true) (mid+1) b limit1 x y) ∧
      sortedRange k a b (pdqsortGo (lessOf k) fuel
        (pdqsortGo (lessOf k) fuel l4 a mid limit1 true true) (mid+1) b limit1 x y)) ∧
    (∀ x y : Bool,
      permWithin a b l3 (pdqsortGo (lessOf k) fuel
        (pdqsortGo (lessOf k) fuel l4 (mid+1) b limit1 true true) a mid limit1 x y) ∧
      sortedRange k a b (pdqsortGo (lessOf k) fuel
        (pdqsortGo (lessOf k) fuel l4 (mid+1) b limit1 true true) a mid limit1 x y)) := by
  have hpart := partitionGo_spec k l3 a b pivot2 hblen (by omega) hp1 hp2
  rw [hre] at hpart
  dsimp only at hpart
  obtain ⟨hP, hm1, hm2, hMv, hLlt, hRge⟩ := hpart
  have hlen4 : l4.length = l3.length := hP.1
  have hlb4 := hlb_transfer k hP (by omega) hblen hlb
  constructor
  · intro x y
    have hrec1 := IH l4 a mid limit1 true true (by omega) (by omega)
      (fun ha t h1 h2 => hlb4 ha t h1 (by omega))
    set R1 := pdqsortGo (lessOf k) fuel l4 a mid limit1 true true with hR1def
    have hlenR1 : R1.length = l3.length := by
      rw [hrec1.1.1, hlen4]
    have hR1mid : ∀ p, mid ≤ p → R1.get! p = l4.get! p := fun p hp => hrec1.1.2.2.1 p hp
    have hR1L : ∀ t, a ≤ t → t < mid → k (R1.get! t) < k (l3.get! pivot2) :=
      permWithin_range_pred (fun x2 => k x2 < k (l3.get! pivot2)) hrec1.1 (by omega)
        (by omega) hLlt
    have hrec2 := IH R1 (mid+1) b limit1 x y (by omega) (by omega)
      (fun _ t h1 h2 => by
        have he1 : mid + 1 - 1 = mid := by omega
        rw [he1, hR1mid mid (le_refl mid), hR1mid t (by omega), hMv]
        exact hRge t (by omega) h2)
    set R2 := pdqsortGo (lessOf k) fuel R1 (mid+1) b limit1 x y with hR2def
    have hR2low : ∀ p, p < mid + 1 → R2.get! p = R1.get! p := fun p hp => hrec2.1.2.1 p hp
    refine ⟨permWithin_trans hP (permWithin_trans
      (permWithin_mono (le_refl a) (by omega) hrec1.1)
      (permWithin_mono (by omega) (le_refl b) hrec2.1)), ?_⟩
    refine sorted_glue k a mid b R2 (k (l3.get! pivot2)) (by omega) (by omega) ?_ ?_ ?_ ?_ ?_
    · intro t h1 h2
      rw [hR2low t (by omega)]
      exact hR1L t h1 h2
    · rw [hR2low mid (by omega), hR1mid mid (le_refl mid)]
      exact hMv
    · intro t h1 h2
      refine permWithin_range_pred (fun x2 => k (l3.get! pivot2) ≤ k x2) hrec2.1 (by omega)
        (by omega) ?_ t h1 h2
      intro t2 h3 h4
      rw [hR1mid t2 (by omega)]
      exact hRge t2 (by omega) h4
    · intro i j h1 h2 h3
      rw [hR2low i (by omega), hR2low j (by omega)]
      exact hrec1.2 i j h1 h2 h3
    · exact hrec2.2
  · intro x y
    have hrec1 := IH l4 (mid+1) b limit1 true true (by omega) (by omega)
      (fun _ t h1 h2 => by
        have he1 : mid + 1 - 1 = mid := by omega
        rw [he1, hMv]
        exact hRge t (by omega) h2)
    set R1 := pdqsortGo (lessOf k) fuel l4 (mid+1) b limit1 true true with hR1def
    have hlenR1 : R1.length = l3.length := by
      rw [hrec1.1.1, hlen4]
    have hR1low : ∀ p, p < mid + 1 → R1.get! p = l4.get! p := fun p hp => hrec1.1.2.1 p hp
    have hR1R : ∀ t, mid < t → t < b → k (l3.get! pivot2) ≤ k (R1.get! t) :=
      fun t h1 h2 => permWithin_range_pred (fun x2 => k (l3.get! pivot2) ≤ k x2) hrec1.1
        (by omega) (by omega) (fun t2 h3 h4 => hRge t2 (by omega) h4) t (by omega) h2
    have hrec2 := IH R1 a mid limit1 x y (by omega) (by omega)
      (fun ha t h1 h2 => by
        rw [hR1low (a-1) (by omega), hR1low t (by omega)]
        exact hlb4 ha t h1 (by omega))
    set R2 := pdqsortGo (lessOf k) fuel R1 a mid limit1 x y with hR2def
    have hR2high : ∀ p, mid ≤ p → R2.get! p = R1.get! p := fun p hp => hrec2.1.2.2.1 p hp
    refine ⟨permWithin_trans hP (permWithin_trans
      (permWithin_mono (by omega) (le_refl b) hrec1.1)
      (permWithin_mono (le_refl a) (by omega) hrec2.1)), ?_⟩
    refine sorted_glue k a mid b R2 (k (l3.get! pivot2)) (by omega) (by omega) ?_ ?_ ?_ ?_ ?_
    · intro t h1 h2
      refine permWithin_range_pred (fun x2 => k x2 < k (l3.get! pivot2)) hrec2.1 (by omega)
        (by omega) ?_ t h1 h2
      intro t2 h3 h4
      rw [hR1low t2 (by omega)]
      exact hLlt t2 h3 h4
    · rw [hR2high mid (le_refl mid), hR1low mid (by omega)]
      exact hMv
    · intro t h1 h2
      rw [hR2high t (by omega)]
      exact hR1R t h1 h2
    · exact hrec2.2
    · intro i j h1 h2 h3
      rw [hR2high i (by omega), hR2high j (by omega)]
      exact hrec1.2 i j h1 h2 h3

theorem pdqsortGo_spec [Inhabited α] (k : α → Int) :
    ∀ (fuel : Nat) (l : List α) (a b limit : Nat) (wb wp : Bool),
    b ≤ l.length → b - a ≤ fuel →
    (0 < a → ∀ t, a ≤ t → t < b → k (l.get! (a-1)) ≤ k (l.get! t)) →
    permWithin a b l (pdqsortGo (lessOf k) fuel l a b limit wb wp) ∧
      sortedRange k a b (pdqsortGo (lessOf k) fuel l a b limit wb wp) := by
  intro fuel
  induction fuel with
  | zero =>
    intro l a b limit wb wp hb hfuel hlb
    rw [pdqsortGo]
    exact ⟨permWithin_refl a b l, fun i j h1 h2 h3 => absurd h3 (by omega)⟩
  | succ f ih =>
    intro l a b limit wb wp hb hfuel hlb
    rw [pdqsortGo]
    by_cases h12 : b - a ≤ 12
    · rw [if_pos h12]
      have hins := insertionSortGo_adj k l a b hb
      exact ⟨hins.1, sortedRange_of_adj k hins.2⟩
    · rw [if_neg h12]
      by_cases hlim : limit = 0
      · rw [if_pos hlim]
        exact heapSortGo_spec k l a b (by omega) hb
      · rw [if_neg hlim]
        have hbrk : permWithin a b l
            (if ¬(wb = true) then (breakPatternsGo l a b, limit - 1) else (l, limit)).1 := by
          split_ifs
          · exact permWithin_refl a b l
          · exact breakPatternsGo_pw l a b hb
        rcases hre1 : (if ¬(wb = true) then (breakPatternsGo l a b, limit - 1)
            else (l, limit)) with ⟨l1, limit1⟩
        rw [hre1] at hbrk
        dsimp only at hbrk ⊢
        have hlen1 : l1.length = l.length := hbrk.1
        have hlb1 := hlb_transfer k hbrk (by omega) hb hlb
        have hpiv := choosePivotGo_range (lessOf k) l1 a b (by omega)
        rcases hre2 : choosePivotGo (lessOf k) l1 a b with ⟨pivot, hint⟩
        rw [hre2] at hpiv
        dsimp only at hpiv ⊢
        have hrev : permWithin a b l1
            (if hint = SortHint.decreasing then
              (reverseRangeGo b l1 a (b - 1), (b - 1) - (pivot - a), SortHint.increasing)
            else (l1, pivot, hint)).1 ∧
            a ≤ (if hint = SortHint.decreasing then
              (reverseRangeGo b l1 a (b - 1), (b - 1) - (pivot - a), SortHint.increasing)
            else (l1, pivot, hint)).2.1 ∧
            (if hint = SortHint.decreasing then
              (reverseRangeGo b l1 a (b - 1), (b - 1) - (pivot - a), SortHint.increasing)
            else (l1, pivot, hint)).2.1 < b := by
          split_ifs
          · dsimp only
            exact ⟨reverseRangeGo_pw a b b l1 a (b-1) (le_refl a) (by omega) (by omega),
              by omega, by omega⟩
          · exact ⟨permWithin_refl a b l1, hpiv.1, hpiv.2⟩
        rcases hre3 : (if hint = SortHint.decreasing then
            (reverseRangeGo b l1 a (b - 1), (b - 1) - (pivot - a), SortHint.increasing)
          else (l1, pivot, hint)) with ⟨l2, pivot2, hint2⟩
        rw [hre3] at hrev
        dsimp only at hrev ⊢
        have hlen2 : l2.length = l.length := hrev.1.1.trans hlen1
        have hlb2 := hlb_transfer k hrev.1 (by omega) (by omega) hlb1
        have hpisf : permWithin a b l2
            (if wb = true ∧ wp = true ∧ hint2 = SortHint.increasing then
              partInsSortGo (lessOf k) l2 a b else (l2, false)).1 ∧
            ((if wb = true ∧ wp = true ∧ hint2 = SortHint.increasing then
              partInsSortGo (lessOf k) l2 a b else (l2, false)).2 = true →
              adjSorted k a b
                (if wb = true ∧ wp = true ∧ hint2 = SortHint.increasing then
                  partInsSortGo (lessOf k) l2 a b else (l2, false)).1) := by
          split_ifs
          · exact partInsSortGo_spec k l2 a b (by omega) (by omega) hlb2
          · exact ⟨permWithin_refl a b l2, fun h => by simp at h⟩
        rcases hre4 : (if wb = true ∧ wp = true ∧ hint2 = SortHint.increasing then
            partInsSortGo (lessOf k) l2 a b else (l2, false)) with ⟨l3, d3⟩
        rw [hre4] at hpisf
        dsimp only at hpisf ⊢
        have hlen3 : l3.length = l.length := hpisf.1.1.trans hlen2
        have hlb3 := hlb_transfer k hpisf.1 (by omega) (by omega) hlb2
        have hchain : permWithin a b l l3 :=
          permWithin_trans hbrk (permWithin_trans hrev.1 hpisf.1)
        by_cases hd3 : d3 = true
        · rw [if_pos hd3]
          exact ⟨hchain, sortedRange_of_adj k (hpisf.2 hd3)⟩
        · rw [if_neg hd3]
          by_cases hcond : a > 0 ∧ ¬ (lessOf k (l3.get! (a-1)) (l3.get! pivot2) = true)
          · rw [if_pos hcond]
            rcases hre5 : partitionEqualGo (lessOf k) l3 a b pivot2 with ⟨l4, mid⟩
            simp only [hre5]
            have hvle : k (l3.get! pivot2) ≤ k (l3.get! (a-1)) := by
              have h2 := hcond.2
              simp only [lessOf, decide_eq_true_eq] at h2
              omega
            have hh := pdq_eqbranch k f a b pivot2 limit1 wb wp l3 l4 mid hre5 ih
              (by omega) (by omega) (by omega) hrev.2.1 hrev.2.2 hlb3 hcond.1 hvle
            exact ⟨permWithin_trans hchain hh.1, hh.2⟩
          · rw [if_neg hcond]
            rcases hre5 : partitionGo (lessOf k) l3 a b pivot2 with ⟨l4, mid, flag⟩
            simp only [hre5]
            dsimp only
            have hh := pdq_partbranch k f a b pivot2 limit1 l3 l4 mid flag hre5 ih
              (by omega) (by omega) (by omega) hrev.2.1 hrev.2.2 hlb3
            by_cases hlr : mid - a < b - mid
            · rw [if_pos hlr]
              have hg := hh.1 (decide (min (mid - a) (b - mid) ≥ (b - a) / 8)) flag
              exact ⟨permWithin_trans hchain hg.1, hg.2⟩
            · rw [if_neg hlr]
              have hg := hh.2 (decide (min (mid - a) (b - mid) ≥ (b - a) / 8)) flag
              exact ⟨permWithin_trans hchain hg.1, hg.2⟩

theorem goSortSlice_sorted [Inhabited α] (k : α → Int) (l : List α) :
    (goSortSlice (lessOf k) l).Perm l ∧
      sortedRange k 0 l.length (goSortSlice (lessOf k) l) := by
  rw [goSortSlice]
  have h := pdqsortGo_spec k (l.length + 1) l 0 l.length (bitsLen l.length) true true
    (le_refl _) (by omega) (fun h0 => absurd h0 (by omega))
  exact ⟨h.1.2.2.2, h.2⟩

theorem goSortSlice_perm_pairwise [Inhabited α] (k : α → Int) (l : List α) :
    (goSortSlice (lessOf k) l).Perm l ∧
      (goSortSlice (lessOf k) l).Pairwise (fun x y => k x ≤ k y) := by
  have h := goSortSlice_sorted k l
  refine ⟨h.1, pairwise_of_sortedRange k _ ?_⟩
  have hlen : (goSortSlice (lessOf k) l).length = l.length := h.1.length_eq
  rw [hlen]
  exact h.2

/-- Thirteen discovered files (enough to leave pdqsort's insertion-sort
regime), three of which share the extracted timestamp `10:00:05` on Jan 1
2020 (positions 0, 1 and 6 of the discovery order). -/
def cexFiles : List (List Char) :=
  ["A 1-1-2020, 10.00.05 a.mp4",
   "A 1-1-2020, 10.00.05 b.mp4",
   "A 1-1-2020, 10.00.01.mp4",
   "A 1-1-2020, 10.00.02.mp4",
   "A 1-1-2020, 10.00.09 a.mp4",
   "A 1-1-2020, 10.00.08.mp4",
   "A 1-1-2020, 10.00.05 c.mp4",
   "A 1-1-2020, 10.00.07.mp4",
   "A 1-1-2020, 10.00.06.mp4",
   "A 1-1-2020, 10.00.03.mp4",
   "A 1-1-2020, 10.00.04.mp4",
   "A 1-1-2020, 10.00.09 b.mp4",
   "A 1-1-2020, 10.00.00.mp4"].map String.toList

/-- C2 counterexample: on `cexFiles`, files `...05 a` and `...05 c` have
identical extracted ordering keys and `a` precedes `c` in the discovery
order, but the sequencer (sort.Slice = pdqsort) outputs `c` strictly before
`a` — the sort is not stable. Refutes the claim as stated. -/
theorem c2_counterexample :
    (cexFiles.indexOf "A 1-1-2020, 10.00.05 a.mp4".toList <
      cexFiles.indexOf "A 1-1-2020, 10.00.05 c.mp4".toList) ∧
      extractDateFromPath '/' "A 1-1-2020, 10.00.05 a.mp4".toList none =
        extractDateFromPath '/' "A 1-1-2020, 10.00.05 c.mp4".toList none ∧
      ((sortVideoFiles '/' (fun _ => none) cexFiles).indexOf
          "A 1-1-2020, 10.00.05 c.mp4".toList <
        (sortVideoFiles '/' (fun _ => none) cexFiles).indexOf
          "A 1-1-2020, 10.00.05 a.mp4".toList) := by
  decide

/-- C2 amended: for every discovered file list the sequencer output is a
permutation of the input that is ordered non-decreasing by the extracted
ordering key (pdqsort always sorts); the stability half of the original
claim holds only for lists of at most 12 files, where sort.Slice runs its
stable insertion sort and the sublist of files carrying any fixed key
value is preserved exactly. For longer lists stability can fail (see the
counterexample). -/
theorem c2_sequencer_sorted_stable (sep : Char) (stat : List Char → Option Int)
    (files : List (List Char)) :
    ((sortVideoFiles sep stat files).Perm files ∧
      (sortVideoFiles sep stat files).Pairwise
        (fun f g => goTimeBefore (extractDateFromPath sep g (stat g))
          (extractDateFromPath sep f (stat f)) = false)) ∧
    (files.length ≤ 12 →
      ∀ t : Int,
        (sortVideoFiles sep stat files).filter
            (fun f => decide (extractDateFromPath sep f (stat f) = t)) =
          files.filter (fun f => decide (extractDateFromPath sep f (stat f) = t))) := by
  constructor
  · have hbridge : sortVideoFiles sep stat files =
        goSortSlice (lessOf (fun f => extractDateFromPath sep f (stat f))) files := rfl
    have h := goSortSlice_perm_pairwise (fun f => extractDateFromPath sep f (stat f)) files
    rw [hbridge]
    refine ⟨h.1, List.Pairwise.imp ?_ h.2⟩
    intro a b hab
    simp only [goTimeBefore, decide_eq_false_iff_not, not_lt]
    exact hab
  · intro hlen t
    have hsort : sortVideoFiles sep stat files =
        insFoldAux (fun a b =>
          decide (extractDateFromPath sep a (stat a) < extractDateFromPath sep b (stat b)))
          [] files := by
      rw [sortVideoFiles]
      simp only [goTimeBefore]
      exact goSortSlice_small _ files hlen
    rw [hsort]
    have := insFold_filter (fun f => extractDateFromPath sep f (stat f)) t files []
      (List.Pairwise.nil)
    simpa using this

/-- C2 witness: three files, two sharing a key; the output is a sorted
permutation of the input and, at this size, the equal-key sublists are
preserved. -/
theorem c2_sequencer_sorted_stable_witness :
    ((sortVideoFiles '/' (fun _ => none)
        (["B 1-1-2020, 10.00.01 a.mp4", "B 1-1-2020, 10.00.01 b.mp4",
          "B 1-1-2020, 10.00.00.mp4"].map String.toList)).Perm
        (["B 1-1-2020, 10.00.01 a.mp4", "B 1-1-2020, 10.00.01 b.mp4",
          "B 1-1-2020, 10.00.00.mp4"].map String.toList) ∧
      (sortVideoFiles '/' (fun _ => none)
        (["B 1-1-2020, 10.00.01 a.mp4", "B 1-1-2020, 10.00.01 b.mp4",
          "B 1-1-2020, 10.00.00.mp4"].map String.toList)).Pairwise
        (fun f g => goTimeBefore (extractDateFromPath '/' g none)
          (extractDateFromPath '/' f none) = false)) ∧
      ∀ t : Int,
        (sortVideoFiles '/' (fun _ => none)
            (["B 1-1-2020, 10.00.01 a.mp4", "B 1-1-2020, 10.00.01 b.mp4",
              "B 1-1-2020, 10.00.00.mp4"].map String.toList)).filter
            (fun f => decide (extractDateFromPath '/' f none = t)) =
          (["B 1-1-2020, 10.00.01 a.mp4", "B 1-1-2020, 10.00.01 b.mp4",
            "B 1-1-2020, 10.00.00.mp4"].map String.toList).filter
            (fun f => decide (extractDateFromPath '/' f none = t)) := by
  have h := c2_sequencer_sorted_stable '/' (fun _ => none)
    (["B 1-1-2020, 10.00.01 a.mp4", "B 1-1-2020, 10.00.01 b.mp4",
      "B 1-1-2020, 10.00.00.mp4"].map String.toList)
  exact ⟨h.1, h.2 (by decide)⟩
